/-
  Verification development for the BGP route-propagation simulator.

  This file gives a shallow embedding of the simulator's C++ sources
  (announcement.h, bgp_policy.h / bgp_policy.cpp, as_graph.h / as_graph.cpp,
  the prefix parser and the topology-file parser) as executable Lean
  definitions, and proves properties of the embedded code.

  Modelling conventions:
  * `uint32_t` ASNs are modelled as `Nat` (casts are taken `% 2^32` where the
    source performs a narrowing conversion).
  * `std::unordered_map` is modelled as an association list, iterated in
    insertion order (the source's iteration order is unspecified; the
    association-list order is one fixed refinement of it).
  * C++ functions that can throw or dereference a null pointer are modelled
    with `Except`/`Option` results, `Except.error`/`none` marking the fault.
-/
import Mathlib

namespace BGPSim

/-- ASNs: `using ASN = uint32_t` in the source; modelled as `Nat`. -/
abbrev ASN := Nat

/-- `RelationshipType` from announcement.h: the tag on an announcement saying
how it entered the AS (underlying values 0,1,2,3). -/
inductive RelationshipType where
  | ORIGIN
  | CUSTOMER
  | PEER
  | PROVIDER
deriving DecidableEq

/-- The `uint8_t` value underlying each `RelationshipType` enumerator
(`ORIGIN = 0, CUSTOMER = 1, PEER = 2, PROVIDER = 3`); the source compares
tags with `<` on these values. -/
def RelationshipType.val : RelationshipType → Nat
  | .ORIGIN => 0
  | .CUSTOMER => 1
  | .PEER => 2
  | .PROVIDER => 3

/-- `RelationType` from as_graph.h: the CAIDA edge kind
(`CUSTOMER = -1, PEER = 0, PROVIDER = 1`). -/
inductive RelationType where
  | CUSTOMER
  | PEER
  | PROVIDER
deriving DecidableEq

/-- `IPv4Prefix` from announcement.h: 32-bit network address (host byte
order) and CIDR length. The default-constructed value (0,0) is the
sentinel returned for invalid input. Source field names: `address`,
`prefix_len`. -/
structure IPv4Prefix where
  address : Nat
  prefix_len : Nat
deriving DecidableEq

/-- The sentinel produced by `IPv4Prefix()`. -/
def IPv4Prefix.empty : IPv4Prefix := ⟨0, 0⟩

/-- `IPv6Prefix` from announcement.h: upper/lower 64 bits and CIDR length. -/
structure IPv6Prefix where
  high : Nat
  low : Nat
  prefix_len : Nat
deriving DecidableEq

/-- The sentinel produced by `IPv6Prefix()`. -/
def IPv6Prefix.empty : IPv6Prefix := ⟨0, 0, 0⟩

/-- `Prefix` from announcement.h: tagged union of IPv4 and IPv6 prefixes.
Equality first compares the tag, then the payload, exactly as
`Prefix::operator==` does. -/
inductive Prefix where
  | v4 : IPv4Prefix → Prefix
  | v6 : IPv6Prefix → Prefix
deriving DecidableEq

/-- The default-constructed `Prefix()` (an empty IPv4 prefix). -/
def Prefix.empty : Prefix := .v4 IPv4Prefix.empty

/-- `Announcement` from announcement.h. The source field `prefix` is named
`pfx` here because `prefix` is a Lean keyword; all other field names match
the source. -/
structure Announcement where
  pfx : Prefix
  next_hop_asn : ASN
  received_from : RelationshipType
  rov_invalid : Bool
  as_path : List ASN
deriving DecidableEq

/-- The `Announcement(p, origin, rel, rov_inv)` constructor: single-element
path `[origin]`, `next_hop_asn = origin`. -/
def Announcement.mkSeed (p : Prefix) (origin : ASN)
    (rel : RelationshipType := .ORIGIN) (rov_inv : Bool := false) :
    Announcement :=
  { pfx := p, next_hop_asn := origin, received_from := rel,
    rov_invalid := rov_inv, as_path := [origin] }

/-- `Announcement::containsAS`: linear scan of the path. -/
def Announcement.containsAS (a : Announcement) (asn : ASN) : Bool :=
  a.as_path.contains asn

/-- `Announcement::getPathLength`. -/
def Announcement.getPathLength (a : Announcement) : Nat :=
  a.as_path.length

/-- `Announcement::copy_with_new_hop`: same prefix, same `rov_invalid`,
same (un-prepended) path, new `next_hop_asn` and `received_from`. -/
def Announcement.copy_with_new_hop (a : Announcement) (new_next_hop : ASN)
    (new_rel : RelationshipType) : Announcement :=
  { a with next_hop_asn := new_next_hop, received_from := new_rel }

/-- `Announcement::isBetterThan`, transcribed rule for rule:
1. different `received_from` tags: smaller tag value wins;
2. different path lengths: shorter path wins;
3. otherwise: smaller `next_hop_asn` wins. -/
def Announcement.isBetterThan (a other : Announcement) : Bool :=
  if a.received_from ≠ other.received_from then
    a.received_from.val < other.received_from.val
  else if a.as_path.length ≠ other.as_path.length then
    a.as_path.length < other.as_path.length
  else
    a.next_hop_asn < other.next_hop_asn

/-- The triple actually consulted by `isBetterThan`
(`received_from`, path length, `next_hop_asn`). -/
def Announcement.cmpKey (a : Announcement) : RelationshipType × Nat × ASN :=
  (a.received_from, a.as_path.length, a.next_hop_asn)

/-! ### Association-list model of `std::unordered_map` -/

/-- Lookup in an association list (`map.find`). -/
def alistFind {κ α : Type} [DecidableEq κ] : List (κ × α) → κ → Option α
  | [], _ => none
  | (k, v) :: rest, key => if k = key then some v else alistFind rest key

/-- Replace the value stored under `key`; no-op when the key is absent. -/
def alistReplace {κ α : Type} [DecidableEq κ] :
    List (κ × α) → κ → α → List (κ × α)
  | [], _, _ => []
  | (k, v) :: rest, key, nv =>
    if k = key then (k, nv) :: rest else (k, v) :: alistReplace rest key nv

/-- Store `v` under `key`: replace an existing binding, else append a new one
(`map[key] = v`). -/
def alistInsert {κ α : Type} [DecidableEq κ]
    (l : List (κ × α)) (key : κ) (v : α) : List (κ × α) :=
  match alistFind l key with
  | some _ => alistReplace l key v
  | none => l ++ [(key, v)]

/-- Remove the binding for `key` (`map.erase(key)`). -/
def alistErase {κ α : Type} [DecidableEq κ] :
    List (κ × α) → κ → List (κ × α)
  | [], _ => []
  | (k, v) :: rest, key =>
    if k = key then rest else (k, v) :: alistErase rest key

/-- Apply `f` to the value stored under `key`; no-op when absent. -/
def alistUpdate {κ α : Type} [DecidableEq κ]
    (l : List (κ × α)) (key : κ) (f : α → α) : List (κ × α) :=
  match alistFind l key with
  | some v => alistReplace l key (f v)
  | none => l

/-- Keys of an association list. -/
def alistKeys {κ α : Type} (l : List (κ × α)) : List κ := l.map (·.1)

/-! ### BGP policies (bgp_policy.h / bgp_policy.cpp)

The C++ classes `BGP` and `ROV` differ only in `receiveAnnouncement`;
we model the pair with one state record carrying an `isROV` tag. -/

/-- The state owned by a `BGPPolicy` object: the local RIB
(prefix → best announcement), the received queue
(prefix → candidate announcements, in arrival order), the policy variant
(`isROV`) and the ROV `dropped_count` statistic. -/
structure PolicyState where
  local_rib : List (Prefix × Announcement)
  received_queue : List (Prefix × List Announcement)
  isROV : Bool
  dropped_count : Nat
deriving DecidableEq

/-- A freshly constructed `BGP` policy. -/
def PolicyState.mkBGP : PolicyState :=
  { local_rib := [], received_queue := [], isROV := false, dropped_count := 0 }

/-- A freshly constructed `ROV` policy. -/
def PolicyState.mkROV : PolicyState :=
  { local_rib := [], received_queue := [], isROV := true, dropped_count := 0 }

/-- Append `a` to the queue bucket for key `p`
(`received_queue[ann.prefix].push_back(ann)`). -/
def queuePush (q : List (Prefix × List Announcement)) (p : Prefix)
    (a : Announcement) : List (Prefix × List Announcement) :=
  match q with
  | [] => [(p, [a])]
  | (k, l) :: rest =>
    if k = p then (k, l ++ [a]) :: rest else (k, l) :: queuePush rest p a

/-- The candidates currently queued under key `p` (empty when absent). -/
def queueAt (q : List (Prefix × List Announcement)) (p : Prefix) :
    List Announcement :=
  (alistFind q p).getD []

/-- `BGPPolicy::receiveAnnouncement`: enqueue into the received queue. -/
def PolicyState.receiveStd (s : PolicyState) (a : Announcement) : PolicyState :=
  { s with received_queue := queuePush s.received_queue a.pfx a }

/-- The virtual `receiveAnnouncement` dispatch: `ROV::receiveAnnouncement`
drops `rov_invalid` announcements (counting them); otherwise the standard
behaviour runs. -/
def PolicyState.receiveAnnouncement (s : PolicyState) (a : Announcement) :
    PolicyState :=
  if s.isROV && a.rov_invalid then
    { s with dropped_count := s.dropped_count + 1 }
  else
    s.receiveStd a

/-- The candidate-selection loop of `BGP::processReceivedQueue`:
`best = candidates[0]`, replaced whenever a later candidate
`isBetterThan` the current best. -/
def bestOf (c0 : Announcement) (rest : List Announcement) : Announcement :=
  rest.foldl (fun best c => if c.isBetterThan best then c else best) c0

/-- Prepend the local ASN to the path when committing to the RIB
(`stored_ann.as_path.insert(begin, current_asn)`). -/
def storedFrom (current_asn : ASN) (a : Announcement) : Announcement :=
  { a with as_path := current_asn :: a.as_path }

/-- The RIB-update step of `BGP::processReceivedQueue` for one queue key:
install when absent, else replace only when the new copy `isBetterThan`
the incumbent. -/
def ribUpsert (rib : List (Prefix × Announcement)) (p : Prefix)
    (stored : Announcement) : List (Prefix × Announcement) :=
  match alistFind rib p with
  | none => rib ++ [(p, stored)]
  | some incumbent =>
    if stored.isBetterThan incumbent then alistReplace rib p stored else rib

/-- `BGP::processReceivedQueue current_asn`: for each queue bucket, pick the
best candidate, prepend `current_asn`, and update the RIB. (The C++
function also returns a `changed` flag; no property here depends on it,
so the model returns only the updated state.) -/
def PolicyState.processReceivedQueue (s : PolicyState) (current_asn : ASN) :
    PolicyState :=
  { s with
    local_rib := s.received_queue.foldl
      (fun rib pr =>
        match pr.2 with
        | [] => rib
        | c :: cs => ribUpsert rib pr.1 (storedFrom current_asn (bestOf c cs)))
      s.local_rib }

/-- `BGPPolicy::clearReceivedQueue`. -/
def PolicyState.clearReceivedQueue (s : PolicyState) : PolicyState :=
  { s with received_queue := [] }

/-- `BGPPolicy::seedAnnouncement`: `local_rib[ann.prefix] = ann`
(unconditional overwrite). -/
def PolicyState.seedAnnouncement (s : PolicyState) (a : Announcement) :
    PolicyState :=
  { s with local_rib := alistInsert s.local_rib a.pfx a }

/-- `BGPPolicy::getAnnouncement`: RIB lookup. -/
def PolicyState.getAnnouncement (s : PolicyState) (p : Prefix) :
    Option Announcement :=
  alistFind s.local_rib p

/-- A policy-level interaction step, as named in the spec's public
contract: `receive`, `process`, `clear_staging`. -/
inductive POp where
  | recv (a : Announcement)
  | proc (current_asn : ASN)
  | clearq
deriving DecidableEq

/-- Run a sequence of policy operations left to right. -/
def runPOps (s : PolicyState) : List POp → PolicyState
  | [] => s
  | .recv a :: rest => runPOps (s.receiveAnnouncement a) rest
  | .proc asn :: rest => runPOps (s.processReceivedQueue asn) rest
  | .clearq :: rest => runPOps s.clearReceivedQueue rest

/-! ### The AS graph (as_graph.h / as_graph.cpp)

The C++ `ASNode` stores `reference_wrapper`s to neighbour nodes inside a
node table keyed by ASN; we store the neighbours' ASNs and look nodes up
in the table, which is the same graph. `policy` is an owning pointer that
may be null before `initializeBGP`; we model it as an `Option`. -/

/-- `ASNode`: the per-AS record. -/
structure ASNode where
  asn : ASN
  providers : List ASN
  customers : List ASN
  peers : List ASN
  propagation_rank : Int
  policy : Option PolicyState
deriving DecidableEq

/-- `ASNode(asn_val)`: fresh node, empty adjacency, rank −1, no policy. -/
def ASNode.mk0 (asn : ASN) : ASNode :=
  { asn := asn, providers := [], customers := [], peers := [],
    propagation_rank := -1, policy := none }

/-- `ASGraph`: node table, edge statistics and the flattened rank layout. -/
structure ASGraph where
  nodes : List (ASN × ASNode)
  edge_count : Nat
  provider_customer_edges : Nat
  peer_edges : Nat
  ranked_ases : List (List ASN)
deriving DecidableEq

/-- `ASGraph()`. -/
def ASGraph.mk0 : ASGraph :=
  { nodes := [], edge_count := 0, provider_customer_edges := 0,
    peer_edges := 0, ranked_ases := [] }

/-- `ASGraph::getNode` (read-only): `none` when the ASN is absent. -/
def ASGraph.getNode (g : ASGraph) (asn : ASN) : Option ASNode :=
  alistFind g.nodes asn

/-- `ASGraph::getOrCreateNode`: ensure a node exists for `asn`. -/
def ASGraph.getOrCreateNode (g : ASGraph) (asn : ASN) : ASGraph :=
  match alistFind g.nodes asn with
  | some _ => g
  | none => { g with nodes := g.nodes ++ [(asn, ASNode.mk0 asn)] }

/-- Apply `f` to the node stored for `asn` (no-op when absent). -/
def ASGraph.updateNode (g : ASGraph) (asn : ASN) (f : ASNode → ASNode) :
    ASGraph :=
  { g with nodes := alistUpdate g.nodes asn f }

/-- `ASGraph::addRelationship`, edge statistics included. The two
`getOrCreateNode` references of the C++ may alias when `as1 = as2`; the
sequential updates below have the same effect in that case. -/
def ASGraph.addRelationship (g : ASGraph) (as1 as2 : ASN)
    (rel_type : RelationType) : ASGraph :=
  let g := (g.getOrCreateNode as1).getOrCreateNode as2
  let g := { g with edge_count := g.edge_count + 1 }
  match rel_type with
  | .PROVIDER =>
    let g := g.updateNode as1 (fun n => { n with providers := n.providers ++ [as2] })
    let g := g.updateNode as2 (fun n => { n with customers := n.customers ++ [as1] })
    { g with provider_customer_edges := g.provider_customer_edges + 1 }
  | .CUSTOMER =>
    let g := g.updateNode as1 (fun n => { n with customers := n.customers ++ [as2] })
    let g := g.updateNode as2 (fun n => { n with providers := n.providers ++ [as1] })
    { g with provider_customer_edges := g.provider_customer_edges + 1 }
  | .PEER =>
    let g := g.updateNode as1 (fun n => { n with peers := n.peers ++ [as2] })
    let g := g.updateNode as2 (fun n => { n with peers := n.peers ++ [as1] })
    { g with peer_edges := g.peer_edges + 1 }

/-- The provider list of `asn` (empty when the node is absent). -/
def ASGraph.providersOf (g : ASGraph) (asn : ASN) : List ASN :=
  ((g.getNode asn).map ASNode.providers).getD []

/-- The customer list of `asn` (empty when the node is absent). -/
def ASGraph.customersOf (g : ASGraph) (asn : ASN) : List ASN :=
  ((g.getNode asn).map ASNode.customers).getD []

/-- The peer list of `asn` (empty when the node is absent). -/
def ASGraph.peersOf (g : ASGraph) (asn : ASN) : List ASN :=
  ((g.getNode asn).map ASNode.peers).getD []

/-- `ASGraph::initializeBGP`: install a fresh `BGP` policy on every node
that has none. -/
def ASGraph.initializeBGP (g : ASGraph) : ASGraph :=
  { g with nodes := g.nodes.map (fun pr =>
      match pr.2.policy with
      | none => (pr.1, { pr.2 with policy := some PolicyState.mkBGP })
      | some _ => pr) }

/-! ### Cycle detection (as_graph.cpp, `hasCycleDFS` / `detectCycles`)

The C++ recursion is unbounded; the model threads a fuel argument that
every recursive call decrements, and `detectCycles` passes fuel that is
far larger than the number of calls the C++ can make on the same graph. -/

/-- One activation frame of the DFS: `enter current parent` is a call of
`hasCycleDFS(current, parent, …)`; `scan ns current parent` is its
neighbour loop with `ns` still to visit. -/
inductive DfsCall where
  | enter (current parent : ASN)
  | scan (ns : List ASN) (current parent : ASN)

/-- `hasCycleDFS` (both the call entry and its neighbour loop).
Arguments after the fuel: the frame, the `visited` set and the
`recursion_stack` (the stack holds the current DFS path; popping on a
normal return is implicit in the functional style). Returns the cycle
flag and the updated `visited` set. `cp` selects providers (`true`) or
customers (`false`), like the C++ `check_providers` argument. -/
def dfsGo (g : ASGraph) (cp : Bool) :
    Nat → DfsCall → List ASN → List ASN → Bool × List ASN
  | 0, _, visited, _ => (false, visited)
  | fuel + 1, .enter current parent, visited, rstack =>
    let visited' := if current ∈ visited then visited else visited ++ [current]
    match alistFind g.nodes current with
    | none => (false, visited')
    | some node =>
      dfsGo g cp fuel
        (.scan (if cp then node.providers else node.customers) current parent)
        visited' (current :: rstack)
  | _ + 1, .scan [] _ _, visited, _ => (false, visited)
  | fuel + 1, .scan (n :: ns) current parent, visited, rstack =>
    if n = parent then
      dfsGo g cp fuel (.scan ns current parent) visited rstack
    else if n ∈ rstack then
      (true, visited)
    else if n ∈ visited then
      dfsGo g cp fuel (.scan ns current parent) visited rstack
    else
      match dfsGo g cp fuel (.enter n current) visited rstack with
      | (true, v') => (true, v')
      | (false, v') => dfsGo g cp fuel (.scan ns current parent) v' rstack

/-- Fuel that strictly dominates the number of calls the unbounded C++
recursion performs on `g` (each node is entered at most once per start
node, and each neighbour is scanned at most once per entry). -/
def ASGraph.dfsFuel (g : ASGraph) : Nat :=
  (g.nodes.length + 2) *
    (g.nodes.foldl
      (fun acc pr => acc + pr.2.providers.length + pr.2.customers.length)
      0 + 2)

/-- One scan of `ASGraph::detectCycles` (the body of either of its two
`for` loops over the node table): start a DFS at every not-yet-visited
node, sharing the `visited` set, with parent sentinel `0`; report the
first cycle found. -/
def ASGraph.detectCyclesPass (g : ASGraph) (cp : Bool) : Bool :=
  (g.nodes.foldl
    (fun acc pr =>
      if acc.1 then acc
      else if pr.1 ∈ acc.2 then acc
      else dfsGo g cp g.dfsFuel (.enter pr.1 0) acc.2 [])
    (false, [])).1

/-- `ASGraph::detectCycles`: scan the provider direction, then the
customer direction; `true` means a cycle was reported. -/
def ASGraph.detectCycles (g : ASGraph) : Bool :=
  g.detectCyclesPass true || g.detectCyclesPass false

/-! ### Text parsing models

`std::stoi` / `std::strtoul` / `std::atoi` and the `inet_pton` address
parsers, as used by `IPv4Prefix::parse`, `IPv6Prefix::parse` and
`ASGraph::buildFromFile`. Strings are `List Char`. -/

/-- Exceptions that `std::stoi` can throw. -/
inductive ParseErr where
  | invalid_argument
  | out_of_range
deriving DecidableEq

/-- Convert a (non-empty) digit string to its decimal value. -/
def digitsToNat (ds : List Char) : Nat :=
  ds.foldl (fun acc c => acc * 10 + (c.toNat - 48)) 0

/-- Strip an optional leading sign, reporting whether it was '-'. -/
def takeSign (cs : List Char) : Bool × List Char :=
  match cs with
  | '-' :: rest => (true, rest)
  | '+' :: rest => (false, rest)
  | _ => (false, cs)

/-- Model of `std::stoi`: skip whitespace, optional sign, decimal digits.
Throws `invalid_argument` when no digit follows, `out_of_range` when the
value leaves `int` range. -/
def stoiModel (cs : List Char) : Except ParseErr Int :=
  let sc := takeSign (cs.dropWhile Char.isWhitespace)
  let ds := sc.2.takeWhile Char.isDigit
  if ds = [] then .error .invalid_argument
  else
    let v : Int := if sc.1 then -(digitsToNat ds : Int) else (digitsToNat ds : Int)
    if v < -2147483648 ∨ 2147483647 < v then .error .out_of_range
    else .ok v

/-- The narrowing `static_cast<uint8_t>` applied to the `stoi` result. -/
def u8cast (v : Int) : Nat := (v % 256).toNat

/-- Split a string at every occurrence of `sep` (keeping empty pieces). -/
def splitChar (sep : Char) : List Char → List (List Char)
  | [] => [[]]
  | c :: rest =>
    if c = sep then [] :: splitChar sep rest
    else
      match splitChar sep rest with
      | [] => [[c]]
      | grp :: gs => (c :: grp) :: gs

/-- Split at the first occurrence of `sep` (`str.find(sep)` + `substr`);
`none` when `sep` does not occur. -/
def splitFirst (sep : Char) : List Char → Option (List Char × List Char)
  | [] => none
  | c :: rest =>
    if c = sep then some ([], rest)
    else
      match splitFirst sep rest with
      | none => none
      | some (l, r) => some (c :: l, r)

/-- One dotted-quad octet: one to three digits, value at most 255. -/
def parseOctet (cs : List Char) : Option Nat :=
  if cs ≠ [] ∧ cs.length ≤ 3 ∧ cs.all Char.isDigit then
    let v := digitsToNat cs
    if v ≤ 255 then some v else none
  else none

/-- Model of `inet_pton(AF_INET, …)` composed with the source's `ntohl`:
exactly four dot-separated octets, yielding the host-order 32-bit
address; `none` models `inet_pton` returning 0. -/
def inet_pton4 (cs : List Char) : Option Nat :=
  match (splitChar '.' cs).mapM parseOctet with
  | some [a, b, c, d] => some (((a * 256 + b) * 256 + c) * 256 + d)
  | _ => none

/-- The value of a hexadecimal digit. -/
def hexVal (c : Char) : Nat :=
  if c.isDigit then c.toNat - 48
  else if 'a' ≤ c ∧ c ≤ 'f' then c.toNat - 87
  else c.toNat - 55

/-- One 16-bit group of an IPv6 address: one to four hex digits. -/
def parseHexGroup (cs : List Char) : Option Nat :=
  if cs ≠ [] ∧ cs.length ≤ 4 ∧
      cs.all (fun c => c.isDigit ∨ ('a' ≤ c ∧ c ≤ 'f') ∨ ('A' ≤ c ∧ c ≤ 'F')) then
    some (cs.foldl (fun acc c => acc * 16 + hexVal c) 0)
  else none

/-- Hex groups with an optional dotted-quad IPv4 tail (two 16-bit words)
in the final position. -/
def tailWords : List (List Char) → Option (List Nat)
  | [] => some []
  | [last] =>
    if last.contains '.' then
      (inet_pton4 last).map (fun a => [a / 65536, a % 65536])
    else (parseHexGroup last).map (fun w => [w])
  | p :: rest =>
    match parseHexGroup p, tailWords rest with
    | some w, some ws => some (w :: ws)
    | _, _ => none

/-- Split at the first `::`. -/
def splitDoubleColon : List Char → Option (List Char × List Char)
  | [] => none
  | ':' :: ':' :: rest => some ([], rest)
  | c :: rest => (splitDoubleColon rest).map (fun pr => (c :: pr.1, pr.2))

/-- Pack eight 16-bit words into the (high, low) 64-bit halves that the
source stores (host byte order). -/
def packV6 (ws : List Nat) : Nat × Nat :=
  let n := ws.foldl (fun acc w => acc * 65536 + w) 0
  (n / 2 ^ 64, n % 2 ^ 64)

/-- Model of `inet_pton(AF_INET6, …)`: colon-separated 16-bit hex groups,
at most one `::` compression, optional trailing dotted-quad. -/
def inet_pton6 (cs : List Char) : Option (Nat × Nat) :=
  match splitDoubleColon cs with
  | some (left, right) =>
    let lparts := if left = [] then [] else splitChar ':' left
    let rparts := if right = [] then [] else splitChar ':' right
    if lparts.all (· ≠ []) ∧ rparts.all (· ≠ []) then
      match lparts.mapM parseHexGroup, tailWords rparts with
      | some lw, some rw =>
        if lw.length + rw.length ≤ 7 then
          some (packV6 (lw ++ List.replicate (8 - lw.length - rw.length) 0 ++ rw))
        else none
      | _, _ => none
    else none
  | none =>
    let parts := splitChar ':' cs
    if parts.all (· ≠ []) then
      match tailWords parts with
      | some ws => if ws.length = 8 then some (packV6 ws) else none
      | none => none
    else none

/-- `IPv4Prefix::parse`: no '/' yields the sentinel; the length is read
with `std::stoi` (whose exceptions propagate — the function has no
handler); an unparseable address yields the sentinel; otherwise the
address/length pair. -/
def IPv4Prefix.parse (cs : List Char) : Except ParseErr IPv4Prefix :=
  match splitFirst '/' cs with
  | none => .ok IPv4Prefix.empty
  | some (addr, lenStr) =>
    match stoiModel lenStr with
    | .error e => .error e
    | .ok v =>
      match inet_pton4 addr with
      | none => .ok IPv4Prefix.empty
      | some a => .ok ⟨a, u8cast v⟩

/-- `IPv6Prefix::parse`: same shape as the IPv4 parser. -/
def IPv6Prefix.parse (cs : List Char) : Except ParseErr IPv6Prefix :=
  match splitFirst '/' cs with
  | none => .ok IPv6Prefix.empty
  | some (addr, lenStr) =>
    match stoiModel lenStr with
    | .error e => .error e
    | .ok v =>
      match inet_pton6 addr with
      | none => .ok IPv6Prefix.empty
      | some a => .ok ⟨a.1, a.2, u8cast v⟩

/-- `Prefix::parse`: dispatch on the presence of ':'. -/
def Prefix.parse (cs : List Char) : Except ParseErr Prefix :=
  if cs.contains ':' then (IPv6Prefix.parse cs).map Prefix.v6
  else (IPv4Prefix.parse cs).map Prefix.v4

/-- Model of `std::strtoul(str, &end, 10)` followed by the narrowing cast
to `ASN`: skip whitespace, optional sign, decimal digits. `none` models
`end == str` (no digit consumed); otherwise the 32-bit value (overflow
clamps to `ULONG_MAX`, '-' negates modulo 2^64, the cast takes `% 2^32`)
and the unconsumed remainder of the string. -/
def strtoulModel (cs : List Char) : Option (ASN × List Char) :=
  let sc := takeSign (cs.dropWhile Char.isWhitespace)
  let ds := sc.2.takeWhile Char.isDigit
  if ds = [] then none
  else
    let v := digitsToNat ds
    let v := if 2 ^ 64 ≤ v then 2 ^ 64 - 1 else v
    let v := if sc.1 then (2 ^ 64 - v) % 2 ^ 64 else v
    some (v % 2 ^ 32, sc.2.drop ds.length)

/-- Model of `std::atoi`: skip whitespace, optional sign, decimal digits;
yields 0 when no digit follows. -/
def atoiModel (cs : List Char) : Int :=
  let sc := takeSign (cs.dropWhile Char.isWhitespace)
  let ds := sc.2.takeWhile Char.isDigit
  if ds = [] then 0
  else if sc.1 then -(digitsToNat ds : Int) else (digitsToNat ds : Int)

/-- The field extraction of `ASGraph::buildFromFile` for one record line:
`<ASN1>` via `strtoul` (skip unless a digit was consumed and the next
character is '|'), then `<ASN2>` the same way; returns the two ASNs and
the remainder that the relationship field is read from. -/
def parseTwoASNs (cs : List Char) : Option (ASN × ASN × List Char) :=
  match strtoulModel cs with
  | none => none
  | some (as1, rest) =>
    match rest with
    | '|' :: rest2 =>
      match strtoulModel rest2 with
      | none => none
      | some (as2, rest3) =>
        match rest3 with
        | '|' :: rest4 => some (as1, as2, rest4)
        | _ => none
    | _ => none

/-- The `switch (rel_val)` of `buildFromFile`: −1/0/1 map to the three
edge kinds; every other value skips the line. -/
def relOf (v : Int) : Option RelationType :=
  if v = -1 then some RelationType.CUSTOMER
  else if v = 0 then some RelationType.PEER
  else if v = 1 then some RelationType.PROVIDER
  else none

/-- One line of the topology file: blank lines and '#' comments are
skipped, the two ASN fields are extracted, and the relationship field is
read with `std::atoi`. `none` means the line adds nothing. -/
def parseRelLine (cs : List Char) : Option (ASN × ASN × RelationType) :=
  match cs with
  | [] => none
  | c :: _ =>
    if c = '#' then none
    else
      match parseTwoASNs cs with
      | none => none
      | some (as1, as2, rest4) =>
        (relOf (atoiModel rest4)).map (fun rt => (as1, as2, rt))

/-- The parsing loop of `ASGraph::buildFromFile` over in-memory lines. -/
def buildFromLines (g : ASGraph) (lines : List (List Char)) : ASGraph :=
  lines.foldl
    (fun g l =>
      match parseRelLine l with
      | none => g
      | some r => g.addRelationship r.1 r.2.1 r.2.2)
    g

/-- String literals to character lists. -/
def strChars (s : String) : List Char := s.toList

/-! ### The propagation engine (as_graph.cpp)

Each phase is modelled with an explicit *trace*: the list of
`receiveAnnouncement` deliveries it performs, in order. The graph result
of a phase is the first component; the trace exists so that properties of
"every export performed during the phase" can be stated. -/

/-- One delivery performed during a send loop: `sender` exported its RIB
entry `src` to `receiver` as the copy `sent`. -/
structure Delivery where
  sender : ASN
  receiver : ASN
  src : Announcement
  sent : Announcement
deriving DecidableEq

/-- The valley-free guard of `propagateUp` / `propagateAcross`: only
entries learned from a customer or originated locally pass. -/
def vfOk (rel : RelationshipType) : Bool :=
  rel = RelationshipType.CUSTOMER || rel = RelationshipType.ORIGIN

/-- Whether `asn`'s node exists and has a policy installed. -/
def ASGraph.hasPolicy (g : ASGraph) (asn : ASN) : Bool :=
  match alistFind g.nodes asn with
  | some node => node.policy.isSome
  | none => false

/-- The sender loops shared by the three phases: for each RIB entry of
`asn`'s node (subject to the valley-free guard when `filt` is set) and
each neighbour produced by `nbrs` that is not on the entry's path and has
a policy, emit the `copy_with_new_hop asn tag` delivery. An absent node,
an absent policy, or an empty RIB emit nothing, exactly like the
`continue`s in the C++. -/
def nodeSends (g : ASGraph) (asn : ASN) (nbrs : ASNode → List ASN)
    (tag : RelationshipType) (filt : Bool) : List Delivery :=
  match alistFind g.nodes asn with
  | none => []
  | some node =>
    match node.policy with
    | none => []
    | some pol =>
      pol.local_rib.flatMap
        (fun pr =>
          let ann := pr.2
          if filt && !vfOk ann.received_from then []
          else
            (nbrs node).filterMap (fun nb =>
              if ann.containsAS nb then none
              else if g.hasPolicy nb then
                some { sender := asn, receiver := nb, src := ann,
                       sent := ann.copy_with_new_hop asn tag }
              else none))

/-- Deliver one announcement (`receiver->policy->receiveAnnouncement`). -/
def ASGraph.deliverTo (g : ASGraph) (receiver : ASN) (a : Announcement) :
    ASGraph :=
  g.updateNode receiver (fun n =>
    match n.policy with
    | none => n
    | some pol => { n with policy := some (pol.receiveAnnouncement a) })

/-- Deliver a list of sends in order. -/
def ASGraph.deliverAll (g : ASGraph) (ds : List Delivery) : ASGraph :=
  ds.foldl (fun g d => g.deliverTo d.receiver d.sent) g

/-- The send loop of one phase step: each AS in `senders` (in order)
computes its sends from the current state and delivers them; the traces
concatenate. -/
def sendPhase (g : ASGraph) (senders : List ASN)
    (mk : ASGraph → ASN → List Delivery) : ASGraph × List Delivery :=
  senders.foldl
    (fun acc asn =>
      let ds := mk acc.1 asn
      (acc.1.deliverAll ds, acc.2 ++ ds))
    (g, [])

/-- `processReceivedQueue(asn)` followed by `clearReceivedQueue()` for one
AS; skipped when the node is absent or has no policy. -/
def ASGraph.processClearOne (g : ASGraph) (asn : ASN) : ASGraph :=
  g.updateNode asn (fun n =>
    match n.policy with
    | none => n
    | some pol =>
      { n with policy := some ((pol.processReceivedQueue asn).clearReceivedQueue) })

/-- Process-and-clear every AS in the list, in order. -/
def ASGraph.processClearList (g : ASGraph) (asns : List ASN) : ASGraph :=
  asns.foldl ASGraph.processClearOne g

/-- Phase 1 sends of one AS: RIB entries passing the valley-free guard go
to every provider not on the path, tagged `CUSTOMER`. -/
def upSendsFromNode (g : ASGraph) (asn : ASN) : List Delivery :=
  nodeSends g asn ASNode.providers RelationshipType.CUSTOMER true

/-- Phase 2 sends of one AS: guarded entries go to every peer not on the
path, tagged `PEER`. -/
def acrossSendsFromNode (g : ASGraph) (asn : ASN) : List Delivery :=
  nodeSends g asn ASNode.peers RelationshipType.PEER true

/-- Phase 3 sends of one AS: every RIB entry (no guard) goes to every
customer not on the path, tagged `PROVIDER`. -/
def downSendsFromNode (g : ASGraph) (asn : ASN) : List Delivery :=
  nodeSends g asn ASNode.customers RelationshipType.PROVIDER false

/-- The rank ladder of `propagateUp`: send from rank r, then
process-and-clear rank r+1 (when it exists), and continue from r+1. -/
def upRanks : ASGraph → List (List ASN) → ASGraph × List Delivery
  | g, [] => (g, [])
  | g, [r] => sendPhase g r upSendsFromNode
  | g, r1 :: r2 :: rest =>
    let s1 := sendPhase g r1 upSendsFromNode
    let g2 := s1.1.processClearList r2
    let s2 := upRanks g2 (r2 :: rest)
    (s2.1, s1.2 ++ s2.2)

/-- `ASGraph::propagateUp` with its trace. -/
def ASGraph.propagateUpT (g : ASGraph) : ASGraph × List Delivery :=
  upRanks g g.ranked_ases

/-- `ASGraph::propagateUp`. -/
def ASGraph.propagateUp (g : ASGraph) : ASGraph := g.propagateUpT.1

/-- List of node-table keys, in iteration order. -/
def ASGraph.nodeKeys (g : ASGraph) : List ASN := alistKeys g.nodes

/-- `ASGraph::propagateAcross` with its trace: every AS sends to its
peers, and only afterwards every AS processes and clears its queue. -/
def ASGraph.propagateAcrossT (g : ASGraph) : ASGraph × List Delivery :=
  let s := sendPhase g g.nodeKeys acrossSendsFromNode
  (s.1.processClearList g.nodeKeys, s.2)

/-- `ASGraph::propagateAcross`. -/
def ASGraph.propagateAcross (g : ASGraph) : ASGraph := g.propagateAcrossT.1

/-- The rank ladder of `propagateDown`, taking the rank lists from highest
to lowest: send from rank r, then process-and-clear rank r−1. -/
def downRanks : ASGraph → List (List ASN) → ASGraph × List Delivery
  | g, [] => (g, [])
  | g, [r] => sendPhase g r downSendsFromNode
  | g, r1 :: r2 :: rest =>
    let s1 := sendPhase g r1 downSendsFromNode
    let g2 := s1.1.processClearList r2
    let s2 := downRanks g2 (r2 :: rest)
    (s2.1, s1.2 ++ s2.2)

/-- `ASGraph::propagateDown` with its trace. -/
def ASGraph.propagateDownT (g : ASGraph) : ASGraph × List Delivery :=
  downRanks g g.ranked_ases.reverse

/-- `ASGraph::propagateDown`. -/
def ASGraph.propagateDown (g : ASGraph) : ASGraph := g.propagateDownT.1

/-- The final counting loop of `propagateAnnouncements`:
`total_propagated += pair.second.policy->getLocalRIBSize()` with **no**
null check; a node without a policy makes the C++ dereference a null
pointer, which the model reports as `none`. -/
def ASGraph.countRIBs (g : ASGraph) : Option Nat :=
  g.nodes.foldl
    (fun acc pr =>
      match acc, pr.2.policy with
      | some n, some pol => some (n + pol.local_rib.length)
      | _, _ => none)
    (some 0)

/-- `ASGraph::propagateAnnouncements`: the three phases in order, then the
announcement count; `none` models the counting loop faulting on a node
without a policy. -/
def ASGraph.propagateAnnouncements (g : ASGraph) : Option (ASGraph × Nat) :=
  let g3 := g.propagateUp.propagateAcross.propagateDown
  g3.countRIBs.map (fun n => (g3, n))

/-- `ASGraph::seedAnnouncement`: look up the origin node (missing node or
policy is reported and skipped), parse the prefix (`Prefix::parse`
exceptions propagate), construct the origin announcement and seed it. -/
def ASGraph.seedAnnouncement (g : ASGraph) (origin_asn : ASN)
    (prefix_str : List Char) (rov_invalid : Bool) : Except ParseErr ASGraph :=
  match alistFind g.nodes origin_asn with
  | none => .ok g
  | some node =>
    match node.policy with
    | none => .ok g
    | some _ =>
      match Prefix.parse prefix_str with
      | .error e => .error e
      | .ok p =>
        .ok (g.updateNode origin_asn (fun n =>
          match n.policy with
          | none => n
          | some pol =>
            { n with policy := some (pol.seedAnnouncement
                (Announcement.mkSeed p origin_asn .ORIGIN rov_invalid)) }))

/-! ### Rank assignment (`ASGraph::flattenGraph`) -/

/-- The loop state of `flattenGraph`: the `ranks` map (modelled as a
function, reads through `operator[]` default to 0 via `getD`), the
pending-customer counters `customer_count`, the FIFO `ready_queue` and
the running `max_rank`. -/
structure KahnSt where
  ranks : ASN → Option Nat
  cc : List (ASN × Int)
  queue : List ASN
  max_rank : Nat

/-- The size quantity that shrinks by one at every `while` iteration. -/
def KahnSt.size (st : KahnSt) : Nat := st.queue.length + st.cc.length

/-- The initialisation loop of `flattenGraph`: customer-less nodes get
rank 0 and are enqueued; the others get a pending-customer counter equal
to their customer count. -/
def kahnInit (g : ASGraph) : KahnSt :=
  g.nodes.foldl
    (fun st pr =>
      if pr.2.customers = [] then
        { st with
          ranks := fun a => if a = pr.1 then some 0 else st.ranks a,
          queue := st.queue ++ [pr.1] }
      else
        { st with cc := st.cc ++ [(pr.1, (pr.2.customers.length : Int))] })
    { ranks := fun _ => none, cc := [], queue := [], max_rank := 0 }

/-- The provider-update loop for one dequeued AS of rank `current_rank`:
for each provider still carrying a counter, max-accumulate the candidate
rank `current_rank + 1`, decrement the counter, and on reaching zero
enqueue the provider, drop its counter and fold its (now final) rank into
`max_rank`. -/
def kahnProviders (current_rank : Nat) : List ASN → KahnSt → KahnSt
  | [], st => st
  | p :: ps, st =>
    match alistFind st.cc p with
    | none => kahnProviders current_rank ps st
    | some cnt =>
      let r' := match st.ranks p with
        | none => current_rank + 1
        | some r => max r (current_rank + 1)
      let ranks' := fun a => if a = p then some r' else st.ranks a
      if cnt - 1 = 0 then
        kahnProviders current_rank ps
          { ranks := ranks', cc := alistErase st.cc p,
            queue := st.queue ++ [p], max_rank := max st.max_rank r' }
      else
        kahnProviders current_rank ps
          { ranks := ranks', cc := alistReplace st.cc p (cnt - 1),
            queue := st.queue, max_rank := st.max_rank }

/-- The `while (!ready_queue.empty())` loop of `flattenGraph`: dequeue an
AS (skipping it if absent from the node table) and run the provider
updates with its current rank. -/
def kahnLoop (g : ASGraph) (st : KahnSt) : KahnSt :=
  match h : st.queue with
  | [] => st
  | current :: rest =>
    let st1 : KahnSt :=
      { ranks := st.ranks, cc := st.cc, queue := rest, max_rank := st.max_rank }
    match alistFind g.nodes current with
    | none => kahnLoop g st1
    | some node =>
      kahnLoop g (kahnProviders ((st.ranks current).getD 0) node.providers st1)
termination_by st.size
decreasing_by
  · simp only [KahnSt.size]
    rw [h]
    simp only [List.length_cons]
    omega
  · have hlen : ∀ (l : List (ASN × Int)) (k : ASN) (v : Int),
        alistFind l k = some v → (alistErase l k).length + 1 = l.length := by
      intro l
      induction l with
      | nil => intro k v hv; simp [alistFind] at hv
      | cons hd tl ih =>
        intro k v hv
        by_cases hk : hd.1 = k
        · simp [alistErase, hk]
        · simp only [alistFind, hk, if_false] at hv
          simp only [alistErase, hk, if_false, List.length_cons]
          rw [← ih k v hv]
    have hrep : ∀ (l : List (ASN × Int)) (k : ASN) (v : Int),
        (alistReplace l k v).length = l.length := by
      intro l
      induction l with
      | nil => intro k v; simp [alistReplace]
      | cons hd tl ih =>
        intro k v
        by_cases hk : hd.1 = k
        · simp [alistReplace, hk]
        · simp [alistReplace, hk, ih]
    have key : ∀ (ps : List ASN) (cr : Nat) (s : KahnSt),
        (kahnProviders cr ps s).size = s.size := by
      intro ps
      induction ps with
      | nil => intro cr s; simp [kahnProviders]
      | cons p ps ih =>
        intro cr s
        simp only [kahnProviders]
        cases hf : alistFind s.cc p with
        | none => exact ih cr s
        | some cnt =>
          by_cases hz : cnt - 1 = 0
          · simp only [hz, if_true, ih]
            simp only [KahnSt.size, List.length_append, List.length_cons,
              List.length_nil]
            have := hlen s.cc p cnt hf
            omega
          · simp only [hz, if_false, ih]
            simp only [KahnSt.size, hrep]
    rw [key]
    simp only [KahnSt.size]
    rw [h]
    simp only [List.length_cons]
    omega

/-- Append `asn` to `rk[i]` (`ranked_ases[rank].push_back(asn)`);
out-of-range indices (unreachable on acyclic graphs, undefined behaviour
in the C++) leave the list unchanged. -/
def pushAt (rk : List (List ASN)) (i : Nat) (asn : ASN) : List (List ASN) :=
  rk.set i (rk.getD i [] ++ [asn])

/-- `ASGraph::flattenGraph`: run the layering loop, then assign
`propagation_rank := ranks[asn]` (`operator[]` defaults to 0) to every
node and build `ranked_ases` of size `max_rank + 1`. -/
def ASGraph.flattenGraph (g : ASGraph) : ASGraph :=
  let st := kahnLoop g (kahnInit g)
  let rnk := fun asn => (st.ranks asn).getD 0
  let ranked := g.nodes.foldl (fun rk pr => pushAt rk (rnk pr.1) pr.1)
    (List.replicate (st.max_rank + 1) [])
  { g with
    nodes := g.nodes.map (fun pr =>
      (pr.1, { pr.2 with propagation_rank := (rnk pr.1 : Int) })),
    ranked_ases := ranked }

/-! ### Predicates and concrete instances used by the statements below -/

/-- The announcement does not carry the `PEER` tag. -/
def notPeerTag (a : Announcement) : Bool :=
  a.received_from != RelationshipType.PEER

/-- The announcement carries the `CUSTOMER` tag. -/
def custTag (a : Announcement) : Bool :=
  a.received_from == RelationshipType.CUSTOMER

/-- The announcement carries the `PROVIDER` tag. -/
def provTag (a : Announcement) : Bool :=
  a.received_from == RelationshipType.PROVIDER

/-- Every RIB entry of every policied node satisfies `f`. -/
def ASGraph.ribsAll (g : ASGraph) (f : Announcement → Bool) : Bool :=
  g.nodes.all (fun pr =>
    match pr.2.policy with
    | none => true
    | some pol => pol.local_rib.all (fun e => f e.2))

/-- Every queued candidate of every policied node satisfies `f`. -/
def ASGraph.queuesAll (g : ASGraph) (f : Announcement → Bool) : Bool :=
  g.nodes.all (fun pr =>
    match pr.2.policy with
    | none => true
    | some pol => pol.received_queue.all (fun b => b.2.all f))

/-- Every policied node has an empty received queue. -/
def ASGraph.queuesEmpty (g : ASGraph) : Bool :=
  g.nodes.all (fun pr =>
    match pr.2.policy with
    | none => true
    | some pol => pol.received_queue.isEmpty)

/-- Every node of the graph has a policy installed. -/
def ASGraph.allPolicied (g : ASGraph) : Bool :=
  g.nodes.all (fun pr => pr.2.policy.isSome)

/-- The RIB entry of `asn` for `p`, read through the graph. -/
def ASGraph.ribLookup (g : ASGraph) (asn : ASN) (p : Prefix) :
    Option Announcement :=
  match alistFind g.nodes asn with
  | none => none
  | some node =>
    match node.policy with
    | none => none
    | some pol => pol.getAnnouncement p

/-- For claim C6: a policy operation is admissible for `p` when any
announcement it delivers for `p` is flagged invalid. -/
def recvOK (p : Prefix) : POp → Bool
  | .recv a => !(a.pfx == p) || a.rov_invalid
  | _ => true

/-- The customer→provider edges of the graph, with multiplicity. -/
def ASGraph.edgeList (g : ASGraph) : List (ASN × ASN) :=
  g.nodes.flatMap (fun pr => pr.2.providers.map (fun q => (pr.1, q)))

/-- Well-formedness of a node table, as `addRelationship` maintains it:
distinct keys, adjacency closed under the table, and provider/customer
lists that mirror each other with multiplicity. -/
def ASGraph.WF (g : ASGraph) : Prop :=
  (alistKeys g.nodes).Nodup ∧
  (∀ pr ∈ g.nodes, ∀ q ∈ pr.2.providers, q ∈ alistKeys g.nodes) ∧
  (∀ pr ∈ g.nodes, ∀ q ∈ pr.2.customers, q ∈ alistKeys g.nodes) ∧
  (∀ x ∈ g.nodes, ∀ y ∈ g.nodes,
    x.2.providers.count y.1 = y.2.customers.count x.1)

/-- Maximum of a list of naturals (0 for the empty list). -/
def maxNat (l : List Nat) : Nat := l.foldr max 0

/-- `propagation_rank` of `asn` read back as a natural number
(0 for an absent node; ranks assigned by `flattenGraph` are ≥ 0). -/
def ASGraph.prankNat (g : ASGraph) (asn : ASN) : Nat :=
  (((g.getNode asn).map ASNode.propagation_rank).getD (-1)).toNat

/-- Counterexample announcement for claim C1 (path `[1, 9]`). -/
def c1A : Announcement :=
  { pfx := Prefix.empty, next_hop_asn := 1,
    received_from := .PROVIDER, rov_invalid := false, as_path := [1, 9] }

/-- Counterexample announcement for claim C1 (path `[1, 8]`; same
comparison key as `c1A`). -/
def c1B : Announcement :=
  { pfx := Prefix.empty, next_hop_asn := 1,
    received_from := .PROVIDER, rov_invalid := false, as_path := [1, 8] }

/-- The 2-cycle topology for claim C4: each of AS1 and AS2 recorded as the
other's provider (records `1|2|1` and `2|1|1`). -/
def twoCycleG : ASGraph :=
  (ASGraph.mk0.addRelationship 1 2 .PROVIDER).addRelationship 2 1 .PROVIDER

/-- A graph with one node and no policy installed (claim C9). -/
def gNoPolicy : ASGraph :=
  { ASGraph.mk0 with nodes := [(1, ASNode.mk0 1)] }

/-- A fixed prefix for the concrete instances. -/
def pfx0 : Prefix := Prefix.empty

/-- A seeded origin announcement at `asn` for `pfx0`. -/
def annOrigin (asn : ASN) (inv : Bool := false) : Announcement :=
  Announcement.mkSeed pfx0 asn .ORIGIN inv

/-- Concrete witness graph: AS1 is AS2's provider, AS2 and AS3 peer;
AS1 and AS2 each hold a seeded origin RIB entry for `pfx0`. -/
def gW : ASGraph :=
  { nodes :=
      [(1, { asn := 1, providers := [], customers := [2], peers := [],
             propagation_rank := 1,
             policy := some { PolicyState.mkBGP with
               local_rib := [(pfx0, annOrigin 1)] } }),
       (2, { asn := 2, providers := [1], customers := [], peers := [3],
             propagation_rank := 0,
             policy := some { PolicyState.mkBGP with
               local_rib := [(pfx0, annOrigin 2)] } }),
       (3, { asn := 3, providers := [], customers := [], peers := [2],
             propagation_rank := 0,
             policy := some PolicyState.mkBGP })],
    edge_count := 2, provider_customer_edges := 1, peer_edges := 1,
    ranked_ases := [[2, 3], [1]] }

/-- The up-phase delivery that `gW` produces (AS2 exports its origin entry
to its provider AS1). -/
def dUpW : Delivery :=
  { sender := 2, receiver := 1, src := annOrigin 2,
    sent := (annOrigin 2).copy_with_new_hop 2 .CUSTOMER }

/-- The across-phase delivery that `gW` produces (AS2 exports its origin
entry to its peer AS3). -/
def dAcrossW : Delivery :=
  { sender := 2, receiver := 3, src := annOrigin 2,
    sent := (annOrigin 2).copy_with_new_hop 2 .PEER }

/-- The down-phase delivery of AS1 in `gW` (origin entry to customer AS2). -/
def dDownW : Delivery :=
  { sender := 1, receiver := 2, src := annOrigin 1,
    sent := (annOrigin 1).copy_with_new_hop 1 .PROVIDER }

/-- The T1 topology of the spec (AS1 ⊃ AS2 ⊃ AS3, AS1 ⊃ AS4, AS2 — AS4),
used as the C5 witness. -/
def gT1 : ASGraph :=
  buildFromLines ASGraph.mk0
    [strChars "1|2|-1", strChars "2|3|-1", strChars "1|4|-1",
     strChars "2|4|0"]

/-- A topological numbering of `gT1`'s customer→provider edges. -/
def mT1 : ASN → Nat := fun a => if a = 1 then 2 else if a = 2 then 1 else 0

/-- A strictly worse announcement than `annOrigin 1` for the same prefix
(C10 witness). -/
def c10worse : Announcement :=
  { pfx := pfx0, next_hop_asn := 7, received_from := .PROVIDER,
    rov_invalid := false, as_path := [7, 8, 9] }

/-- An invalid-flagged announcement for `pfx0` originated at `asn`
(C6 witness). -/
def annInvalid (asn : ASN) : Announcement := annOrigin asn true

/-- A C6 witness operation sequence: two invalid receipts with processing
and clearing in between. -/
def c6ops : List POp :=
  [.recv (annInvalid 9), .proc 5, .clearq, .recv (annInvalid 8), .proc 5]

/-! ### Ghost state for the `flattenGraph` correctness proof (claim C5) -/

/-- Customers of `x` (with multiplicity) already processed, `D` being the
ghost list of dequeued-and-processed ASes. -/
def doneCusts (g : ASGraph) (D : List ASN) (x : ASN) : List ASN :=
  (g.customersOf x).filter (fun c => decide (c ∈ D))

/-- Customers of `x` (with multiplicity) not yet processed. -/
def pendCusts (g : ASGraph) (D : List ASN) (x : ASN) : List ASN :=
  (g.customersOf x).filter (fun c => decide (c ∉ D))

/-- The rank of `x` read back with the `operator[]` default 0. -/
def rnkOf (st : KahnSt) (x : ASN) : Nat := (st.ranks x).getD 0

/-- The value `ranks[x]` holds mid-run: `some 0` for customer-less nodes,
absent while no customer of `x` has been processed, else one more than
the largest processed-customer rank. `qs` lists the provider occurrences
of the AS currently being processed (whose rank is `cr`) that the inner
loop has already iterated over (`qs = []` between loop iterations). -/
def rankForm (g : ASGraph) (D : List ASN) (cr : Nat) (qs : List ASN)
    (st : KahnSt) (x : ASN) : Option Nat :=
  if g.customersOf x = [] then some 0
  else if doneCusts g D x = [] ∧ qs.count x = 0 then none
  else some (1 + maxNat ((doneCusts g D x).map (rnkOf st) ++
    (if qs.count x = 0 then [] else [cr])))

/-- The invariant of `flattenGraph`'s layering loop between iterations:
`D`, the queue and the counter keys partition the node keys; every
counter equals its pending-customer count (and is positive); ranks hold
the mid-run value; processed and ready ASes have all customers processed
and rank at most `max_rank`. -/
structure KahnInvO (g : ASGraph) (D : List ASN) (st : KahnSt) : Prop where
  hperm : (D ++ st.queue ++ alistKeys st.cc).Perm (alistKeys g.nodes)
  hnodup : (D ++ st.queue ++ alistKeys st.cc).Nodup
  hcc : ∀ x cnt, alistFind st.cc x = some cnt →
    cnt = ((pendCusts g D x).length : Int) ∧ pendCusts g D x ≠ []
  hccne : ∀ x, x ∈ alistKeys st.cc → g.customersOf x ≠ []
  hrank : ∀ x, x ∈ alistKeys g.nodes → st.ranks x = rankForm g D 0 [] st x
  hfull : ∀ x, x ∈ D ∨ x ∈ st.queue → pendCusts g D x = []
  hmax : ∀ x, x ∈ D ∨ x ∈ st.queue → rnkOf st x ≤ st.max_rank

/-- The invariant inside one iteration processing `current` (of rank
`cr`): its provider occurrences split as `qs ++ ps` with `qs` already
handled; counters anticipate the decrements still to come from `ps`. -/
structure KahnInvI (g : ASGraph) (D : List ASN) (current : ASN) (cr : Nat)
    (qs ps : List ASN) (st : KahnSt) : Prop where
  hsplit : g.providersOf current = qs ++ ps
  hperm : ((D ++ [current]) ++ st.queue ++ alistKeys st.cc).Perm
    (alistKeys g.nodes)
  hnodup : ((D ++ [current]) ++ st.queue ++ alistKeys st.cc).Nodup
  hcc : ∀ x cnt, alistFind st.cc x = some cnt →
    cnt = ((pendCusts g (D ++ [current]) x).length + ps.count x : Int) ∧
    1 ≤ (pendCusts g (D ++ [current]) x).length + ps.count x
  hccne : ∀ x, x ∈ alistKeys st.cc → g.customersOf x ≠ []
  hrank : ∀ x, x ∈ alistKeys g.nodes → st.ranks x = rankForm g D cr qs st x
  hfull : ∀ x, x ∈ (D ++ [current]) ∨ x ∈ st.queue →
    pendCusts g (D ++ [current]) x = []
  hmax : ∀ x, x ∈ (D ++ [current]) ∨ x ∈ st.queue →
    rnkOf st x ≤ st.max_rank
  hcur : st.ranks current = some cr
  hprov : ∀ p, p ∈ ps → p ∈ alistKeys st.cc ∨ 1 ≤ qs.count p

/-- Characterization of `flattenGraph`'s initialisation fold after
processing the node-table prefix `done`: customer-less prefix nodes are
enqueued with rank 0, the others carry their customer count. -/
def InitP (done : List (ASN × ASNode)) (st : KahnSt) : Prop :=
  st.max_rank = 0 ∧
  st.queue = (done.filter (fun pr => decide (pr.2.customers = []))).map
    (fun pr => pr.1) ∧
  st.cc = (done.filter (fun pr => !decide (pr.2.customers = []))).map
    (fun pr => (pr.1, (pr.2.customers.length : Int))) ∧
  ∀ x, st.ranks x =
    if x ∈ (done.filter (fun pr => decide (pr.2.customers = []))).map
      (fun pr => pr.1) then some 0 else none

/-! ## Lemmas and theorems -/

theorem alistFind_append {κ α : Type} [DecidableEq κ]
    (l m : List (κ × α)) (k : κ) :
    alistFind (l ++ m) k =
      match alistFind l k with
      | some v => some v
      | none => alistFind m k := by
  induction l with
  | nil => simp [alistFind]
  | cons hd tl ih =>
    obtain ⟨k1, v1⟩ := hd
    by_cases hk : k1 = k <;> simp [alistFind, hk, ih]

theorem alistFind_replace_self {κ α : Type} [DecidableEq κ]
    {l : List (κ × α)} {k : κ} {w : α} (v : α)
    (h : alistFind l k = some w) :
    alistFind (alistReplace l k v) k = some v := by
  induction l with
  | nil => simp [alistFind] at h
  | cons hd tl ih =>
    obtain ⟨k1, v1⟩ := hd
    by_cases hk : k1 = k
    · simp [alistReplace, alistFind, hk]
    · simp only [alistFind, hk, if_false] at h
      simp [alistReplace, alistFind, hk, ih h]

theorem alistFind_replace_ne {κ α : Type} [DecidableEq κ]
    {l : List (κ × α)} {k k' : κ} (v : α) (h : k' ≠ k) :
    alistFind (alistReplace l k v) k' = alistFind l k' := by
  induction l with
  | nil => simp [alistReplace]
  | cons hd tl ih =>
    obtain ⟨k1, v1⟩ := hd
    by_cases hk : k1 = k
    · subst hk
      have hne : k1 ≠ k' := fun hh => h hh.symm
      simp [alistReplace, alistFind, hne]
    · by_cases hk' : k1 = k' <;> simp [alistReplace, alistFind, hk, hk', ih, h]

theorem alistFind_insert_self {κ α : Type} [DecidableEq κ]
    (l : List (κ × α)) (k : κ) (v : α) :
    alistFind (alistInsert l k v) k = some v := by
  unfold alistInsert
  cases h : alistFind l k with
  | some w => exact alistFind_replace_self v h
  | none =>
    rw [alistFind_append, h]
    simp [alistFind]

theorem alistFind_insert_ne {κ α : Type} [DecidableEq κ]
    (l : List (κ × α)) (k k' : κ) (v : α) (h : k' ≠ k) :
    alistFind (alistInsert l k v) k' = alistFind l k' := by
  unfold alistInsert
  cases hf : alistFind l k with
  | some w => exact alistFind_replace_ne v h
  | none =>
    rw [alistFind_append]
    cases hq : alistFind l k' with
    | some w => simp [hq]
    | none =>
      have hne : k ≠ k' := fun hh => h hh.symm
      simp [hq, alistFind, hne]

theorem alistFind_update_self {κ α : Type} [DecidableEq κ]
    (l : List (κ × α)) (k : κ) (f : α → α) :
    alistFind (alistUpdate l k f) k = (alistFind l k).map f := by
  unfold alistUpdate
  cases h : alistFind l k with
  | some v => simp [alistFind_replace_self (f v) h]
  | none => simp [h]

theorem alistFind_update_ne {κ α : Type} [DecidableEq κ]
    (l : List (κ × α)) (k k' : κ) (f : α → α) (h : k' ≠ k) :
    alistFind (alistUpdate l k f) k' = alistFind l k' := by
  unfold alistUpdate
  cases hf : alistFind l k with
  | some v => exact alistFind_replace_ne (f v) h
  | none => rfl

theorem alistKeys_replace {κ α : Type} [DecidableEq κ]
    (l : List (κ × α)) (k : κ) (v : α) :
    alistKeys (alistReplace l k v) = alistKeys l := by
  induction l with
  | nil => rfl
  | cons hd tl ih =>
    obtain ⟨k1, v1⟩ := hd
    by_cases hk : k1 = k <;> simp [alistReplace, alistKeys, hk] <;>
      simpa [alistKeys] using ih

theorem alistKeys_update {κ α : Type} [DecidableEq κ]
    (l : List (κ × α)) (k : κ) (f : α → α) :
    alistKeys (alistUpdate l k f) = alistKeys l := by
  unfold alistUpdate
  cases h : alistFind l k with
  | some v => exact alistKeys_replace l k (f v)
  | none => rfl

/-! ### Claim C1 — route selection -/

/-- C1, counterexample: two **distinct** announcements for the same
prefix (they differ in path contents) on which both directions of
`isBetterThan` are false — "exactly one of the two holds" fails. -/
theorem c1_counterexample :
    c1A ≠ c1B ∧ c1A.pfx = c1B.pfx ∧
    c1A.isBetterThan c1B = false ∧ c1B.isBetterThan c1A = false := by
  decide

/-- C1 (amended): `isBetterThan` is asymmetric, and for any two
announcements exactly one direction holds **iff** their comparison keys
(`received_from`, path length, `next_hop_asn`) differ; announcements that
agree on the key — even distinct ones — tie, with both directions false. -/
theorem c1_selection_strict_weak_order (a b : Announcement) :
    (¬(a.isBetterThan b = true ∧ b.isBetterThan a = true)) ∧
    ((a.isBetterThan b = true ∨ b.isBetterThan a = true) ↔
      a.cmpKey ≠ b.cmpKey) := by
  obtain ⟨pa, na, ra, va, la⟩ := a
  obtain ⟨pb, nb, rb, vb, lb⟩ := b
  simp only [Announcement.isBetterThan, Announcement.cmpKey, ne_eq,
    Prod.mk.injEq, not_and]
  cases ra <;> cases rb <;> simp [RelationshipType.val] <;>
    by_cases hl : la.length = lb.length <;>
    simp [hl, eq_comm] <;> exact fun hh => le_of_lt hh

/-! ### Claim C4 — cycle detection -/

/-- C4 (code bug): `twoCycleG` records AS1 and AS2 each as the other's
provider — a genuine customer→provider 2-cycle — yet `detectCycles`
returns `false`: the DFS skips the neighbour equal to its parent, so a
2-cycle is never re-entered. -/
theorem c4_two_cycle_undetected :
    2 ∈ twoCycleG.providersOf 1 ∧ 1 ∈ twoCycleG.providersOf 2 ∧
    twoCycleG.detectCycles = false := by
  decide

/-! ### Claim C8 — prefix-parse failure behaviour -/

/-- C8 (code bug): on `"1.2.3.0/x"` — a malformed CIDR with a non-numeric
length — the parser does **not** return the sentinel: the `std::stoi`
call throws `invalid_argument` (uncaught in the source). The sentinel
behaviour the claim describes does hold for a missing '/' and for an
unparseable address. -/
theorem c8_nonnumeric_length_throws :
    IPv4Prefix.parse (strChars "1.2.3.0/x") = .error .invalid_argument ∧
    Prefix.parse (strChars "1.2.3.0/x") = .error .invalid_argument ∧
    Prefix.parse (strChars "::1/y") = .error .invalid_argument ∧
    IPv4Prefix.parse (strChars "nonsense") = .ok IPv4Prefix.empty ∧
    IPv4Prefix.parse (strChars "abc/16") = .ok IPv4Prefix.empty :=
  ⟨rfl, rfl, rfl, rfl, rfl⟩

/-! ### Claim C10 — seeding overwrites unconditionally -/

/-- C10: `seedAnnouncement` stores through `local_rib[ann.prefix] = ann`
with no comparison: the seeded announcement is always the RIB entry
afterwards, and seeding twice for one prefix leaves the **second**
announcement, even when the first was strictly better. -/
theorem c10_seed_unconditional :
    (∀ (s : PolicyState) (a : Announcement),
      (s.seedAnnouncement a).getAnnouncement a.pfx = some a) ∧
    (∀ (s : PolicyState) (a b : Announcement), a.pfx = b.pfx →
      ((s.seedAnnouncement a).seedAnnouncement b).getAnnouncement b.pfx =
        some b) := by
  constructor
  · intro s a
    unfold PolicyState.seedAnnouncement PolicyState.getAnnouncement
    exact alistFind_insert_self _ _ _
  · intro s a b _
    unfold PolicyState.seedAnnouncement PolicyState.getAnnouncement
    exact alistFind_insert_self _ _ _

/-! ### Queue and process lemmas -/

theorem alistFind_some_mem {κ α : Type} [DecidableEq κ]
    {l : List (κ × α)} {k : κ} {v : α} (h : alistFind l k = some v) :
    (k, v) ∈ l := by
  induction l with
  | nil => simp [alistFind] at h
  | cons hd tl ih =>
    obtain ⟨k1, v1⟩ := hd
    by_cases hk : k1 = k
    · subst hk
      simp only [alistFind, if_true] at h
      injection h with h
      subst h
      exact List.mem_cons_self _ _
    · simp only [alistFind, hk, if_false] at h
      exact List.mem_cons_of_mem _ (ih h)

theorem alistReplace_all {κ α : Type} [DecidableEq κ]
    {Q : κ × α → Bool} {l : List (κ × α)} {k : κ} {nv : α}
    (hq : Q (k, nv) = true) (hl : l.all Q = true) :
    (alistReplace l k nv).all Q = true := by
  induction l with
  | nil => simp [alistReplace]
  | cons hd tl ih =>
    obtain ⟨k1, v1⟩ := hd
    simp only [List.all_cons, Bool.and_eq_true] at hl
    by_cases hk : k1 = k
    · subst hk
      simp [alistReplace, List.all_cons, hq, hl.2]
    · simp [alistReplace, hk, List.all_cons, hl.1, ih hl.2]

theorem alistUpdate_all {κ α : Type} [DecidableEq κ]
    (Q : κ × α → Bool) (l : List (κ × α)) (k : κ) (f : α → α)
    (hf : ∀ k' v, Q (k', v) = true → Q (k', f v) = true)
    (hl : l.all Q = true) : (alistUpdate l k f).all Q = true := by
  unfold alistUpdate
  cases hfind : alistFind l k with
  | none => exact hl
  | some v =>
    have hv : Q (k, v) = true :=
      List.all_eq_true.1 hl _ (alistFind_some_mem hfind)
    exact alistReplace_all (hf k v hv) hl

theorem queueAt_push_self (q : List (Prefix × List Announcement))
    (p : Prefix) (a : Announcement) :
    queueAt (queuePush q p a) p = queueAt q p ++ [a] := by
  induction q with
  | nil => simp [queuePush, queueAt, alistFind]
  | cons hd tl ih =>
    obtain ⟨k, l⟩ := hd
    by_cases hk : k = p
    · subst hk
      simp [queuePush, queueAt, alistFind]
    · have ih' := ih
      simp only [queueAt] at ih'
      simp [queuePush, queueAt, alistFind, hk, ih']

theorem mem_queuePush_ne {q : List (Prefix × List Announcement)}
    {p k : Prefix} {a : Announcement} {cands : List Announcement}
    (hmem : (p, cands) ∈ queuePush q k a) (hne : k ≠ p) :
    (p, cands) ∈ q := by
  induction q with
  | nil =>
    simp only [queuePush] at hmem
    have h := List.mem_singleton.1 hmem
    exact absurd (congrArg Prod.fst h).symm hne
  | cons hd tl ih =>
    obtain ⟨k1, l⟩ := hd
    by_cases hk : k1 = k
    · subst hk
      simp only [queuePush, if_pos rfl] at hmem
      rcases List.mem_cons.1 hmem with h1 | h2
      · exact absurd (congrArg Prod.fst h1).symm hne
      · exact List.mem_cons_of_mem _ h2
    · simp only [queuePush, if_neg hk] at hmem
      rcases List.mem_cons.1 hmem with h1 | h2
      · rw [h1]
        exact List.mem_cons_self _ _
      · exact List.mem_cons_of_mem _ (ih h2)

theorem bestOf_mem (c0 : Announcement) (rest : List Announcement) :
    bestOf c0 rest ∈ c0 :: rest := by
  induction rest generalizing c0 with
  | nil => simp [bestOf]
  | cons hd tl ih =>
    have h := ih (if hd.isBetterThan c0 then hd else c0)
    simp only [bestOf, List.foldl_cons] at h ⊢
    rcases List.mem_cons.1 h with h1 | h2
    · rw [h1]
      by_cases hb : hd.isBetterThan c0 <;> simp [hb]
    · simp [List.mem_cons, h2]

theorem find_ribUpsert (rib : List (Prefix × Announcement)) (k : Prefix)
    (s : Announcement) (p : Prefix) :
    alistFind (ribUpsert rib k s) p = alistFind rib p ∨
    (p = k ∧ alistFind (ribUpsert rib k s) p = some s) := by
  unfold ribUpsert
  cases hf : alistFind rib k with
  | none =>
    by_cases hpk : p = k
    · subst hpk
      right
      refine ⟨rfl, ?_⟩
      rw [alistFind_append, hf]
      simp [alistFind]
    · left
      rw [alistFind_append]
      cases hq : alistFind rib p with
      | some w => simp [hq]
      | none =>
        have hne : k ≠ p := fun hh => hpk hh.symm
        simp [hq, alistFind, hne]
  | some inc =>
    by_cases hb : s.isBetterThan inc = true
    · simp only [hb, if_true]
      by_cases hpk : p = k
      · subst hpk
        exact Or.inr ⟨rfl, alistFind_replace_self s hf⟩
      · exact Or.inl (alistFind_replace_ne s hpk)
    · simp only [Bool.not_eq_true] at hb
      simp [hb]

theorem find_processFold_of_empty (asn : ASN) (p : Prefix) :
    ∀ (q : List (Prefix × List Announcement))
      (rib : List (Prefix × Announcement)),
      (∀ cands, (p, cands) ∈ q → cands = []) →
      alistFind
        (q.foldl (fun rib pr =>
          match pr.2 with
          | [] => rib
          | c :: cs => ribUpsert rib pr.1 (storedFrom asn (bestOf c cs)))
          rib) p
        = alistFind rib p := by
  intro q
  induction q with
  | nil => intro rib _; rfl
  | cons hd tl ih =>
    intro rib h
    obtain ⟨k, cands⟩ := hd
    simp only [List.foldl_cons]
    cases cands with
    | nil => exact ih rib (fun c hc => h c (List.mem_cons_of_mem _ hc))
    | cons c cs =>
      have hkp : k ≠ p := by
        intro hh
        subst hh
        have := h (c :: cs) (List.mem_cons_self _ _)
        simp at this
      rw [ih _ (fun c hc => h c (List.mem_cons_of_mem _ hc))]
      rcases find_ribUpsert rib k (storedFrom asn (bestOf c cs)) p with
        h1 | ⟨hpk, _⟩
      · exact h1
      · exact absurd hpk.symm hkp

theorem process_getAnnouncement_of_empty (s : PolicyState) (asn : ASN)
    (p : Prefix) (h : ∀ cands, (p, cands) ∈ s.received_queue → cands = []) :
    (s.processReceivedQueue asn).getAnnouncement p = s.getAnnouncement p :=
  find_processFold_of_empty asn p s.received_queue s.local_rib h

/-! ### Claim C6 — ROV filtering at reception -/

/-- C6: for an ROV policy, receiving an invalid announcement only
increments the drop counter (staging area and RIB unchanged); and a
policy that starts with no entry and no staged candidate for `p`, and is
only ever offered invalid announcements for `p`, still has no RIB entry
for `p` after any sequence of receive/process/clear steps. -/
theorem c6_rov_filtering :
    (∀ (s : PolicyState) (a : Announcement),
      s.isROV = true → a.rov_invalid = true →
      (s.receiveAnnouncement a).received_queue = s.received_queue ∧
      (s.receiveAnnouncement a).dropped_count = s.dropped_count + 1 ∧
      (s.receiveAnnouncement a).local_rib = s.local_rib) ∧
    (∀ (s : PolicyState) (ops : List POp) (p : Prefix),
      s.isROV = true → s.getAnnouncement p = none →
      (∀ cands, (p, cands) ∈ s.received_queue → cands = []) →
      (∀ op ∈ ops, recvOK p op = true) →
      (runPOps s ops).getAnnouncement p = none) := by
  constructor
  · intro s a h1 h2
    simp [PolicyState.receiveAnnouncement, h1, h2]
  · intro s ops
    induction ops generalizing s with
    | nil => intro p _ h2 _ _; exact h2
    | cons op rest ih =>
      intro p h1 h2 h3 hops
      have hop := hops op (List.mem_cons_self _ _)
      have hrest := fun o ho => hops o (List.mem_cons_of_mem _ ho)
      cases op with
      | recv a =>
        simp only [runPOps]
        by_cases hinv : a.rov_invalid = true
        · have hrecv : s.receiveAnnouncement a =
              { s with dropped_count := s.dropped_count + 1 } := by
            simp [PolicyState.receiveAnnouncement, h1, hinv]
          rw [hrecv]
          exact ih _ p h1 h2 h3 hrest
        · have hinv' : a.rov_invalid = false := by
            cases hv : a.rov_invalid
            · rfl
            · exact absurd hv hinv
          have hpfx : a.pfx ≠ p := by
            simp only [recvOK, hinv', Bool.or_false, Bool.not_eq_true',
              beq_eq_false_iff_ne, ne_eq] at hop
            exact hop
          have hrecv : s.receiveAnnouncement a = s.receiveStd a := by
            simp [PolicyState.receiveAnnouncement, hinv']
          rw [hrecv]
          refine ih (s.receiveStd a) p h1 h2 ?_ hrest
          intro cands hc
          exact h3 cands (mem_queuePush_ne hc hpfx)
      | proc asn =>
        simp only [runPOps]
        refine ih (s.processReceivedQueue asn) p h1 ?_ h3 hrest
        rw [process_getAnnouncement_of_empty s asn p h3]
        exact h2
      | clearq =>
        simp only [runPOps]
        refine ih s.clearReceivedQueue p h1 h2 ?_ hrest
        intro cands hc
        simp [PolicyState.clearReceivedQueue] at hc

/-- C6 witness: a fresh ROV policy run through `c6ops` (two invalid
receipts for `pfx0`, with processing and clearing interleaved) ends with
no RIB entry for `pfx0`; a single invalid receipt bumps only the drop
counter. -/
theorem c6_witness :
    ((PolicyState.mkROV.receiveAnnouncement (annInvalid 9)).received_queue =
        PolicyState.mkROV.received_queue ∧
      (PolicyState.mkROV.receiveAnnouncement (annInvalid 9)).dropped_count =
        PolicyState.mkROV.dropped_count + 1 ∧
      (PolicyState.mkROV.receiveAnnouncement (annInvalid 9)).local_rib =
        PolicyState.mkROV.local_rib) ∧
    (runPOps PolicyState.mkROV c6ops).getAnnouncement pfx0 = none :=
  ⟨c6_rov_filtering.1 PolicyState.mkROV (annInvalid 9) rfl rfl,
   c6_rov_filtering.2 PolicyState.mkROV c6ops pfx0 rfl rfl
     (by intro cands hc; simp [PolicyState.mkROV] at hc) (by decide)⟩

/-! ### Graph-update lemmas and claim C7 -/

theorem getNode_updateNode_self (g : ASGraph) (asn : ASN)
    (f : ASNode → ASNode) :
    (g.updateNode asn f).getNode asn = (g.getNode asn).map f :=
  alistFind_update_self _ _ _

theorem getNode_updateNode_ne (g : ASGraph) {x asn : ASN}
    (f : ASNode → ASNode) (h : x ≠ asn) :
    (g.updateNode asn f).getNode x = g.getNode x :=
  alistFind_update_ne _ _ _ _ h

theorem getNode_getOrCreate_isSome (g : ASGraph) (a : ASN) :
    ((g.getOrCreateNode a).getNode a).isSome = true := by
  unfold ASGraph.getOrCreateNode ASGraph.getNode
  cases h : alistFind g.nodes a with
  | some n => simp [h]
  | none => simp [alistFind_append, h, alistFind]

theorem getNode_getOrCreate_pres (g : ASGraph) (a b : ASN) {n : ASNode}
    (h : g.getNode b = some n) : (g.getOrCreateNode a).getNode b = some n := by
  unfold ASGraph.getOrCreateNode ASGraph.getNode
  unfold ASGraph.getNode at h
  cases hf : alistFind g.nodes a with
  | some _ => exact h
  | none => simp [alistFind_append, h]

theorem getNode_getOrCreate_isSome_pres (g : ASGraph) (a b : ASN)
    (h : (g.getNode b).isSome = true) :
    ((g.getOrCreateNode a).getNode b).isSome = true := by
  cases hn : g.getNode b with
  | none => rw [hn] at h; simp at h
  | some n => rw [getNode_getOrCreate_pres g a b hn]; rfl

theorem customersOf_updateNode (g : ASGraph) (x y : ASN)
    (f : ASNode → ASNode) (hf : ∀ n, (f n).customers = n.customers) :
    (g.updateNode x f).customersOf y = g.customersOf y := by
  unfold ASGraph.customersOf
  by_cases h : y = x
  · subst h
    rw [getNode_updateNode_self]
    cases g.getNode y with
    | none => rfl
    | some n => simp [hf]
  · rw [getNode_updateNode_ne _ _ h]

theorem providersOf_updateNode (g : ASGraph) (x y : ASN)
    (f : ASNode → ASNode) (hf : ∀ n, (f n).providers = n.providers) :
    (g.updateNode x f).providersOf y = g.providersOf y := by
  unfold ASGraph.providersOf
  by_cases h : y = x
  · subst h
    rw [getNode_updateNode_self]
    cases g.getNode y with
    | none => rfl
    | some n => simp [hf]
  · rw [getNode_updateNode_ne _ _ h]

theorem peersOf_updateNode (g : ASGraph) (x y : ASN)
    (f : ASNode → ASNode) (hf : ∀ n, (f n).peers = n.peers) :
    (g.updateNode x f).peersOf y = g.peersOf y := by
  unfold ASGraph.peersOf
  by_cases h : y = x
  · subst h
    rw [getNode_updateNode_self]
    cases g.getNode y with
    | none => rfl
    | some n => simp [hf]
  · rw [getNode_updateNode_ne _ _ h]

theorem mem_customersOf_append (g : ASGraph) (x v : ASN)
    (hx : (g.getNode x).isSome = true) :
    v ∈ (g.updateNode x
      (fun n => { n with customers := n.customers ++ [v] })).customersOf x := by
  cases hn : g.getNode x with
  | none => rw [hn] at hx; simp at hx
  | some n =>
    unfold ASGraph.customersOf
    rw [getNode_updateNode_self, hn]
    simp

theorem mem_providersOf_append (g : ASGraph) (x v : ASN)
    (hx : (g.getNode x).isSome = true) :
    v ∈ (g.updateNode x
      (fun n => { n with providers := n.providers ++ [v] })).providersOf x := by
  cases hn : g.getNode x with
  | none => rw [hn] at hx; simp at hx
  | some n =>
    unfold ASGraph.providersOf
    rw [getNode_updateNode_self, hn]
    simp

theorem mem_peersOf_append (g : ASGraph) (x v : ASN)
    (hx : (g.getNode x).isSome = true) :
    v ∈ (g.updateNode x
      (fun n => { n with peers := n.peers ++ [v] })).peersOf x := by
  cases hn : g.getNode x with
  | none => rw [hn] at hx; simp at hx
  | some n =>
    unfold ASGraph.peersOf
    rw [getNode_updateNode_self, hn]
    simp

theorem getNode_updateNode_isSome (g : ASGraph) (x asn : ASN)
    (f : ASNode → ASNode) :
    ((g.updateNode asn f).getNode x).isSome = (g.getNode x).isSome := by
  by_cases h : x = asn
  · subst h
    rw [getNode_updateNode_self]
    cases g.getNode x <;> rfl
  · rw [getNode_updateNode_ne _ _ h]

theorem customersOf_eq_of_nodes {g1 g2 : ASGraph} (h : g1.nodes = g2.nodes)
    (y : ASN) : g1.customersOf y = g2.customersOf y := by
  unfold ASGraph.customersOf ASGraph.getNode
  rw [h]

theorem providersOf_eq_of_nodes {g1 g2 : ASGraph} (h : g1.nodes = g2.nodes)
    (y : ASN) : g1.providersOf y = g2.providersOf y := by
  unfold ASGraph.providersOf ASGraph.getNode
  rw [h]

theorem peersOf_eq_of_nodes {g1 g2 : ASGraph} (h : g1.nodes = g2.nodes)
    (y : ASN) : g1.peersOf y = g2.peersOf y := by
  unfold ASGraph.peersOf ASGraph.getNode
  rw [h]

theorem addRel_effect_customer (g : ASGraph) (a1 a2 : ASN) :
    a2 ∈ (g.addRelationship a1 a2 .CUSTOMER).customersOf a1 ∧
    a1 ∈ (g.addRelationship a1 a2 .CUSTOMER).providersOf a2 := by
  have hc1 := getNode_getOrCreate_isSome_pres (g.getOrCreateNode a1) a2 a1
    (getNode_getOrCreate_isSome g a1)
  have hc2 := getNode_getOrCreate_isSome (g.getOrCreateNode a1) a2
  constructor
  · have he : (g.addRelationship a1 a2 RelationType.CUSTOMER).customersOf a1 =
        ((((g.getOrCreateNode a1).getOrCreateNode a2).updateNode a1
          (fun n => { n with customers := n.customers ++ [a2] })).updateNode a2
          (fun n => { n with providers := n.providers ++ [a1] })).customersOf a1 :=
      customersOf_eq_of_nodes rfl a1
    rw [he, customersOf_updateNode _ a2 a1
      (fun n => { n with providers := n.providers ++ [a1] }) (fun n => rfl)]
    exact mem_customersOf_append _ a1 a2 hc1
  · have he : (g.addRelationship a1 a2 RelationType.CUSTOMER).providersOf a2 =
        ((((g.getOrCreateNode a1).getOrCreateNode a2).updateNode a1
          (fun n => { n with customers := n.customers ++ [a2] })).updateNode a2
          (fun n => { n with providers := n.providers ++ [a1] })).providersOf a2 :=
      providersOf_eq_of_nodes rfl a2
    rw [he]
    refine mem_providersOf_append _ a2 a1 ?_
    rw [getNode_updateNode_isSome]
    exact hc2

theorem addRel_effect_provider (g : ASGraph) (a1 a2 : ASN) :
    a2 ∈ (g.addRelationship a1 a2 .PROVIDER).providersOf a1 ∧
    a1 ∈ (g.addRelationship a1 a2 .PROVIDER).customersOf a2 := by
  have hc1 := getNode_getOrCreate_isSome_pres (g.getOrCreateNode a1) a2 a1
    (getNode_getOrCreate_isSome g a1)
  have hc2 := getNode_getOrCreate_isSome (g.getOrCreateNode a1) a2
  constructor
  · have he : (g.addRelationship a1 a2 RelationType.PROVIDER).providersOf a1 =
        ((((g.getOrCreateNode a1).getOrCreateNode a2).updateNode a1
          (fun n => { n with providers := n.providers ++ [a2] })).updateNode a2
          (fun n => { n with customers := n.customers ++ [a1] })).providersOf a1 :=
      providersOf_eq_of_nodes rfl a1
    rw [he, providersOf_updateNode _ a2 a1
      (fun n => { n with customers := n.customers ++ [a1] }) (fun n => rfl)]
    exact mem_providersOf_append _ a1 a2 hc1
  · have he : (g.addRelationship a1 a2 RelationType.PROVIDER).customersOf a2 =
        ((((g.getOrCreateNode a1).getOrCreateNode a2).updateNode a1
          (fun n => { n with providers := n.providers ++ [a2] })).updateNode a2
          (fun n => { n with customers := n.customers ++ [a1] })).customersOf a2 :=
      customersOf_eq_of_nodes rfl a2
    rw [he]
    refine mem_customersOf_append _ a2 a1 ?_
    rw [getNode_updateNode_isSome]
    exact hc2

theorem addRel_effect_peer (g : ASGraph) (a1 a2 : ASN) :
    a2 ∈ (g.addRelationship a1 a2 .PEER).peersOf a1 ∧
    a1 ∈ (g.addRelationship a1 a2 .PEER).peersOf a2 := by
  have hc1 := getNode_getOrCreate_isSome_pres (g.getOrCreateNode a1) a2 a1
    (getNode_getOrCreate_isSome g a1)
  have hc2 := getNode_getOrCreate_isSome (g.getOrCreateNode a1) a2
  constructor
  · have he : (g.addRelationship a1 a2 RelationType.PEER).peersOf a1 =
        ((((g.getOrCreateNode a1).getOrCreateNode a2).updateNode a1
          (fun n => { n with peers := n.peers ++ [a2] })).updateNode a2
          (fun n => { n with peers := n.peers ++ [a1] })).peersOf a1 :=
      peersOf_eq_of_nodes rfl a1
    rw [he]
    by_cases haa : a2 = a1
    · subst haa
      refine mem_peersOf_append _ a2 a2 ?_
      rw [getNode_updateNode_isSome]
      exact hc1
    · have hne : a1 ≠ a2 := fun hh => haa hh.symm
      unfold ASGraph.peersOf
      rw [getNode_updateNode_ne _ _ hne, getNode_updateNode_self]
      cases hn : ((g.getOrCreateNode a1).getOrCreateNode a2).getNode a1 with
      | none => rw [hn] at hc1; simp at hc1
      | some n => simp
  · have he : (g.addRelationship a1 a2 RelationType.PEER).peersOf a2 =
        ((((g.getOrCreateNode a1).getOrCreateNode a2).updateNode a1
          (fun n => { n with peers := n.peers ++ [a2] })).updateNode a2
          (fun n => { n with peers := n.peers ++ [a1] })).peersOf a2 :=
      peersOf_eq_of_nodes rfl a2
    rw [he]
    refine mem_peersOf_append _ a2 a1 ?_
    rw [getNode_updateNode_isSome]
    exact hc2

theorem strtoulModel_comment (t : List Char) :
    strtoulModel ('#' :: t) = none := by
  unfold strtoulModel
  have hw : ('#' :: t).dropWhile Char.isWhitespace = '#' :: t := by
    rw [List.dropWhile_cons, if_neg]
    intro h
    exact absurd h (by decide)
  rw [hw]
  have hs : takeSign ('#' :: t) = (false, '#' :: t) := rfl
  rw [hs]
  have hd : ('#' :: t).takeWhile Char.isDigit = [] := by
    rw [List.takeWhile_cons, if_neg]
    intro h
    exact absurd h (by decide)
  simp [hd]

theorem parseTwoASNs_head {cs : List Char} {r : ASN × ASN × List Char}
    (h : parseTwoASNs cs = some r) :
    ∃ c t, cs = c :: t ∧ ¬c = '#' := by
  cases cs with
  | nil => simp [parseTwoASNs, strtoulModel, takeSign] at h
  | cons c t =>
    refine ⟨c, t, rfl, ?_⟩
    intro hc
    subst hc
    rw [show parseTwoASNs ('#' :: t) = none from by
      unfold parseTwoASNs
      rw [strtoulModel_comment]] at h
    exact Option.noConfusion h

/-- C7, counterexample: the record line `1|2|x|foo` carries the unknown
relationship field `x`, which the claim says is skipped; `std::atoi`
reads it as 0 and the line is admitted as a **peer** relationship. -/
theorem c7_counterexample :
    parseRelLine (strChars "1|2|x|foo") =
      some (1, 2, RelationType.PEER) := by
  decide

/-- C7 (amended): a record line's relationship field is interpreted as
its `std::atoi` value — so a non-numeric field reads as 0 and is
admitted as a peer —; values −1/0/1 select the three edge kinds, any
other *numeric* value skips the line with no relationship added, and the
three kinds add exactly the claimed adjacency: −1 (kind CUSTOMER) makes
ASN1 a provider of ASN2, 0 makes them peers, 1 (kind PROVIDER) makes
ASN1 a customer of ASN2. -/
theorem c7_rel_field_semantics :
    (∀ (l : List Char) (a1 a2 : ASN) (r4 : List Char),
       parseTwoASNs l = some (a1, a2, r4) →
       parseRelLine l = (relOf (atoiModel r4)).map (fun rt => (a1, a2, rt))) ∧
    (∀ (l : List Char) (a1 a2 : ASN) (r4 : List Char),
       parseTwoASNs l = some (a1, a2, r4) →
       atoiModel r4 ≠ -1 → atoiModel r4 ≠ 0 → atoiModel r4 ≠ 1 →
       parseRelLine l = none) ∧
    (∀ (g : ASGraph) (l : List Char), parseRelLine l = none →
       buildFromLines g [l] = g) ∧
    (∀ (g : ASGraph) (l : List Char) (a1 a2 : ASN) (rt : RelationType),
       parseRelLine l = some (a1, a2, rt) →
       buildFromLines g [l] = g.addRelationship a1 a2 rt) ∧
    (∀ (g : ASGraph) (a1 a2 : ASN),
       a2 ∈ (g.addRelationship a1 a2 .CUSTOMER).customersOf a1 ∧
       a1 ∈ (g.addRelationship a1 a2 .CUSTOMER).providersOf a2) ∧
    (∀ (g : ASGraph) (a1 a2 : ASN),
       a2 ∈ (g.addRelationship a1 a2 .PROVIDER).providersOf a1 ∧
       a1 ∈ (g.addRelationship a1 a2 .PROVIDER).customersOf a2) ∧
    (∀ (g : ASGraph) (a1 a2 : ASN),
       a2 ∈ (g.addRelationship a1 a2 .PEER).peersOf a1 ∧
       a1 ∈ (g.addRelationship a1 a2 .PEER).peersOf a2) := by
  have hdisp : ∀ (l : List Char) (a1 a2 : ASN) (r4 : List Char),
      parseTwoASNs l = some (a1, a2, r4) →
      parseRelLine l = (relOf (atoiModel r4)).map (fun rt => (a1, a2, rt)) := by
    intro l a1 a2 r4 h
    obtain ⟨c, t, rfl, hc⟩ := parseTwoASNs_head h
    simp only [parseRelLine]
    rw [if_neg hc, h]
  refine ⟨hdisp, ?_, ?_, ?_, ?_, ?_, ?_⟩
  · intro l a1 a2 r4 h hm1 h0 h1
    rw [hdisp l a1 a2 r4 h]
    unfold relOf
    rw [if_neg hm1, if_neg h0, if_neg h1]
    rfl
  · intro g l h
    simp [buildFromLines, h]
  · intro g l a1 a2 rt h
    simp [buildFromLines, h]
  · intro g a1 a2
    exact addRel_effect_customer g a1 a2
  · intro g a1 a2
    exact addRel_effect_provider g a1 a2
  · intro g a1 a2
    exact addRel_effect_peer g a1 a2

/-- C7 witness: a well-formed `-1` record parses to kind CUSTOMER and
adding it makes AS5 a provider of AS7; a numeric unknown field (`9`)
skips its line. -/
theorem c7_witness :
    parseRelLine (strChars "5|7|-1|bgp") = some (5, 7, RelationType.CUSTOMER) ∧
    7 ∈ (ASGraph.mk0.addRelationship 5 7 .CUSTOMER).customersOf 5 ∧
    5 ∈ (ASGraph.mk0.addRelationship 5 7 .CUSTOMER).providersOf 7 ∧
    parseRelLine (strChars "1|2|9|bgp") = none :=
  ⟨by decide,
   (c7_rel_field_semantics.2.2.2.2.1 ASGraph.mk0 5 7).1,
   (c7_rel_field_semantics.2.2.2.2.1 ASGraph.mk0 5 7).2,
   c7_rel_field_semantics.2.1 (strChars "1|2|9|bgp") 1 2
     (strChars "9|bgp") (by decide) (by decide) (by decide) (by decide)⟩

/-! ### Phase-preservation machinery and claim C9 -/

theorem foldl_preserves {α β : Type} {P : β → Prop} {f : β → α → β}
    (hstep : ∀ b a, P b → P (f b a)) :
    ∀ (l : List α) (b : β), P b → P (l.foldl f b) := by
  intro l
  induction l with
  | nil => intro b hb; exact hb
  | cons hd tl ih => intro b hb; exact ih _ (hstep b hd hb)

theorem allPolicied_updateNode {g : ASGraph} (asn : ASN) {f : ASNode → ASNode}
    (hf : ∀ n : ASNode, n.policy.isSome = true → (f n).policy.isSome = true)
    (hg : g.allPolicied = true) : (g.updateNode asn f).allPolicied = true := by
  have hg' : g.nodes.all (fun pr => pr.2.policy.isSome) = true := hg
  show (alistUpdate g.nodes asn f).all (fun pr => pr.2.policy.isSome) = true
  exact alistUpdate_all _ _ _ _ (fun _ v hv => hf v hv) hg'

theorem allPolicied_deliverTo {g : ASGraph} (r : ASN) (a : Announcement)
    (hg : g.allPolicied = true) : (g.deliverTo r a).allPolicied = true := by
  unfold ASGraph.deliverTo
  refine allPolicied_updateNode r ?_ hg
  intro n hn
  cases hp : n.policy with
  | none => simpa [hp] using hn
  | some pol => simp [hp]

theorem allPolicied_deliverAll {g : ASGraph} (ds : List Delivery)
    (hg : g.allPolicied = true) : (g.deliverAll ds).allPolicied = true := by
  unfold ASGraph.deliverAll
  exact foldl_preserves (P := fun h : ASGraph => h.allPolicied = true)
    (fun b d hb => allPolicied_deliverTo d.receiver d.sent hb) ds g hg

theorem allPolicied_processClearOne {g : ASGraph} (asn : ASN)
    (hg : g.allPolicied = true) :
    (g.processClearOne asn).allPolicied = true := by
  unfold ASGraph.processClearOne
  refine allPolicied_updateNode asn ?_ hg
  intro n hn
  cases hp : n.policy with
  | none => simpa [hp] using hn
  | some pol => simp [hp]

theorem allPolicied_processClearList {g : ASGraph} (asns : List ASN)
    (hg : g.allPolicied = true) :
    (g.processClearList asns).allPolicied = true := by
  unfold ASGraph.processClearList
  exact foldl_preserves (P := fun h : ASGraph => h.allPolicied = true)
    (fun b x hb => allPolicied_processClearOne x hb) asns g hg

theorem allPolicied_sendPhase {g : ASGraph} (senders : List ASN)
    (mk : ASGraph → ASN → List Delivery) (hg : g.allPolicied = true) :
    (sendPhase g senders mk).1.allPolicied = true := by
  unfold sendPhase
  exact foldl_preserves
    (P := fun acc : ASGraph × List Delivery => acc.1.allPolicied = true)
    (fun b x hb => allPolicied_deliverAll _ hb) senders (g, []) hg

theorem allPolicied_upRanks {rks : List (List ASN)} : ∀ {g : ASGraph},
    g.allPolicied = true → (upRanks g rks).1.allPolicied = true := by
  induction rks with
  | nil => intro g hg; exact hg
  | cons r1 rest ih =>
    intro g hg
    cases rest with
    | nil =>
      simp only [upRanks]
      exact allPolicied_sendPhase r1 upSendsFromNode hg
    | cons r2 rest2 =>
      simp only [upRanks]
      exact ih (allPolicied_processClearList r2
        (allPolicied_sendPhase r1 upSendsFromNode hg))

theorem allPolicied_downRanks {rks : List (List ASN)} : ∀ {g : ASGraph},
    g.allPolicied = true → (downRanks g rks).1.allPolicied = true := by
  induction rks with
  | nil => intro g hg; exact hg
  | cons r1 rest ih =>
    intro g hg
    cases rest with
    | nil =>
      simp only [downRanks]
      exact allPolicied_sendPhase r1 downSendsFromNode hg
    | cons r2 rest2 =>
      simp only [downRanks]
      exact ih (allPolicied_processClearList r2
        (allPolicied_sendPhase r1 downSendsFromNode hg))

theorem allPolicied_propagateUp {g : ASGraph} (hg : g.allPolicied = true) :
    g.propagateUp.allPolicied = true :=
  allPolicied_upRanks hg

theorem allPolicied_propagateAcross {g : ASGraph}
    (hg : g.allPolicied = true) : g.propagateAcross.allPolicied = true := by
  unfold ASGraph.propagateAcross ASGraph.propagateAcrossT
  exact allPolicied_processClearList _
    (allPolicied_sendPhase _ acrossSendsFromNode hg)

theorem allPolicied_propagateDown {g : ASGraph} (hg : g.allPolicied = true) :
    g.propagateDown.allPolicied = true :=
  allPolicied_downRanks hg

theorem countRIBs_isSome {g : ASGraph} (hg : g.allPolicied = true) :
    g.countRIBs.isSome = true := by
  unfold ASGraph.countRIBs ASGraph.allPolicied at *
  have key : ∀ (l : List (ASN × ASNode)),
      l.all (fun pr => pr.2.policy.isSome) = true →
      ∀ n : Nat,
        (l.foldl (fun acc pr =>
          match acc, pr.2.policy with
          | some n, some pol => some (n + pol.local_rib.length)
          | _, _ => none) (some n)).isSome = true := by
    intro l
    induction l with
    | nil => intro _ n; rfl
    | cons hd tl ih =>
      intro hl n
      simp only [List.all_cons, Bool.and_eq_true] at hl
      cases hp : hd.2.policy with
      | none =>
        rw [hp] at hl
        simp at hl
      | some pol =>
        simp only [List.foldl_cons, hp]
        exact ih hl.2 _
  exact key g.nodes hg 0

/-- C9, counterexample: a graph with one policy-less node. The three
phases skip it, but the final counting loop dereferences its null policy
(`none` in the model), so `propagateAnnouncements` as a whole faults —
contradicting "completes without error on every graph, including graphs
in which some AS nodes have no policy installed". -/
theorem c9_counterexample : gNoPolicy.propagateAnnouncements = none := by
  decide

/-- C9 (amended): the three propagation phases complete on every graph,
silently skipping absent nodes, missing policies and neighbours already
on a path, and they never uninstall a policy; but the final counting
loop of `propagateAnnouncements` dereferences every node's policy
unconditionally, so the whole routine is fault-free exactly when every
node has a policy installed. -/
theorem c9_propagation_total (g : ASGraph) (hg : g.allPolicied = true) :
    (g.propagateAnnouncements).isSome = true := by
  unfold ASGraph.propagateAnnouncements
  have h3 :
      (g.propagateUp.propagateAcross.propagateDown).allPolicied = true :=
    allPolicied_propagateDown
      (allPolicied_propagateAcross (allPolicied_propagateUp hg))
  have hc := countRIBs_isSome h3
  cases hx : (g.propagateUp.propagateAcross.propagateDown).countRIBs with
  | none => rw [hx] at hc; simp at hc
  | some n => simp [hx]

/-- C9 witness: `gW` has a policy on every node and its propagation
(count included) succeeds. -/
theorem c9_witness :
    gW.allPolicied = true ∧ (gW.propagateAnnouncements).isSome = true :=
  ⟨by decide, c9_propagation_total gW (by decide)⟩

/-! ### Send-trace machinery and claim C2 -/

theorem vfOk_iff (r : RelationshipType) :
    vfOk r = true ↔ r = .CUSTOMER ∨ r = .ORIGIN := by
  cases r <;> simp [vfOk]

theorem mem_nodeSends {g : ASGraph} {asn : ASN} {nbrs : ASNode → List ASN}
    {tag : RelationshipType} {filt : Bool} {d : Delivery}
    (hd : d ∈ nodeSends g asn nbrs tag filt) :
    d.sender = asn ∧ d.sent = d.src.copy_with_new_hop asn tag ∧
    (filt = true → vfOk d.src.received_from = true) ∧
    (∃ node pol p, alistFind g.nodes asn = some node ∧
      node.policy = some pol ∧ (p, d.src) ∈ pol.local_rib) := by
  unfold nodeSends at hd
  cases hn : alistFind g.nodes asn with
  | none => rw [hn] at hd; simp at hd
  | some node =>
    simp only [hn] at hd
    cases hp : node.policy with
    | none => simp [hp] at hd
    | some pol =>
      simp only [hp] at hd
      rw [List.mem_flatMap] at hd
      obtain ⟨pr, hpr, hmem⟩ := hd
      by_cases hf : (filt && !vfOk pr.2.received_from) = true
      · rw [if_pos hf] at hmem
        simp at hmem
      · rw [if_neg hf] at hmem
        rw [List.mem_filterMap] at hmem
        obtain ⟨nb, _, heq⟩ := hmem
        by_cases hc : pr.2.containsAS nb = true
        · rw [if_pos hc] at heq
          exact Option.noConfusion heq
        · rw [if_neg hc] at heq
          by_cases hpol : g.hasPolicy nb = true
          · rw [if_pos hpol] at heq
            injection heq with heq
            subst heq
            refine ⟨rfl, rfl, ?_, node, pol, pr.1, rfl, hp, ?_⟩
            · intro hft
              subst hft
              simp only [Bool.true_and, Bool.not_eq_true',
                Bool.not_eq_true] at hf
              cases hb : vfOk pr.2.received_from with
              | false => exact absurd hb hf
              | true => rfl
            · exact hpr
          · rw [if_neg hpol] at heq
            exact Option.noConfusion heq

theorem sendPhase_fold_sound {Q : Delivery → Prop}
    {mk : ASGraph → ASN → List Delivery}
    (hmk : ∀ (g : ASGraph) (asn : ASN), ∀ d ∈ mk g asn, Q d) :
    ∀ (senders : List ASN) (g : ASGraph) (acc : List Delivery),
      (∀ d ∈ acc, Q d) →
      ∀ d ∈ (senders.foldl (fun acc asn =>
          let ds := mk acc.1 asn
          (acc.1.deliverAll ds, acc.2 ++ ds)) (g, acc)).2, Q d := by
  intro senders
  induction senders with
  | nil => intro g acc hacc d hd; exact hacc d hd
  | cons s rest ih =>
    intro g acc hacc d hd
    simp only [List.foldl_cons] at hd
    refine ih _ _ ?_ d hd
    intro e he
    rcases List.mem_append.1 he with h1 | h2
    · exact hacc e h1
    · exact hmk _ _ e h2

theorem sendPhase_trace_sound {Q : Delivery → Prop} (g : ASGraph)
    (senders : List ASN) {mk : ASGraph → ASN → List Delivery}
    (hmk : ∀ (g' : ASGraph) (asn : ASN), ∀ d ∈ mk g' asn, Q d) :
    ∀ d ∈ (sendPhase g senders mk).2, Q d := by
  unfold sendPhase
  exact sendPhase_fold_sound hmk senders g [] (by intro d hd; simp at hd)

theorem upRanks_trace_sound {Q : Delivery → Prop}
    (hmk : ∀ (g : ASGraph) (asn : ASN), ∀ d ∈ upSendsFromNode g asn, Q d) :
    ∀ (rks : List (List ASN)) (g : ASGraph), ∀ d ∈ (upRanks g rks).2, Q d := by
  intro rks
  induction rks with
  | nil => intro g d hd; simp [upRanks] at hd
  | cons r1 rest ih =>
    intro g d hd
    cases rest with
    | nil =>
      simp only [upRanks] at hd
      exact sendPhase_trace_sound g r1 hmk d hd
    | cons r2 rest2 =>
      simp only [upRanks] at hd
      rcases List.mem_append.1 hd with h1 | h2
      · exact sendPhase_trace_sound g r1 hmk d h1
      · exact ih _ d h2

/-- C2: valley-free export holds throughout propagation. Every delivery
in the Phase-1 (UP) trace and every delivery in the Phase-2 (ACROSS)
trace exports a RIB entry whose `received_from` is `ORIGIN` or `CUSTOMER`
at the time of export, the copy being tagged `CUSTOMER` (resp. `PEER`);
and the Phase-3 (DOWN) sender applies **no** `received_from` filter: every
RIB entry is exported to every customer that is not on its path and has a
policy, whatever the entry's tag. -/
theorem c2_valley_free_export :
    (∀ (g : ASGraph) (d : Delivery), d ∈ g.propagateUpT.2 →
       (d.src.received_from = .ORIGIN ∨ d.src.received_from = .CUSTOMER) ∧
       d.sent = d.src.copy_with_new_hop d.sender .CUSTOMER) ∧
    (∀ (g : ASGraph) (d : Delivery), d ∈ g.propagateAcrossT.2 →
       (d.src.received_from = .ORIGIN ∨ d.src.received_from = .CUSTOMER) ∧
       d.sent = d.src.copy_with_new_hop d.sender .PEER) ∧
    (∀ (g : ASGraph) (asn : ASN) (node : ASNode) (pol : PolicyState)
       (p : Prefix) (e : Announcement) (c : ASN),
       alistFind g.nodes asn = some node → node.policy = some pol →
       (p, e) ∈ pol.local_rib → c ∈ node.customers →
       e.containsAS c = false → g.hasPolicy c = true →
       ({ sender := asn, receiver := c, src := e,
          sent := e.copy_with_new_hop asn .PROVIDER } : Delivery) ∈
         downSendsFromNode g asn) := by
  have hup : ∀ (g : ASGraph) (asn : ASN), ∀ d ∈ upSendsFromNode g asn,
      (d.src.received_from = RelationshipType.ORIGIN ∨
        d.src.received_from = RelationshipType.CUSTOMER) ∧
      d.sent = d.src.copy_with_new_hop d.sender RelationshipType.CUSTOMER := by
    intro g asn d hd
    obtain ⟨hs, hcopy, hvf, -⟩ := mem_nodeSends hd
    constructor
    · rcases (vfOk_iff _).1 (hvf rfl) with h | h
      · exact Or.inr h
      · exact Or.inl h
    · rw [hs]
      exact hcopy
  have hacross : ∀ (g : ASGraph) (asn : ASN), ∀ d ∈ acrossSendsFromNode g asn,
      (d.src.received_from = RelationshipType.ORIGIN ∨
        d.src.received_from = RelationshipType.CUSTOMER) ∧
      d.sent = d.src.copy_with_new_hop d.sender RelationshipType.PEER := by
    intro g asn d hd
    obtain ⟨hs, hcopy, hvf, -⟩ := mem_nodeSends hd
    constructor
    · rcases (vfOk_iff _).1 (hvf rfl) with h | h
      · exact Or.inr h
      · exact Or.inl h
    · rw [hs]
      exact hcopy
  refine ⟨?_, ?_, ?_⟩
  · intro g d hd
    exact upRanks_trace_sound hup g.ranked_ases g d hd
  · intro g d hd
    unfold ASGraph.propagateAcrossT at hd
    exact sendPhase_trace_sound g g.nodeKeys hacross d hd
  · intro g asn node pol p e c hn hp hrib hc hnotin hpol
    unfold downSendsFromNode nodeSends
    simp only [hn, hp]
    rw [List.mem_flatMap]
    refine ⟨(p, e), hrib, ?_⟩
    dsimp only
    simp only [Bool.false_and, Bool.false_eq_true, if_false]
    rw [List.mem_filterMap]
    refine ⟨c, hc, ?_⟩
    simp [hnotin, hpol]

/-! ### Claim C3 — machinery: deliveries never touch RIBs -/

theorem receive_local_rib (s : PolicyState) (a : Announcement) :
    (s.receiveAnnouncement a).local_rib = s.local_rib := by
  unfold PolicyState.receiveAnnouncement PolicyState.receiveStd
  split <;> rfl

theorem receive_isROV (s : PolicyState) (a : Announcement) :
    (s.receiveAnnouncement a).isROV = s.isROV := by
  unfold PolicyState.receiveAnnouncement PolicyState.receiveStd
  split <;> rfl

theorem storedFrom_tag (asn : ASN) (a : Announcement) :
    (storedFrom asn a).received_from = a.received_from := rfl

theorem ribLookup_deliverTo (g : ASGraph) (r : ASN) (a : Announcement)
    (x : ASN) (p : Prefix) :
    (g.deliverTo r a).ribLookup x p = g.ribLookup x p := by
  unfold ASGraph.ribLookup ASGraph.deliverTo ASGraph.updateNode
  by_cases hx : x = r
  · subst hx
    rw [alistFind_update_self]
    cases hn : alistFind g.nodes x with
    | none => rfl
    | some node =>
      cases hp : node.policy with
      | none => simp [hp]
      | some pol =>
        simp [hp, PolicyState.getAnnouncement, receive_local_rib]
  · rw [alistFind_update_ne _ _ _ _ hx]

theorem ribLookup_deliverAll (g : ASGraph) (ds : List Delivery)
    (x : ASN) (p : Prefix) :
    (g.deliverAll ds).ribLookup x p = g.ribLookup x p := by
  induction ds generalizing g with
  | nil => rfl
  | cons d rest ih =>
    unfold ASGraph.deliverAll
    simp only [List.foldl_cons]
    have h2 := ih (g.deliverTo d.receiver d.sent)
    unfold ASGraph.deliverAll at h2
    rw [h2, ribLookup_deliverTo]

theorem hasPolicy_deliverTo (g : ASGraph) (r : ASN) (a : Announcement)
    (x : ASN) : (g.deliverTo r a).hasPolicy x = g.hasPolicy x := by
  unfold ASGraph.hasPolicy ASGraph.deliverTo ASGraph.updateNode
  by_cases hx : x = r
  · subst hx
    rw [alistFind_update_self]
    cases hn : alistFind g.nodes x with
    | none => rfl
    | some node =>
      cases hp : node.policy with
      | none => simp [hp]
      | some pol => simp [hp]
  · rw [alistFind_update_ne _ _ _ _ hx]

theorem nodeSends_deliverTo (g : ASGraph) (r : ASN) (a : Announcement)
    (asn : ASN) (nbrs : ASNode → List ASN) (tag : RelationshipType)
    (filt : Bool)
    (hnb : ∀ (n : ASNode) (po : Option PolicyState),
      nbrs { n with policy := po } = nbrs n) :
    nodeSends (g.deliverTo r a) asn nbrs tag filt =
      nodeSends g asn nbrs tag filt := by
  unfold nodeSends
  by_cases hx : asn = r
  · subst hx
    rw [show alistFind (g.deliverTo asn a).nodes asn =
        (alistFind g.nodes asn).map (fun n =>
          match n.policy with
          | none => n
          | some pol =>
            { n with policy := some (pol.receiveAnnouncement a) }) from
      alistFind_update_self _ _ _]
    cases hn : alistFind g.nodes asn with
    | none => rfl
    | some node =>
      simp only [Option.map_some']
      cases hp : node.policy with
      | none => simp only [hp]
      | some pol =>
        simp only [hp]
        simp only [receive_local_rib, hnb, hasPolicy_deliverTo]
  · rw [show alistFind (g.deliverTo r a).nodes asn = alistFind g.nodes asn
      from alistFind_update_ne _ _ _ _ hx]
    simp only [hasPolicy_deliverTo]

theorem acrossSends_deliverAll (g : ASGraph) (ds : List Delivery)
    (asn : ASN) :
    acrossSendsFromNode (g.deliverAll ds) asn = acrossSendsFromNode g asn := by
  induction ds generalizing g with
  | nil => rfl
  | cons d rest ih =>
    unfold ASGraph.deliverAll
    simp only [List.foldl_cons]
    have h2 := ih (g.deliverTo d.receiver d.sent)
    unfold ASGraph.deliverAll at h2
    rw [h2]
    exact nodeSends_deliverTo _ _ _ _ _ _ _ (fun n po => rfl)

theorem across_trace_static :
    ∀ (senders : List ASN) (g : ASGraph) (acc : List Delivery),
      (senders.foldl (fun acc asn =>
        let ds := acrossSendsFromNode acc.1 asn
        (acc.1.deliverAll ds, acc.2 ++ ds)) (g, acc)).2
      = acc ++ senders.flatMap (acrossSendsFromNode g) := by
  intro senders
  induction senders with
  | nil => intro g acc; simp
  | cons s rest ih =>
    intro g acc
    simp only [List.foldl_cons, List.flatMap_cons]
    rw [ih]
    have hfun : acrossSendsFromNode (g.deliverAll (acrossSendsFromNode g s)) =
        acrossSendsFromNode g :=
      funext (fun x => acrossSends_deliverAll g _ x)
    rw [hfun, List.append_assoc]

/-! ### Claim C3 — machinery: tag invariants through a phase -/

theorem queuePush_all {f : Announcement → Bool}
    {q : List (Prefix × List Announcement)} (p : Prefix) (a : Announcement)
    (ha : f a = true) (hq : q.all (fun b => b.2.all f) = true) :
    (queuePush q p a).all (fun b => b.2.all f) = true := by
  induction q with
  | nil => simp [queuePush, ha]
  | cons hd tl ih =>
    obtain ⟨k, l⟩ := hd
    simp only [List.all_cons, Bool.and_eq_true] at hq
    by_cases hk : k = p
    · subst hk
      simp [queuePush, List.all_append, List.all_cons, hq.1, hq.2, ha]
    · simp only [queuePush, if_neg hk, List.all_cons, Bool.and_eq_true]
      exact ⟨hq.1, ih hq.2⟩

theorem receive_queue_all {f : Announcement → Bool} (s : PolicyState)
    (a : Announcement) (ha : f a = true)
    (hs : s.received_queue.all (fun b => b.2.all f) = true) :
    (s.receiveAnnouncement a).received_queue.all (fun b => b.2.all f) =
      true := by
  unfold PolicyState.receiveAnnouncement PolicyState.receiveStd
  split
  · exact hs
  · exact queuePush_all _ _ ha hs

theorem queuesAll_deliverTo {g : ASGraph} {f : Announcement → Bool}
    (r : ASN) (a : Announcement) (ha : f a = true)
    (hg : g.queuesAll f = true) : (g.deliverTo r a).queuesAll f = true := by
  show (alistUpdate g.nodes r _).all _ = true
  refine alistUpdate_all _ _ _ _ ?_ hg
  intro k n hn
  cases hp : n.policy with
  | none => simpa [hp] using hn
  | some pol =>
    simp only [hp] at hn ⊢
    exact receive_queue_all pol a ha hn

theorem ribsAll_deliverTo {g : ASGraph} {f : Announcement → Bool}
    (r : ASN) (a : Announcement) (hg : g.ribsAll f = true) :
    (g.deliverTo r a).ribsAll f = true := by
  show (alistUpdate g.nodes r _).all _ = true
  refine alistUpdate_all _ _ _ _ ?_ hg
  intro k n hn
  cases hp : n.policy with
  | none => simpa [hp] using hn
  | some pol =>
    simp only [hp] at hn ⊢
    simpa [receive_local_rib] using hn

theorem queuesAll_deliverAll {g : ASGraph} {f : Announcement → Bool}
    {ds : List Delivery} (hds : ∀ d ∈ ds, f d.sent = true)
    (hg : g.queuesAll f = true) : (g.deliverAll ds).queuesAll f = true := by
  induction ds generalizing g with
  | nil => exact hg
  | cons d rest ih =>
    unfold ASGraph.deliverAll
    simp only [List.foldl_cons]
    have h1 := queuesAll_deliverTo d.receiver d.sent
      (hds d (List.mem_cons_self _ _)) hg
    exact ih (fun e he => hds e (List.mem_cons_of_mem _ he)) h1

theorem ribsAll_deliverAll {g : ASGraph} {f : Announcement → Bool}
    (ds : List Delivery) (hg : g.ribsAll f = true) :
    (g.deliverAll ds).ribsAll f = true := by
  induction ds generalizing g with
  | nil => exact hg
  | cons d rest ih =>
    unfold ASGraph.deliverAll
    simp only [List.foldl_cons]
    exact ih (ribsAll_deliverTo d.receiver d.sent hg)

theorem ribUpsert_all {R : Announcement → Bool}
    {rib : List (Prefix × Announcement)} (k : Prefix) (st : Announcement)
    (hst : R st = true) (hrib : rib.all (fun e => R e.2) = true) :
    (ribUpsert rib k st).all (fun e => R e.2) = true := by
  unfold ribUpsert
  cases hf : alistFind rib k with
  | none => simp [List.all_append, hrib, hst]
  | some inc =>
    by_cases hb : st.isBetterThan inc = true
    · simp only [hb, if_true]
      exact alistReplace_all hst hrib
    · simp only [Bool.not_eq_true] at hb
      simp [hb, hrib]

theorem processFold_all {R : Announcement → Bool} (asn : ASN)
    (hstored : ∀ a, R a = true → R (storedFrom asn a) = true) :
    ∀ (q : List (Prefix × List Announcement))
      (rib : List (Prefix × Announcement)),
      (∀ b ∈ q, b.2.all R = true) →
      rib.all (fun e => R e.2) = true →
      (q.foldl (fun rib pr =>
        match pr.2 with
        | [] => rib
        | c :: cs => ribUpsert rib pr.1 (storedFrom asn (bestOf c cs)))
        rib).all (fun e => R e.2) = true := by
  intro q
  induction q with
  | nil => intro rib _ hr; exact hr
  | cons hd tl ih =>
    intro rib hq hr
    simp only [List.foldl_cons]
    refine ih _ (fun b hb => hq b (List.mem_cons_of_mem _ hb)) ?_
    obtain ⟨k, cands⟩ := hd
    cases cands with
    | nil => exact hr
    | cons c cs =>
      have hball := hq (k, c :: cs) (List.mem_cons_self _ _)
      have hbest : R (bestOf c cs) = true :=
        List.all_eq_true.1 hball _ (bestOf_mem c cs)
      exact ribUpsert_all k _ (hstored _ hbest) hr

theorem ribsAll_processClearOne {g : ASGraph} {R : Announcement → Bool}
    (x : ASN) (hstored : ∀ asn a, R a = true → R (storedFrom asn a) = true)
    (hq : g.queuesAll R = true) (hr : g.ribsAll R = true) :
    (g.processClearOne x).ribsAll R = true := by
  cases hfind : alistFind g.nodes x with
  | none =>
    show (alistUpdate g.nodes x _).all _ = true
    unfold alistUpdate
    rw [hfind]
    exact hr
  | some node =>
    have hmem := alistFind_some_mem hfind
    have hqn := List.all_eq_true.1 hq _ hmem
    have hrn := List.all_eq_true.1 hr _ hmem
    show (alistUpdate g.nodes x _).all _ = true
    unfold alistUpdate
    rw [hfind]
    refine alistReplace_all ?_ hr
    cases hp : node.policy with
    | none => simp [hp]
    | some pol =>
      simp only [hp] at hqn hrn ⊢
      exact processFold_all x (fun a ha => hstored x a ha) _ _
        (fun b hb => List.all_eq_true.1 hqn b hb) hrn

theorem queuesAll_processClearOne {g : ASGraph} {f : Announcement → Bool}
    (x : ASN) (hg : g.queuesAll f = true) :
    (g.processClearOne x).queuesAll f = true := by
  show (alistUpdate g.nodes x _).all _ = true
  refine alistUpdate_all _ _ _ _ ?_ hg
  intro k n hn
  cases hp : n.policy with
  | none => simpa [hp] using hn
  | some pol => simp [hp, PolicyState.clearReceivedQueue]

theorem processClearList_inv {g : ASGraph} {R : Announcement → Bool}
    (asns : List ASN)
    (hstored : ∀ asn a, R a = true → R (storedFrom asn a) = true)
    (hq : g.queuesAll R = true) (hr : g.ribsAll R = true) :
    (g.processClearList asns).queuesAll R = true ∧
    (g.processClearList asns).ribsAll R = true := by
  induction asns generalizing g with
  | nil => exact ⟨hq, hr⟩
  | cons x rest ih =>
    unfold ASGraph.processClearList
    simp only [List.foldl_cons]
    have hq1 := queuesAll_processClearOne x hq
    have hr1 := ribsAll_processClearOne x hstored hq hr
    exact ih hq1 hr1

theorem sendPhase_fold_inv {f : Announcement → Bool}
    {mk : ASGraph → ASN → List Delivery}
    (hmk : ∀ (g : ASGraph) (asn : ASN), ∀ d ∈ mk g asn, f d.sent = true) :
    ∀ (senders : List ASN) (g : ASGraph) (acc : List Delivery),
      g.queuesAll f = true → g.ribsAll f = true →
      (senders.foldl (fun acc asn =>
        let ds := mk acc.1 asn
        (acc.1.deliverAll ds, acc.2 ++ ds)) (g, acc)).1.queuesAll f = true ∧
      (senders.foldl (fun acc asn =>
        let ds := mk acc.1 asn
        (acc.1.deliverAll ds, acc.2 ++ ds)) (g, acc)).1.ribsAll f = true := by
  intro senders
  induction senders with
  | nil => intro g acc hqf hrf; exact ⟨hqf, hrf⟩
  | cons s rest ih =>
    intro g acc hqf hrf
    simp only [List.foldl_cons]
    exact ih _ _ (queuesAll_deliverAll (fun d hd => hmk g s d hd) hqf)
      (ribsAll_deliverAll _ hrf)

theorem sendPhase_inv {f : Announcement → Bool}
    {mk : ASGraph → ASN → List Delivery} (g : ASGraph) (senders : List ASN)
    (hmk : ∀ (g' : ASGraph) (asn : ASN), ∀ d ∈ mk g' asn, f d.sent = true)
    (hqf : g.queuesAll f = true) (hrf : g.ribsAll f = true) :
    (sendPhase g senders mk).1.queuesAll f = true ∧
    (sendPhase g senders mk).1.ribsAll f = true := by
  unfold sendPhase
  exact sendPhase_fold_inv hmk senders g [] hqf hrf

theorem upSends_sent_notPeer (g : ASGraph) (asn : ASN) (d : Delivery)
    (hd : d ∈ upSendsFromNode g asn) : notPeerTag d.sent = true := by
  obtain ⟨-, hcopy, -, -⟩ := mem_nodeSends hd
  rw [hcopy]
  rfl

theorem downSends_sent_prov (g : ASGraph) (asn : ASN) (d : Delivery)
    (hd : d ∈ downSendsFromNode g asn) : provTag d.sent = true := by
  obtain ⟨-, hcopy, -, -⟩ := mem_nodeSends hd
  rw [hcopy]
  rfl

theorem notPeerTag_storedFrom (asn : ASN) (a : Announcement)
    (ha : notPeerTag a = true) : notPeerTag (storedFrom asn a) = true := ha

theorem provTag_storedFrom (asn : ASN) (a : Announcement)
    (ha : provTag a = true) : provTag (storedFrom asn a) = true := ha

theorem upRanks_inv :
    ∀ (rks : List (List ASN)) (g : ASGraph),
      g.queuesAll notPeerTag = true → g.ribsAll notPeerTag = true →
      (upRanks g rks).1.queuesAll notPeerTag = true ∧
      (upRanks g rks).1.ribsAll notPeerTag = true := by
  intro rks
  induction rks with
  | nil => intro g hq hr; exact ⟨hq, hr⟩
  | cons r1 rest ih =>
    intro g hq hr
    cases rest with
    | nil =>
      simp only [upRanks]
      exact sendPhase_inv g r1 upSends_sent_notPeer hq hr
    | cons r2 rest2 =>
      simp only [upRanks]
      have h1 := sendPhase_inv g r1 upSends_sent_notPeer hq hr
      have h2 := processClearList_inv r2 notPeerTag_storedFrom h1.1 h1.2
      exact ih _ h2.1 h2.2

theorem queuesAll_of_empty {g : ASGraph} (f : Announcement → Bool)
    (hq : g.queuesEmpty = true) : g.queuesAll f = true := by
  refine List.all_eq_true.2 ?_
  intro pr hpr
  have h := List.all_eq_true.1 hq pr hpr
  cases hp : pr.2.policy with
  | none => simp [hp]
  | some pol =>
    simp only [hp] at h ⊢
    rw [List.isEmpty_iff] at h
    simp [h]

/-! ### Claim C3 — machinery: PEER entries come only from Phase 2 -/

theorem processFold_find_cases (asn : ASN) (p : Prefix) :
    ∀ (q : List (Prefix × List Announcement))
      (rib : List (Prefix × Announcement)) (e : Announcement),
      alistFind (q.foldl (fun rib pr =>
        match pr.2 with
        | [] => rib
        | c :: cs => ribUpsert rib pr.1 (storedFrom asn (bestOf c cs)))
        rib) p = some e →
      alistFind rib p = some e ∨
      ∃ b ∈ q, ∃ a ∈ b.2, e.received_from = a.received_from := by
  intro q
  induction q with
  | nil => intro rib e h; exact Or.inl h
  | cons hd tl ih =>
    intro rib e h
    simp only [List.foldl_cons] at h
    rcases ih _ e h with h1 | ⟨b, hb, a, hab, hae⟩
    · obtain ⟨k, cands⟩ := hd
      cases cands with
      | nil => exact Or.inl h1
      | cons c cs =>
        rcases find_ribUpsert rib k (storedFrom asn (bestOf c cs)) p with
          h2 | ⟨hpk, h2⟩
        · rw [h2] at h1
          exact Or.inl h1
        · rw [h2] at h1
          injection h1 with h1
          right
          exact ⟨(k, c :: cs), List.mem_cons_self _ _, bestOf c cs,
            bestOf_mem c cs, by rw [← h1]; rfl⟩
    · exact Or.inr ⟨b, List.mem_cons_of_mem _ hb, a, hab, hae⟩

theorem ribLookup_processClearOne_cases (g : ASGraph) (x asn : ASN)
    (p : Prefix) (e : Announcement)
    (h : (g.processClearOne x).ribLookup asn p = some e) :
    g.ribLookup asn p = some e ∨
    ∃ node pol, alistFind g.nodes x = some node ∧ node.policy = some pol ∧
      ∃ b ∈ pol.received_queue, ∃ a ∈ b.2,
        e.received_from = a.received_from := by
  by_cases hx : asn = x
  · subst hx
    have hupd : (g.processClearOne asn).ribLookup asn p =
        match (alistFind g.nodes asn).map (fun n =>
          match n.policy with
          | none => n
          | some pol =>
            { n with
              policy := some ((pol.processReceivedQueue asn).clearReceivedQueue) }) with
        | none => none
        | some node =>
          match node.policy with
          | none => none
          | some pol => pol.getAnnouncement p := by
      unfold ASGraph.ribLookup ASGraph.processClearOne ASGraph.updateNode
      rw [alistFind_update_self]
    rw [hupd] at h
    cases hn : alistFind g.nodes asn with
    | none =>
      rw [hn] at h
      exact Option.noConfusion h
    | some node =>
      rw [hn] at h
      simp only [Option.map_some'] at h
      cases hp : node.policy with
      | none => simp [hp] at h
      | some pol =>
        simp only [hp] at h
        have h2 : alistFind (pol.processReceivedQueue asn).local_rib p =
            some e := h
        rcases processFold_find_cases asn p pol.received_queue
          pol.local_rib e h2 with h3 | h3
        · left
          unfold ASGraph.ribLookup
          rw [hn]
          simp only [hp]
          exact h3
        · exact Or.inr ⟨node, pol, rfl, hp, h3⟩
  · left
    unfold ASGraph.ribLookup ASGraph.processClearOne ASGraph.updateNode at h
    rw [alistFind_update_ne _ _ _ _ hx] at h
    exact h

theorem processClearList_peer_back {g : ASGraph} (asns : List ASN)
    (hq : g.queuesAll provTag = true) :
    (∀ asn p e,
      (g.processClearList asns).ribLookup asn p = some e →
      e.received_from = .PEER → g.ribLookup asn p = some e) ∧
    (g.processClearList asns).queuesAll provTag = true := by
  induction asns generalizing g with
  | nil => exact ⟨fun asn p e h _ => h, hq⟩
  | cons x rest ih =>
    unfold ASGraph.processClearList
    simp only [List.foldl_cons]
    have hq1 := queuesAll_processClearOne x hq
    obtain ⟨hback, hq2⟩ := ih hq1
    refine ⟨?_, hq2⟩
    intro asn p e h hpeer
    have h1 := hback asn p e h hpeer
    rcases ribLookup_processClearOne_cases g x asn p e h1 with
      h2 | ⟨node, pol, hn, hp, b, hb, a, hab, hae⟩
    · exact h2
    · have hmem := alistFind_some_mem hn
      have hQ := List.all_eq_true.1 hq _ hmem
      simp only [hp] at hQ
      have hba := List.all_eq_true.1 hQ b hb
      have hfa := List.all_eq_true.1 hba a hab
      have hprov : a.received_from = RelationshipType.PROVIDER := by
        simpa [provTag] using hfa
      rw [hae, hprov] at hpeer
      exact RelationshipType.noConfusion hpeer

theorem ribLookup_sendPhase_fold {mk : ASGraph → ASN → List Delivery} :
    ∀ (senders : List ASN) (g : ASGraph) (acc : List Delivery)
      (x : ASN) (p : Prefix),
      (senders.foldl (fun acc asn =>
        let ds := mk acc.1 asn
        (acc.1.deliverAll ds, acc.2 ++ ds)) (g, acc)).1.ribLookup x p
      = g.ribLookup x p := by
  intro senders
  induction senders with
  | nil => intro g acc x p; rfl
  | cons s rest ih =>
    intro g acc x p
    simp only [List.foldl_cons]
    rw [ih]
    exact ribLookup_deliverAll _ _ _ _

theorem sendPhase_fold_queues {f : Announcement → Bool}
    {mk : ASGraph → ASN → List Delivery}
    (hmk : ∀ (g : ASGraph) (asn : ASN), ∀ d ∈ mk g asn, f d.sent = true) :
    ∀ (senders : List ASN) (g : ASGraph) (acc : List Delivery),
      g.queuesAll f = true →
      (senders.foldl (fun acc asn =>
        let ds := mk acc.1 asn
        (acc.1.deliverAll ds, acc.2 ++ ds)) (g, acc)).1.queuesAll f = true := by
  intro senders
  induction senders with
  | nil => intro g acc hqf; exact hqf
  | cons s rest ih =>
    intro g acc hqf
    simp only [List.foldl_cons]
    exact ih _ _ (queuesAll_deliverAll (fun d hd => hmk g s d hd) hqf)

theorem downRanks_peer_back :
    ∀ (rks : List (List ASN)) (g : ASGraph),
      g.queuesAll provTag = true →
      (∀ asn p e, (downRanks g rks).1.ribLookup asn p = some e →
        e.received_from = .PEER → g.ribLookup asn p = some e) ∧
      (downRanks g rks).1.queuesAll provTag = true := by
  intro rks
  induction rks with
  | nil => intro g hq; exact ⟨fun _ _ _ h _ => h, hq⟩
  | cons r1 rest ih =>
    intro g hq
    cases rest with
    | nil =>
      simp only [downRanks]
      constructor
      · intro asn p e h _
        rw [show (sendPhase g r1 downSendsFromNode).1.ribLookup asn p =
            g.ribLookup asn p from ribLookup_sendPhase_fold r1 g [] asn p]
          at h
        exact h
      · exact sendPhase_fold_queues downSends_sent_prov r1 g [] hq
    | cons r2 rest2 =>
      simp only [downRanks]
      have hq1 : (sendPhase g r1 downSendsFromNode).1.queuesAll provTag =
          true := sendPhase_fold_queues downSends_sent_prov r1 g [] hq
      obtain ⟨hback2, hq2⟩ := processClearList_peer_back r2 hq1
      obtain ⟨hback3, hq3⟩ := ih _ hq2
      refine ⟨?_, hq3⟩
      intro asn p e h hpeer
      have h1 := hback3 asn p e h hpeer
      have h2 := hback2 asn p e h1 hpeer
      rw [show (sendPhase g r1 downSendsFromNode).1.ribLookup asn p =
          g.ribLookup asn p from ribLookup_sendPhase_fold r1 g [] asn p] at h2
      exact h2

/-! ### Claim C3 — machinery: node keys and queue emptiness -/

theorem alistFind_eq_of_mem_nodup {κ α : Type} [DecidableEq κ] :
    ∀ {l : List (κ × α)}, (alistKeys l).Nodup →
      ∀ {k : κ} {v : α}, (k, v) ∈ l → alistFind l k = some v := by
  intro l
  induction l with
  | nil => intro _ k v hm; simp at hm
  | cons hd tl ih =>
    intro hnd k v hm
    obtain ⟨k1, v1⟩ := hd
    simp only [alistKeys, List.map_cons, List.nodup_cons] at hnd
    rcases List.mem_cons.1 hm with h1 | h2
    · injection h1 with hk hv
      subst hk
      subst hv
      simp [alistFind]
    · have hkmem : k1 ∉ alistKeys tl := by
        simpa [alistKeys] using hnd.1
      have hkin : k ∈ alistKeys tl := List.mem_map_of_mem _ h2
      have hne : k1 ≠ k := fun he => hkmem (he ▸ hkin)
      simp only [alistFind, if_neg hne]
      exact ih (by simpa [alistKeys] using hnd.2) h2

theorem nodeKeys_updateNode (g : ASGraph) (asn : ASN) (f : ASNode → ASNode) :
    (g.updateNode asn f).nodeKeys = g.nodeKeys := by
  unfold ASGraph.nodeKeys ASGraph.updateNode
  exact alistKeys_update g.nodes asn f

theorem nodeKeys_deliverAll (g : ASGraph) (ds : List Delivery) :
    (g.deliverAll ds).nodeKeys = g.nodeKeys := by
  induction ds generalizing g with
  | nil => rfl
  | cons d rest ih =>
    unfold ASGraph.deliverAll
    simp only [List.foldl_cons]
    have h2 := ih (g.deliverTo d.receiver d.sent)
    unfold ASGraph.deliverAll at h2
    rw [h2]
    exact nodeKeys_updateNode _ _ _

theorem nodeKeys_processClearList :
    ∀ (keys : List ASN) (g : ASGraph),
      (g.processClearList keys).nodeKeys = g.nodeKeys := by
  intro keys
  induction keys with
  | nil => intro g; rfl
  | cons k rest ih =>
    intro g
    unfold ASGraph.processClearList
    simp only [List.foldl_cons]
    have h2 := ih (g.processClearOne k)
    unfold ASGraph.processClearList at h2
    rw [h2]
    exact nodeKeys_updateNode _ _ _

theorem nodeKeys_sendPhase_fold {mk : ASGraph → ASN → List Delivery} :
    ∀ (senders : List ASN) (g : ASGraph) (acc : List Delivery),
      (senders.foldl (fun acc asn =>
        let ds := mk acc.1 asn
        (acc.1.deliverAll ds, acc.2 ++ ds)) (g, acc)).1.nodeKeys
      = g.nodeKeys := by
  intro senders
  induction senders with
  | nil => intro g acc; rfl
  | cons s rest ih =>
    intro g acc
    simp only [List.foldl_cons]
    rw [ih]
    exact nodeKeys_deliverAll _ _

theorem nodeKeys_upRanks :
    ∀ (rks : List (List ASN)) (g : ASGraph),
      (upRanks g rks).1.nodeKeys = g.nodeKeys := by
  intro rks
  induction rks with
  | nil => intro g; rfl
  | cons r1 rest ih =>
    intro g
    cases rest with
    | nil =>
      simp only [upRanks]
      exact nodeKeys_sendPhase_fold r1 g []
    | cons r2 rest2 =>
      simp only [upRanks]
      rw [ih]
      rw [nodeKeys_processClearList]
      exact nodeKeys_sendPhase_fold r1 g []

theorem getNode_processClearList_not_mem :
    ∀ (keys : List ASN) (g : ASGraph) {x : ASN}, x ∉ keys →
      (g.processClearList keys).getNode x = g.getNode x := by
  intro keys
  induction keys with
  | nil => intro g x _; rfl
  | cons k rest ih =>
    intro g x hx
    simp only [List.mem_cons, not_or] at hx
    unfold ASGraph.processClearList
    simp only [List.foldl_cons]
    have h2 := ih (g.processClearOne k) hx.2
    unfold ASGraph.processClearList at h2
    rw [h2]
    unfold ASGraph.getNode ASGraph.processClearOne ASGraph.updateNode
    exact alistFind_update_ne _ _ _ _ hx.1

theorem getNode_processClearList_mem :
    ∀ (keys : List ASN) (g : ASGraph) {x : ASN}, keys.Nodup → x ∈ keys →
      ∃ g' : ASGraph, (g.processClearList keys).getNode x
        = (g'.processClearOne x).getNode x := by
  intro keys
  induction keys with
  | nil => intro g x _ hx; simp at hx
  | cons k rest ih =>
    intro g x hnd hx
    simp only [List.nodup_cons] at hnd
    unfold ASGraph.processClearList
    simp only [List.foldl_cons]
    rcases List.mem_cons.1 hx with h1 | h2
    · subst h1
      refine ⟨g, ?_⟩
      have h2 := getNode_processClearList_not_mem rest (g.processClearOne x)
        hnd.1
      unfold ASGraph.processClearList at h2
      exact h2
    · obtain ⟨g', hg'⟩ := ih (g.processClearOne k) hnd.2 h2
      unfold ASGraph.processClearList at hg'
      exact ⟨g', hg'⟩

theorem processClearOne_queue_cleared (g : ASGraph) (x : ASN) (n : ASNode)
    (pol : PolicyState) (hn : (g.processClearOne x).getNode x = some n)
    (hp : n.policy = some pol) : pol.received_queue = [] := by
  unfold ASGraph.getNode ASGraph.processClearOne ASGraph.updateNode at hn
  rw [alistFind_update_self] at hn
  cases hg : alistFind g.nodes x with
  | none =>
    rw [hg] at hn
    exact Option.noConfusion hn
  | some m =>
    rw [hg] at hn
    simp only [Option.map_some'] at hn
    injection hn with hn
    cases hq : m.policy with
    | none =>
      simp only [hq] at hn
      rw [← hn, hq] at hp
      exact Option.noConfusion hp
    | some pol2 =>
      simp only [hq] at hn
      rw [← hn] at hp
      injection hp with hp
      rw [← hp]
      rfl

theorem queuesEmpty_processClearList_all (g : ASGraph) (keys : List ASN)
    (hk : g.nodeKeys = keys) (hnd : keys.Nodup) :
    (g.processClearList keys).queuesEmpty = true := by
  unfold ASGraph.queuesEmpty
  refine List.all_eq_true.2 ?_
  intro pr hpr
  obtain ⟨x, node⟩ := pr
  have hkeys : (g.processClearList keys).nodeKeys = keys := by
    rw [nodeKeys_processClearList keys g, hk]
  have hndr : (alistKeys (g.processClearList keys).nodes).Nodup := by
    have : (g.processClearList keys).nodeKeys = keys := hkeys
    unfold ASGraph.nodeKeys at this
    rw [this]
    exact hnd
  have hfind : alistFind (g.processClearList keys).nodes x = some node :=
    alistFind_eq_of_mem_nodup hndr hpr
  have hxmem : x ∈ keys := by
    rw [← hkeys]
    exact List.mem_map_of_mem _ hpr
  cases hq : node.policy with
  | none => simp [hq]
  | some pol =>
    obtain ⟨g', hg'⟩ := getNode_processClearList_mem keys g hnd hxmem
    have hn2 : (g'.processClearOne x).getNode x = some node := by
      rw [← hg']
      exact hfind
    have hcl := processClearOne_queue_cleared g' x node pol hn2 hq
    simp [hq, hcl]

theorem acrossSends_guard (g : ASGraph) (asn : ASN) (d : Delivery)
    (hd : d ∈ acrossSendsFromNode g asn) :
    d.src.received_from = .CUSTOMER ∨ d.src.received_from = .ORIGIN := by
  obtain ⟨-, -, hg, -⟩ := mem_nodeSends hd
  exact (vfOk_iff _).1 (hg rfl)

/-- C2 witness: on `gW`, AS2's origin entry is exported up to AS1 and
across to AS3 with the claimed tags, and AS1's down-phase send to its
customer AS2 exists with no tag filter. -/
theorem c2_witness :
    (dUpW ∈ gW.propagateUpT.2 ∧
      (dUpW.src.received_from = .ORIGIN ∨
        dUpW.src.received_from = .CUSTOMER) ∧
      dUpW.sent = dUpW.src.copy_with_new_hop dUpW.sender .CUSTOMER) ∧
    (dAcrossW ∈ gW.propagateAcrossT.2 ∧
      (dAcrossW.src.received_from = .ORIGIN ∨
        dAcrossW.src.received_from = .CUSTOMER) ∧
      dAcrossW.sent = dAcrossW.src.copy_with_new_hop dAcrossW.sender .PEER) ∧
    dDownW ∈ downSendsFromNode gW 1 :=
  ⟨⟨by decide, c2_valley_free_export.1 gW dUpW (by decide)⟩,
   ⟨by decide, c2_valley_free_export.2.1 gW dAcrossW (by decide)⟩,
   c2_valley_free_export.2.2 gW 1
     { asn := 1, providers := [], customers := [2], peers := [],
       propagation_rank := 1,
       policy := some { PolicyState.mkBGP with
         local_rib := [(pfx0, annOrigin 1)] } }
     { PolicyState.mkBGP with local_rib := [(pfx0, annOrigin 1)] }
     pfx0 (annOrigin 1) 2
     (by decide) (by decide) (by decide) (by decide) (by decide) (by decide)⟩

/-- C10 witness: `annOrigin 1` is strictly better than `c10worse`, both
share a prefix, and after seeding `annOrigin 1` then `c10worse` the RIB
holds `c10worse`. -/
theorem c10_witness :
    (annOrigin 1).isBetterThan c10worse = true ∧
    (annOrigin 1).pfx = c10worse.pfx ∧
    ((PolicyState.mkBGP.seedAnnouncement (annOrigin 1)).seedAnnouncement
        c10worse).getAnnouncement c10worse.pfx = some c10worse :=
  ⟨by decide, by decide,
    c10_seed_unconditional.2 PolicyState.mkBGP (annOrigin 1) c10worse
      (by decide)⟩

/-- C3: peer routes propagate exactly one hop. (i) Deliveries never
change any RIB (they only stage queue entries), and the ACROSS trace
equals the flat list of sends computed statically from the phase-entry
state: every AS sends from its pre-phase RIB, the queues being resolved
only in the batch step after all sends. (ii) No AS forwards a
peer-received route during ACROSS: every ACROSS-trace delivery exports
an entry whose `received_from` is `CUSTOMER` or `ORIGIN`, never `PEER`.
(iii) From a seeded state (clean queues, no PEER-tagged RIB entry),
Phase 1 produces no PEER-tagged RIB entry, so the entries exported in
Phase 2 carry no earlier peer hop; and (iv) every PEER-tagged RIB entry
present after all three phases was already present immediately after
Phase 2 — the single peer hop of such an entry was produced within
Phase 2 and the entry is never re-forwarded over a peer edge. -/
theorem c3_peer_single_hop (g : ASGraph)
    (hnd : g.nodeKeys.Nodup) (hqe : g.queuesEmpty = true)
    (hnp : g.ribsAll notPeerTag = true) :
    (∀ (g' : ASGraph) (ds : List Delivery) (x : ASN) (p : Prefix),
       (g'.deliverAll ds).ribLookup x p = g'.ribLookup x p) ∧
    (g.propagateUp.propagateAcrossT.2
      = g.propagateUp.nodeKeys.flatMap (acrossSendsFromNode g.propagateUp)) ∧
    (∀ d ∈ g.propagateUp.propagateAcrossT.2,
       d.src.received_from = .CUSTOMER ∨ d.src.received_from = .ORIGIN) ∧
    g.propagateUp.ribsAll notPeerTag = true ∧
    (∀ (x : ASN) (p : Prefix) (e : Announcement),
       g.propagateUp.propagateAcross.propagateDown.ribLookup x p = some e →
       e.received_from = .PEER →
       g.propagateUp.propagateAcross.ribLookup x p = some e) := by
  have htrace : ∀ g1 : ASGraph, g1.propagateAcrossT.2
      = g1.nodeKeys.flatMap (acrossSendsFromNode g1) := by
    intro g1
    show (sendPhase g1 g1.nodeKeys acrossSendsFromNode).2 = _
    unfold sendPhase
    rw [across_trace_static g1.nodeKeys g1 []]
    simp
  refine ⟨fun g' ds x p => ribLookup_deliverAll g' ds x p,
    htrace g.propagateUp, ?_, ?_, ?_⟩
  · intro d hd
    rw [htrace g.propagateUp] at hd
    obtain ⟨asn, hasn, hd2⟩ := List.mem_flatMap.1 hd
    exact acrossSends_guard g.propagateUp asn d hd2
  · exact (upRanks_inv g.ranked_ases g
      (queuesAll_of_empty notPeerTag hqe) hnp).2
  · have hnd1 : g.propagateUp.nodeKeys.Nodup := by
      show (upRanks g g.ranked_ases).1.nodeKeys.Nodup
      rw [nodeKeys_upRanks g.ranked_ases g]
      exact hnd
    have hkeys : (sendPhase g.propagateUp g.propagateUp.nodeKeys
        acrossSendsFromNode).1.nodeKeys = g.propagateUp.nodeKeys := by
      unfold sendPhase
      exact nodeKeys_sendPhase_fold g.propagateUp.nodeKeys g.propagateUp []
    have hqe2 : g.propagateUp.propagateAcross.queuesEmpty = true := by
      show ((sendPhase g.propagateUp g.propagateUp.nodeKeys
        acrossSendsFromNode).1.processClearList
          g.propagateUp.nodeKeys).queuesEmpty = true
      exact queuesEmpty_processClearList_all _ _ hkeys hnd1
    have hq2 : g.propagateUp.propagateAcross.queuesAll provTag = true :=
      queuesAll_of_empty provTag hqe2
    intro x p e h hpeer
    exact (downRanks_peer_back
      g.propagateUp.propagateAcross.ranked_ases.reverse
      g.propagateUp.propagateAcross hq2).1 x p e h hpeer

/-- C3 witness: the concrete graph `gW` satisfies the hypotheses (keys
without duplicates, clean queues, no PEER-tagged RIB entry), and after
Phase 1 its RIBs still hold no PEER-tagged entry. -/
theorem c3_witness :
    gW.nodeKeys.Nodup ∧ gW.queuesEmpty = true ∧
    gW.ribsAll notPeerTag = true ∧
    gW.propagateUp.ribsAll notPeerTag = true :=
  ⟨by decide, by decide, by decide,
    (c3_peer_single_hop gW (by decide) (by decide) (by decide)).2.2.2.1⟩

/-! ### Claim C5 — list and association-list helpers -/

theorem maxNat_le {l : List Nat} {b : Nat} (h : ∀ a ∈ l, a ≤ b) :
    maxNat l ≤ b := by
  induction l with
  | nil => exact Nat.zero_le b
  | cons a l ih =>
    simp only [maxNat, List.foldr_cons]
    exact max_le (h a (List.mem_cons_self a l))
      (ih fun x hx => h x (List.mem_cons_of_mem a hx))

theorem le_maxNat {l : List Nat} {a : Nat} (h : a ∈ l) : a ≤ maxNat l := by
  induction l with
  | nil => simp at h
  | cons x l ih =>
    simp only [maxNat, List.foldr_cons]
    rcases List.mem_cons.1 h with h1 | h2
    · subst h1
      exact le_max_left _ _
    · exact le_trans (ih h2) (le_max_right _ _)

theorem maxNat_eq_dom {l1 l2 : List Nat}
    (h1 : ∀ a ∈ l1, ∃ b ∈ l2, a ≤ b) (h2 : ∀ a ∈ l2, ∃ b ∈ l1, a ≤ b) :
    maxNat l1 = maxNat l2 := by
  apply le_antisymm
  · refine maxNat_le fun a ha => ?_
    obtain ⟨b, hb, hab⟩ := h1 a ha
    exact le_trans hab (le_maxNat hb)
  · refine maxNat_le fun a ha => ?_
    obtain ⟨b, hb, hab⟩ := h2 a ha
    exact le_trans hab (le_maxNat hb)

theorem maxNat_append (l1 l2 : List Nat) :
    maxNat (l1 ++ l2) = max (maxNat l1) (maxNat l2) := by
  induction l1 with
  | nil => simp [maxNat]
  | cons a l ih =>
    simp only [maxNat, List.cons_append, List.foldr_cons] at ih ⊢
    rw [ih, max_assoc]

theorem alistFind_isSome_of_mem_keys {κ α : Type} [DecidableEq κ] :
    ∀ {l : List (κ × α)} {k : κ}, k ∈ alistKeys l →
      ∃ v, alistFind l k = some v := by
  intro l
  induction l with
  | nil => intro k h; simp [alistKeys] at h
  | cons hd tl ih =>
    intro k h
    obtain ⟨k1, v1⟩ := hd
    by_cases hk : k1 = k
    · exact ⟨v1, by simp [alistFind, hk]⟩
    · have h2 : k ∈ alistKeys tl := by
        simp only [alistKeys, List.map_cons, List.mem_cons] at h
        rcases h with h | h
        · exact absurd h.symm hk
        · simpa [alistKeys] using h
      obtain ⟨v, hv⟩ := ih h2
      exact ⟨v, by simp [alistFind, hk, hv]⟩

theorem alistFind_none_of_not_mem_keys {κ α : Type} [DecidableEq κ]
    {l : List (κ × α)} {k : κ} (h : k ∉ alistKeys l) :
    alistFind l k = none := by
  cases hf : alistFind l k with
  | none => rfl
  | some v =>
    have hm := List.mem_map_of_mem (fun pr : κ × α => pr.1)
      (alistFind_some_mem hf)
    simp only [alistKeys] at h
    exact absurd hm h

theorem alistFind_erase_ne {κ α : Type} [DecidableEq κ] :
    ∀ (l : List (κ × α)) (k k' : κ), k' ≠ k →
      alistFind (alistErase l k) k' = alistFind l k' := by
  intro l
  induction l with
  | nil => intro k k' h; rfl
  | cons hd tl ih =>
    intro k k' h
    obtain ⟨k1, v1⟩ := hd
    by_cases hk : k1 = k
    · subst hk
      have h2 : ¬(k1 = k') := fun he => h (he.symm)
      simp only [alistErase, eq_self_iff_true, if_true, alistFind, h2,
        if_false]
    · simp only [alistErase, if_neg hk, alistFind]
      by_cases hk' : k1 = k'
      · simp [hk']
      · simp [hk', ih k k' h]

theorem alistKeys_erase_perm {κ α : Type} [DecidableEq κ] :
    ∀ (l : List (κ × α)) (k : κ) (v : α), alistFind l k = some v →
      (alistKeys l).Perm (k :: alistKeys (alistErase l k)) := by
  intro l
  induction l with
  | nil => intro k v h; simp [alistFind] at h
  | cons hd tl ih =>
    intro k v h
    obtain ⟨k1, v1⟩ := hd
    by_cases hk : k1 = k
    · subst hk
      simp only [alistErase, if_pos rfl, alistKeys, List.map_cons]
      exact List.Perm.refl _
    · simp only [alistFind, if_neg hk] at h
      simp only [alistErase, if_neg hk, alistKeys, List.map_cons]
      exact ((ih k v h).cons k1).trans (List.Perm.swap k k1 _)

theorem alistFind_erase_self_of_nodup {κ α : Type} [DecidableEq κ] :
    ∀ (l : List (κ × α)) (k : κ), (alistKeys l).Nodup →
      alistFind (alistErase l k) k = none := by
  intro l
  induction l with
  | nil => intro k _; rfl
  | cons hd tl ih =>
    intro k hnd
    obtain ⟨k1, v1⟩ := hd
    simp only [alistKeys, List.map_cons, List.nodup_cons] at hnd
    by_cases hk : k1 = k
    · subst hk
      simp only [alistErase, if_pos rfl]
      exact alistFind_none_of_not_mem_keys (by simpa [alistKeys] using hnd.1)
    · simp only [alistErase, if_neg hk, alistFind, if_neg hk]
      exact ih k (by simpa [alistKeys] using hnd.2)

theorem countP_notmem_snoc (l D : List ASN) (a : ASN) (ha : a ∉ D) :
    l.countP (fun c => decide (c ∉ D ++ [a])) + l.count a
      = l.countP (fun c => decide (c ∉ D)) := by
  induction l with
  | nil => simp
  | cons c l ih =>
    by_cases hc : c = a
    · subst hc
      have h1 : decide (c ∉ D ++ [c]) = false := by simp
      have h2 : decide (c ∉ D) = true := by simp [ha]
      rw [List.countP_cons, List.countP_cons, List.count_cons_self, h1, h2]
      simp only [Bool.false_eq_true, if_false, if_true]
      omega
    · have h1 : decide (c ∉ D ++ [a]) = decide (c ∉ D) := by
        simp [List.mem_append, hc]
      have hca : a ≠ c := fun he => hc he.symm
      rw [List.countP_cons, List.countP_cons,
        List.count_cons_of_ne hca, h1]
      omega

theorem pendCusts_eq_nil_iff (g : ASGraph) (D : List ASN) (x : ASN) :
    pendCusts g D x = [] ↔ ∀ c ∈ g.customersOf x, c ∈ D := by
  unfold pendCusts
  rw [List.filter_eq_nil_iff]
  constructor
  · intro h c hc
    have h2 := h c hc
    simpa using h2
  · intro h c hc
    simp [h c hc]

theorem mem_doneCusts {g : ASGraph} {D : List ASN} {x c : ASN} :
    c ∈ doneCusts g D x ↔ c ∈ g.customersOf x ∧ c ∈ D := by
  unfold doneCusts
  rw [List.mem_filter]
  simp

theorem doneCusts_eq_nil_iff (g : ASGraph) (D : List ASN) (x : ASN) :
    doneCusts g D x = [] ↔ ∀ c ∈ g.customersOf x, c ∉ D := by
  unfold doneCusts
  rw [List.filter_eq_nil_iff]
  constructor
  · intro h c hc hcD
    exact h c hc (by simp [hcD])
  · intro h c hc
    simp [h c hc]

theorem pendCusts_snoc_length (g : ASGraph) (D : List ASN) (a x : ASN)
    (ha : a ∉ D) :
    (pendCusts g (D ++ [a]) x).length + (g.customersOf x).count a
      = (pendCusts g D x).length := by
  unfold pendCusts
  rw [← List.countP_eq_length_filter, ← List.countP_eq_length_filter]
  exact countP_notmem_snoc _ D a ha

theorem pendCusts_nil_mono {g : ASGraph} {D : List ASN} {x : ASN}
    (a : ASN) (h : pendCusts g D x = []) :
    pendCusts g (D ++ [a]) x = [] := by
  rw [pendCusts_eq_nil_iff] at h ⊢
  intro c hc
  exact List.mem_append_left _ (h c hc)

theorem node_of_mem_keys (g : ASGraph) (hnd : (alistKeys g.nodes).Nodup)
    {x : ASN} (hx : x ∈ alistKeys g.nodes) :
    ∃ node, alistFind g.nodes x = some node ∧ (x, node) ∈ g.nodes ∧
      g.customersOf x = node.customers ∧
      g.providersOf x = node.providers := by
  simp only [alistKeys] at hx
  obtain ⟨pr, hpr, hfst⟩ := List.mem_map.1 hx
  have hmem : (x, pr.2) ∈ g.nodes := by
    rw [← hfst]
    exact hpr
  have hfind : alistFind g.nodes x = some pr.2 :=
    alistFind_eq_of_mem_nodup hnd hmem
  refine ⟨pr.2, hfind, hmem, ?_, ?_⟩
  · unfold ASGraph.customersOf ASGraph.getNode
    rw [hfind]
    rfl
  · unfold ASGraph.providersOf ASGraph.getNode
    rw [hfind]
    rfl

theorem customersOf_closure (g : ASGraph) (hWF : g.WF) {x c : ASN}
    (hx : x ∈ alistKeys g.nodes) (hc : c ∈ g.customersOf x) :
    c ∈ alistKeys g.nodes := by
  obtain ⟨node, -, hmem, hcust, -⟩ := node_of_mem_keys g hWF.1 hx
  rw [hcust] at hc
  exact hWF.2.2.1 (x, node) hmem c hc

theorem count_symm (g : ASGraph) (hWF : g.WF) {x y : ASN}
    (hx : x ∈ alistKeys g.nodes) (hy : y ∈ alistKeys g.nodes) :
    (g.providersOf x).count y = (g.customersOf y).count x := by
  obtain ⟨nx, -, hmx, -, hpx⟩ := node_of_mem_keys g hWF.1 hx
  obtain ⟨ny, -, hmy, hcy, -⟩ := node_of_mem_keys g hWF.1 hy
  rw [hpx, hcy]
  exact hWF.2.2.2 (x, nx) hmx (y, ny) hmy

theorem alistErase_length_of_find {κ α : Type} [DecidableEq κ] :
    ∀ (l : List (κ × α)) (k : κ) (v : α), alistFind l k = some v →
      (alistErase l k).length + 1 = l.length := by
  intro l
  induction l with
  | nil => intro k v hv; simp [alistFind] at hv
  | cons hd tl ih =>
    intro k v hv
    by_cases hk : hd.1 = k
    · simp [alistErase, hk]
    · simp only [alistFind, hk, if_false] at hv
      simp only [alistErase, hk, if_false, List.length_cons]
      rw [← ih k v hv]

theorem alistReplace_length {κ α : Type} [DecidableEq κ] :
    ∀ (l : List (κ × α)) (k : κ) (v : α),
      (alistReplace l k v).length = l.length := by
  intro l
  induction l with
  | nil => intro k v; simp [alistReplace]
  | cons hd tl ih =>
    intro k v
    by_cases hk : hd.1 = k
    · simp [alistReplace, hk]
    · simp [alistReplace, hk, ih]

theorem kahnProviders_size (cr : Nat) :
    ∀ (ps : List ASN) (s : KahnSt), (kahnProviders cr ps s).size = s.size := by
  intro ps
  induction ps with
  | nil => intro s; simp [kahnProviders]
  | cons p ps ih =>
    intro s
    simp only [kahnProviders]
    cases hf : alistFind s.cc p with
    | none => exact ih s
    | some cnt =>
      by_cases hz : cnt - 1 = 0
      · simp only [hz, if_true, ih]
        simp only [KahnSt.size, List.length_append, List.length_cons,
          List.length_nil]
        have h2 := alistErase_length_of_find s.cc p cnt hf
        omega
      · simp only [hz, if_false, ih]
        simp only [KahnSt.size, alistReplace_length]

theorem maxNat_singleton (a : Nat) : maxNat [a] = a := by
  simp [maxNat]

theorem mem_keys_of_find {κ α : Type} [DecidableEq κ]
    {l : List (κ × α)} {k : κ} {v : α} (h : alistFind l k = some v) :
    k ∈ alistKeys l := by
  simp only [alistKeys]
  exact List.mem_map_of_mem (fun pr : κ × α => pr.1) (alistFind_some_mem h)

theorem rankForm_congr (g : ASGraph) (D : List ASN) (cr : Nat)
    (st : KahnSt) (x : ASN) {qs qt : List ASN}
    (h : qs.count x = 0 ↔ qt.count x = 0) :
    rankForm g D cr qs st x = rankForm g D cr qt st x := by
  unfold rankForm
  by_cases h0 : qs.count x = 0
  · have h1 := h.1 h0
    simp [h0, h1]
  · have h1 : ¬qt.count x = 0 := fun hh => h0 (h.2 hh)
    simp [h0, h1]

theorem rankForm_ranks_congr (g : ASGraph) (D : List ASN) (cr : Nat)
    (qs : List ASN) (st st' : KahnSt) (x : ASN)
    (h : ∀ c ∈ doneCusts g D x, rnkOf st' c = rnkOf st c) :
    rankForm g D cr qs st' x = rankForm g D cr qs st x := by
  unfold rankForm
  rw [List.map_congr_left h]

theorem kahnProviders_inv (g : ASGraph) (hWF : g.WF) (D : List ASN)
    (current : ASN) (cr : Nat) :
    ∀ (ps qs : List ASN) (st : KahnSt),
      KahnInvI g D current cr qs ps st →
      KahnInvI g D current cr (qs ++ ps) [] (kahnProviders cr ps st) := by
  intro ps
  induction ps with
  | nil =>
    intro qs st hI
    simp only [kahnProviders, List.append_nil]
    exact hI
  | cons p ps ih =>
    intro qs st hI
    obtain ⟨hsplit, hperm, hnodup, hcc, hccne, hrank, hfull, hmax, hcur,
      hprov⟩ := hI
    have hsplit' : g.providersOf current = (qs ++ [p]) ++ ps := by
      rw [hsplit, List.append_assoc, List.singleton_append]
    simp only [kahnProviders]
    cases hf : alistFind st.cc p with
    | none =>
      have hpnotk : p ∉ alistKeys st.cc := by
        intro hmem
        obtain ⟨v, hv⟩ := alistFind_isSome_of_mem_keys hmem
        rw [hf] at hv
        exact Option.noConfusion hv
      have hcount1 : 1 ≤ qs.count p := by
        rcases hprov p (List.mem_cons_self p ps) with h1 | h1
        · exact absurd h1 hpnotk
        · exact h1
      have hI' : KahnInvI g D current cr (qs ++ [p]) ps st := by
        refine ⟨hsplit', hperm, hnodup, ?_, hccne, ?_, hfull, hmax, hcur,
          ?_⟩
        · intro x cnt hx
          have hxk := mem_keys_of_find hx
          have hxp : x ≠ p := fun he => hpnotk (he ▸ hxk)
          have hold := hcc x cnt hx
          rw [List.count_cons_of_ne hxp] at hold
          exact hold
        · intro x hxg
          rw [hrank x hxg]
          by_cases hxp : x = p
          · subst hxp
            refine rankForm_congr g D cr st x ?_
            rw [List.count_append, List.count_singleton_self]
            omega
          · refine rankForm_congr g D cr st x ?_
            rw [List.count_append]
            have h0 : List.count x [p] = 0 := by
              simp [List.count_singleton, hxp]
            omega
        · intro q hq
          rcases hprov q (List.mem_cons_of_mem p hq) with h1 | h1
          · exact Or.inl h1
          · right
            rw [List.count_append]
            omega
      have hres := ih (qs ++ [p]) st hI'
      rwa [List.append_assoc, List.singleton_append] at hres
    | some cnt =>
      have hpk : p ∈ alistKeys st.cc := mem_keys_of_find hf
      have hpg : p ∈ alistKeys g.nodes := by
        refine hperm.subset ?_
        simp [hpk]
      have hnd2 : ((D ++ [current]) ++ st.queue).Nodup ∧
          (alistKeys st.cc).Nodup ∧
          ((D ++ [current]) ++ st.queue).Disjoint (alistKeys st.cc) :=
        List.nodup_append.1 hnodup
      have hpD : p ∉ D ++ [current] := fun hm =>
        hnd2.2.2 (List.mem_append_left _ hm) hpk
      have hpq : p ∉ st.queue := fun hm =>
        hnd2.2.2 (List.mem_append_right _ hm) hpk
      have hpcur : current ≠ p := fun he =>
        hpD (he ▸ List.mem_append_right D (List.mem_singleton_self current))
      have hcustp : g.customersOf p ≠ [] := hccne p hpk
      have hccp := hcc p cnt hf
      rw [List.count_cons_self] at hccp
      -- the new rank value of p
      have hrankp := hrank p hpg
      have hcnt0 : ¬((qs ++ [p]).count p = 0) := by
        rw [List.count_append, List.count_singleton_self]
        omega
      have hne0 : ¬(doneCusts g D p = [] ∧ (qs ++ [p]).count p = 0) := by
        rintro ⟨-, hc0⟩
        exact hcnt0 hc0
      by_cases hz : cnt - 1 = 0
      · simp only [hz, if_true]
        set R : Nat := (match st.ranks p with
          | none => cr + 1
          | some r => max r (cr + 1)) with hR
        have hstableE : ∀ (cc' : List (ASN × Int)) (q' : List ASN)
            (m' : Nat) (x : ASN), ∀ c ∈ doneCusts g D x,
            rnkOf
              { ranks := fun a => if a = p then some R else st.ranks a,
                cc := cc', queue := q', max_rank := m' } c = rnkOf st c := by
          intro cc' q' m' x c hcm
          have hcD : c ∈ D := (mem_doneCusts.1 hcm).2
          have hcp : c ≠ p := fun he =>
            hpD (by rw [← he] at hpD ⊢; exact List.mem_append_left _ hcD)
          simp [rnkOf, hcp]
        have hval : ∀ st' : KahnSt,
            (∀ c ∈ doneCusts g D p, rnkOf st' c = rnkOf st c) →
            (some R : Option Nat) = rankForm g D cr (qs ++ [p]) st' p := by
          intro st' hstable
          rw [rankForm_ranks_congr g D cr (qs ++ [p]) st st' p hstable]
          have hform2 : rankForm g D cr (qs ++ [p]) st p
              = some (1 + maxNat ((doneCusts g D p).map (rnkOf st)
                ++ [cr])) := by
            unfold rankForm
            rw [if_neg hcustp, if_neg hne0, if_neg hcnt0]
          rw [hform2, hR, hrankp]
          by_cases h0 : doneCusts g D p = [] ∧ qs.count p = 0
          · have hform0 : rankForm g D cr qs st p = none := by
              unfold rankForm
              rw [if_neg hcustp, if_pos h0]
            rw [hform0]
            dsimp only
            rw [h0.1]
            simp only [List.map_nil, List.nil_append, maxNat_singleton,
              Option.some.injEq]
            omega
          · have hformS : rankForm g D cr qs st p
                = some (1 + maxNat ((doneCusts g D p).map (rnkOf st) ++
                  (if qs.count p = 0 then [] else [cr]))) := by
              unfold rankForm
              rw [if_neg hcustp, if_neg h0]
            rw [hformS]
            dsimp only
            rcases Nat.eq_zero_or_pos (qs.count p) with hq0 | hqpos
            · rw [if_pos hq0]
              simp only [List.append_nil, Option.some.injEq]
              rw [maxNat_append, maxNat_singleton]
              omega
            · rw [if_neg (by omega)]
              simp only [Option.some.injEq]
              have hcrle : cr ≤ maxNat ((doneCusts g D p).map (rnkOf st)
                  ++ [cr]) :=
                le_maxNat
                  (List.mem_append_right _ (List.mem_singleton_self cr))
              omega
        have hpend0 : pendCusts g (D ++ [current]) p = [] := by
          have h2 : (pendCusts g (D ++ [current]) p).length = 0 := by omega
          exact List.length_eq_zero.1 h2
        have hps0 : ps.count p = 0 := by omega
        have hkp := alistKeys_erase_perm st.cc p cnt hf
        have harr : (D ++ [current]) ++ (st.queue ++ [p]) ++
            alistKeys (alistErase st.cc p)
            = (D ++ [current]) ++ st.queue ++
              (p :: alistKeys (alistErase st.cc p)) := by
          simp [List.append_assoc]
        have hI' : KahnInvI g D current cr (qs ++ [p]) ps
            { ranks := fun a => if a = p then some R else st.ranks a,
              cc := alistErase st.cc p, queue := st.queue ++ [p],
              max_rank := max st.max_rank R } := by
          refine ⟨hsplit', ?_, ?_, ?_, ?_, ?_, ?_, ?_, ?_, ?_⟩
          · show ((D ++ [current]) ++ (st.queue ++ [p]) ++
                alistKeys (alistErase st.cc p)).Perm (alistKeys g.nodes)
            rw [harr]
            exact (List.Perm.append_left _ hkp.symm).trans hperm
          · show ((D ++ [current]) ++ (st.queue ++ [p]) ++
                alistKeys (alistErase st.cc p)).Nodup
            rw [harr]
            exact ((List.Perm.append_left _ hkp.symm).nodup_iff).2 hnodup
          · intro x cnt' hx
            dsimp only at hx
            by_cases hxp : x = p
            · subst hxp
              rw [alistFind_erase_self_of_nodup st.cc x hnd2.2.1] at hx
              exact Option.noConfusion hx
            · rw [alistFind_erase_ne st.cc p x hxp] at hx
              have hold := hcc x cnt' hx
              rw [List.count_cons_of_ne hxp] at hold
              exact hold
          · intro x hxk
            dsimp only at hxk
            have hxcc : x ∈ alistKeys st.cc :=
              hkp.symm.subset (List.mem_cons_of_mem p hxk)
            exact hccne x hxcc
          · intro x hxg
            show (if x = p then some R else st.ranks x) = _
            by_cases hxp : x = p
            · subst hxp
              rw [if_pos rfl]
              exact hval _ (fun c hc => hstableE _ _ _ x c hc)
            · rw [if_neg hxp, hrank x hxg,
                rankForm_ranks_congr g D cr (qs ++ [p]) st _ x
                  (fun c hc => hstableE _ _ _ x c hc)]
              refine rankForm_congr g D cr st x ?_
              rw [List.count_append]
              have h0 : List.count x [p] = 0 := by
                simp [List.count_singleton, hxp]
              omega
          · intro x hx
            dsimp only at hx
            rcases hx with hx | hx
            · exact hfull x (Or.inl hx)
            · rcases List.mem_append.1 hx with hx | hx
              · exact hfull x (Or.inr hx)
              · rw [List.mem_singleton] at hx
                subst hx
                exact hpend0
          · intro x hx
            dsimp only at hx ⊢
            by_cases hxp : x = p
            · subst hxp
              have h2 : rnkOf
                  { ranks := fun a => if a = x then some R else st.ranks a,
                    cc := alistErase st.cc x, queue := st.queue ++ [x],
                    max_rank := max st.max_rank R } x = R := by
                simp [rnkOf]
              rw [h2]
              exact le_max_right _ _
            · have hxold : x ∈ D ++ [current] ∨ x ∈ st.queue := by
                rcases hx with hx | hx
                · exact Or.inl hx
                · rcases List.mem_append.1 hx with hx | hx
                  · exact Or.inr hx
                  · rw [List.mem_singleton] at hx
                    exact absurd hx hxp
              have h2 : rnkOf
                  { ranks := fun a => if a = p then some R else st.ranks a,
                    cc := alistErase st.cc p, queue := st.queue ++ [p],
                    max_rank := max st.max_rank R } x = rnkOf st x := by
                simp [rnkOf, hxp]
              rw [h2]
              exact le_trans (hmax x hxold) (le_max_left _ _)
          · show (if current = p then some R else st.ranks current)
              = some cr
            rw [if_neg hpcur]
            exact hcur
          · intro q hq
            dsimp only
            by_cases hqp : q = p
            · subst hqp
              right
              rw [List.count_append, List.count_singleton_self]
              omega
            · rcases hprov q (List.mem_cons_of_mem p hq) with h1 | h1
              · left
                rcases List.mem_cons.1 (hkp.subset h1) with h2 | h2
                · exact absurd h2 hqp
                · exact h2
              · right
                rw [List.count_append]
                omega
        have hres := ih (qs ++ [p]) _ hI'
        rwa [List.append_assoc, List.singleton_append] at hres
      · simp only [hz, if_false]
        set R : Nat := (match st.ranks p with
          | none => cr + 1
          | some r => max r (cr + 1)) with hR
        have hstableE : ∀ (cc' : List (ASN × Int)) (q' : List ASN)
            (m' : Nat) (x : ASN), ∀ c ∈ doneCusts g D x,
            rnkOf
              { ranks := fun a => if a = p then some R else st.ranks a,
                cc := cc', queue := q', max_rank := m' } c = rnkOf st c := by
          intro cc' q' m' x c hcm
          have hcD : c ∈ D := (mem_doneCusts.1 hcm).2
          have hcp : c ≠ p := fun he =>
            hpD (by rw [← he] at hpD ⊢; exact List.mem_append_left _ hcD)
          simp [rnkOf, hcp]
        have hval : ∀ st' : KahnSt,
            (∀ c ∈ doneCusts g D p, rnkOf st' c = rnkOf st c) →
            (some R : Option Nat) = rankForm g D cr (qs ++ [p]) st' p := by
          intro st' hstable
          rw [rankForm_ranks_congr g D cr (qs ++ [p]) st st' p hstable]
          have hform2 : rankForm g D cr (qs ++ [p]) st p
              = some (1 + maxNat ((doneCusts g D p).map (rnkOf st)
                ++ [cr])) := by
            unfold rankForm
            rw [if_neg hcustp, if_neg hne0, if_neg hcnt0]
          rw [hform2, hR, hrankp]
          by_cases h0 : doneCusts g D p = [] ∧ qs.count p = 0
          · have hform0 : rankForm g D cr qs st p = none := by
              unfold rankForm
              rw [if_neg hcustp, if_pos h0]
            rw [hform0]
            dsimp only
            rw [h0.1]
            simp only [List.map_nil, List.nil_append, maxNat_singleton,
              Option.some.injEq]
            omega
          · have hformS : rankForm g D cr qs st p
                = some (1 + maxNat ((doneCusts g D p).map (rnkOf st) ++
                  (if qs.count p = 0 then [] else [cr]))) := by
              unfold rankForm
              rw [if_neg hcustp, if_neg h0]
            rw [hformS]
            dsimp only
            rcases Nat.eq_zero_or_pos (qs.count p) with hq0 | hqpos
            · rw [if_pos hq0]
              simp only [List.append_nil, Option.some.injEq]
              rw [maxNat_append, maxNat_singleton]
              omega
            · rw [if_neg (by omega)]
              simp only [Option.some.injEq]
              have hcrle : cr ≤ maxNat ((doneCusts g D p).map (rnkOf st)
                  ++ [cr]) :=
                le_maxNat
                  (List.mem_append_right _ (List.mem_singleton_self cr))
              omega
        have hI' : KahnInvI g D current cr (qs ++ [p]) ps
            { ranks := fun a => if a = p then some R else st.ranks a,
              cc := alistReplace st.cc p (cnt - 1), queue := st.queue,
              max_rank := st.max_rank } := by
          refine ⟨hsplit', ?_, ?_, ?_, ?_, ?_, ?_, ?_, ?_, ?_⟩
          · show ((D ++ [current]) ++ st.queue ++
                alistKeys (alistReplace st.cc p (cnt - 1))).Perm
              (alistKeys g.nodes)
            rw [alistKeys_replace]
            exact hperm
          · show ((D ++ [current]) ++ st.queue ++
                alistKeys (alistReplace st.cc p (cnt - 1))).Nodup
            rw [alistKeys_replace]
            exact hnodup
          · intro x cnt' hx
            dsimp only at hx
            by_cases hxp : x = p
            · subst hxp
              rw [alistFind_replace_self (cnt - 1) hf] at hx
              injection hx with hx
              constructor
              · rw [← hx]
                omega
              · omega
            · rw [alistFind_replace_ne (cnt - 1) hxp] at hx
              have hold := hcc x cnt' hx
              rw [List.count_cons_of_ne hxp] at hold
              exact hold
          · intro x hxk
            dsimp only at hxk
            rw [alistKeys_replace] at hxk
            exact hccne x hxk
          · intro x hxg
            show (if x = p then some R else st.ranks x) = _
            by_cases hxp : x = p
            · subst hxp
              rw [if_pos rfl]
              exact hval _ (fun c hc => hstableE _ _ _ x c hc)
            · rw [if_neg hxp, hrank x hxg,
                rankForm_ranks_congr g D cr (qs ++ [p]) st _ x
                  (fun c hc => hstableE _ _ _ x c hc)]
              refine rankForm_congr g D cr st x ?_
              rw [List.count_append]
              have h0 : List.count x [p] = 0 := by
                simp [List.count_singleton, hxp]
              omega
          · intro x hx
            dsimp only at hx
            exact hfull x hx
          · intro x hx
            dsimp only at hx ⊢
            have hxp : x ≠ p := by
              rcases hx with hx | hx
              · exact fun he => hpD (he ▸ hx)
              · exact fun he => hpq (he ▸ hx)
            have h2 : rnkOf
                { ranks := fun a => if a = p then some R else st.ranks a,
                  cc := alistReplace st.cc p (cnt - 1), queue := st.queue,
                  max_rank := st.max_rank } x = rnkOf st x := by
              simp [rnkOf, hxp]
            rw [h2]
            exact hmax x hx
          · show (if current = p then some R else st.ranks current)
              = some cr
            rw [if_neg hpcur]
            exact hcur
          · intro q hq
            rcases hprov q (List.mem_cons_of_mem p hq) with h1 | h1
            · left
              dsimp only
              rw [alistKeys_replace]
              exact h1
            · right
              rw [List.count_append]
              omega
        have hres := ih (qs ++ [p]) _ hI'
        rwa [List.append_assoc, List.singleton_append] at hres

theorem rankForm_nil_cr (g : ASGraph) (D : List ASN) (st : KahnSt)
    (x : ASN) (cr cr' : Nat) :
    rankForm g D cr [] st x = rankForm g D cr' [] st x := by
  unfold rankForm
  simp [List.count_nil]

theorem pendCusts_nil_ghost (g : ASGraph) (x : ASN) :
    pendCusts g [] x = g.customersOf x := by
  unfold pendCusts
  refine List.filter_eq_self.2 fun c hc => ?_
  simp

theorem kahnStep_entry (g : ASGraph) (hWF : g.WF) (D : List ASN)
    (st : KahnSt) (current : ASN) (rest : List ASN)
    (hq : st.queue = current :: rest) (hO : KahnInvO g D st) :
    KahnInvI g D current ((st.ranks current).getD 0) []
      (g.providersOf current)
      { ranks := st.ranks, cc := st.cc, queue := rest,
        max_rank := st.max_rank } := by
  obtain ⟨hperm, hnodup, hcc, hccne, hrank, hfull, hmax⟩ := hO
  rw [hq] at hperm hnodup
  have hcurq : current ∈ st.queue := by
    rw [hq]
    exact List.mem_cons_self _ _
  have hcurg : current ∈ alistKeys g.nodes := by
    refine hperm.subset ?_
    simp
  have hnd2 := List.nodup_append.1 hnodup
  have hnd3 := List.nodup_append.1 hnd2.1
  have hcurD : current ∉ D := fun hm =>
    hnd3.2.2 hm (List.mem_cons_self _ _)
  have harr : (D ++ [current]) ++ rest ++ alistKeys st.cc
      = D ++ (current :: rest) ++ alistKeys st.cc := by
    simp [List.append_assoc]
  have hfullcur : pendCusts g D current = [] := hfull current (Or.inr hcurq)
  have hcur' : ∃ r, st.ranks current = some r := by
    rw [hrank current hcurg]
    unfold rankForm
    by_cases hc0 : g.customersOf current = []
    · rw [if_pos hc0]
      exact ⟨0, rfl⟩
    · rw [if_neg hc0]
      have hdc : ¬(doneCusts g D current = [] ∧
          List.count current ([] : List ASN) = 0) := by
        rintro ⟨hdc, -⟩
        rw [doneCusts_eq_nil_iff] at hdc
        rw [pendCusts_eq_nil_iff] at hfullcur
        obtain ⟨c, hc⟩ := List.exists_mem_of_ne_nil _ hc0
        exact hdc c hc (hfullcur c hc)
      rw [if_neg hdc]
      exact ⟨_, rfl⟩
  obtain ⟨cr0, hcr0⟩ := hcur'
  refine ⟨(List.nil_append _).symm, ?_, ?_, ?_, hccne, ?_, ?_, ?_, ?_, ?_⟩
  · show ((D ++ [current]) ++ rest ++ alistKeys st.cc).Perm
      (alistKeys g.nodes)
    rw [harr]
    exact hperm
  · show ((D ++ [current]) ++ rest ++ alistKeys st.cc).Nodup
    rw [harr]
    exact hnodup
  · intro x cnt hx
    dsimp only at hx
    have hold := hcc x cnt hx
    have hxk : x ∈ alistKeys st.cc := mem_keys_of_find hx
    have hxg : x ∈ alistKeys g.nodes := by
      refine hperm.subset ?_
      simp [hxk]
    have hsymm : (g.providersOf current).count x
        = (g.customersOf x).count current := count_symm g hWF hcurg hxg
    have hlen := pendCusts_snoc_length g D current x hcurD
    have hpos : 1 ≤ (pendCusts g D x).length := by
      have h2 := hold.2
      rw [← List.length_pos] at h2
      omega
    constructor
    · rw [hold.1, hsymm.symm] at *
      omega
    · rw [← hsymm] at hlen
      omega
  · intro x hxg
    show st.ranks x = _
    rw [hrank x hxg,
      rankForm_ranks_congr g D ((st.ranks current).getD 0) [] st
        { ranks := st.ranks, cc := st.cc, queue := rest,
          max_rank := st.max_rank } x (fun c hc => rfl)]
    exact rankForm_nil_cr g D st x 0 ((st.ranks current).getD 0)
  · intro x hx
    dsimp only at hx
    rcases hx with hx | hx
    · rcases List.mem_append.1 hx with hx | hx
      · exact pendCusts_nil_mono current (hfull x (Or.inl hx))
      · rw [List.mem_singleton] at hx
        subst hx
        exact pendCusts_nil_mono x hfullcur
    · refine pendCusts_nil_mono current (hfull x (Or.inr ?_))
      rw [hq]
      exact List.mem_cons_of_mem _ hx
  · intro x hx
    dsimp only at hx ⊢
    rcases hx with hx | hx
    · rcases List.mem_append.1 hx with hx | hx
      · exact hmax x (Or.inl hx)
      · rw [List.mem_singleton] at hx
        subst hx
        exact hmax x (Or.inr hcurq)
    · refine hmax x (Or.inr ?_)
      rw [hq]
      exact List.mem_cons_of_mem _ hx
  · show st.ranks current = some ((st.ranks current).getD 0)
    rw [hcr0]
    rfl
  · intro p hp
    left
    dsimp only
    obtain ⟨cnode, -, -, -, hcprovs⟩ := node_of_mem_keys g hWF.1 hcurg
    have hpg : p ∈ alistKeys g.nodes := by
      obtain ⟨cnode2, -, hcpair, -, hcprovs2⟩ := node_of_mem_keys g hWF.1
        hcurg
      refine hWF.2.1 (current, cnode2) hcpair p ?_
      rw [← hcprovs2]
      exact hp
    by_cases hpDq : p ∈ D ∨ p ∈ st.queue
    · exfalso
      have hpd := hfull p hpDq
      rw [pendCusts_eq_nil_iff] at hpd
      have hcur_in : current ∈ g.customersOf p := by
        rw [← List.count_pos_iff]
        rw [← count_symm g hWF hcurg hpg]
        rw [List.count_pos_iff]
        exact hp
      exact hcurD (hpd current hcur_in)
    · have hpbig : p ∈ D ++ (current :: rest) ++ alistKeys st.cc :=
        hperm.symm.subset hpg
      push_neg at hpDq
      rcases List.mem_append.1 hpbig with h1 | h1
      · rcases List.mem_append.1 h1 with h2 | h2
        · exact absurd h2 hpDq.1
        · rw [← hq] at h2
          exact absurd h2 hpDq.2
      · exact h1

theorem kahnStep_exit (g : ASGraph) (hWF : g.WF) (D : List ASN)
    (current : ASN) (cr : Nat) (st : KahnSt)
    (hI : KahnInvI g D current cr (g.providersOf current) [] st) :
    KahnInvO g (D ++ [current]) st := by
  obtain ⟨hsplit, hperm, hnodup, hcc, hccne, hrank, hfull, hmax, hcur,
    hprov⟩ := hI
  have hcurg : current ∈ alistKeys g.nodes := by
    refine hperm.subset ?_
    simp
  have hrnkcur : rnkOf st current = cr := by
    unfold rnkOf
    rw [hcur]
    rfl
  refine ⟨hperm, hnodup, ?_, hccne, ?_, hfull, hmax⟩
  · intro x cnt hx
    have hold := hcc x cnt hx
    rw [List.count_nil] at hold
    have h1 := hold.1
    have h2 := hold.2
    constructor
    · omega
    · rw [← List.length_pos]
      omega
  · intro x hxg
    rw [hrank x hxg]
    have hcount : (g.providersOf current).count x
        = (g.customersOf x).count current := count_symm g hWF hcurg hxg
    unfold rankForm
    by_cases hc0 : g.customersOf x = []
    · rw [if_pos hc0, if_pos hc0]
    · have hiff : (doneCusts g (D ++ [current]) x = []) ↔
          (doneCusts g D x = [] ∧
            List.count x (g.providersOf current) = 0) := by
        rw [doneCusts_eq_nil_iff, doneCusts_eq_nil_iff]
        have hcnt2 : List.count x (g.providersOf current) = 0 ↔
            current ∉ g.customersOf x := by
          rw [show List.count x (g.providersOf current) =
            (g.providersOf current).count x from rfl, hcount]
          exact List.count_eq_zero
        rw [hcnt2]
        constructor
        · intro h
          refine ⟨fun c hc hcD => h c hc (List.mem_append_left _ hcD), ?_⟩
          intro hmem
          exact h current hmem
            (List.mem_append_right _ (List.mem_singleton_self current))
        · rintro ⟨hl, hr⟩ c hc hcD
          rcases List.mem_append.1 hcD with hd | hd
          · exact hl c hc hd
          · rw [List.mem_singleton] at hd
            subst hd
            exact hr hc
      rw [if_neg hc0, if_neg hc0]
      simp only [List.count_nil]
      by_cases h0 : doneCusts g D x = [] ∧
          List.count x (g.providersOf current) = 0
      · rw [if_pos h0]
        rw [if_pos (show doneCusts g (D ++ [current]) x = [] ∧ True from
          ⟨hiff.2 h0, trivial⟩)]
      · rw [if_neg h0]
        have hA' : ¬(doneCusts g (D ++ [current]) x = [] ∧ True) :=
          fun hh => h0 (hiff.1 hh.1)
        rw [if_neg hA']
        simp only [if_true, List.append_nil]
        congr 1
        congr 1
        refine maxNat_eq_dom ?_ ?_
        · intro a ha
          rcases List.mem_append.1 ha with ha | ha
          · obtain ⟨c, hcm, hav⟩ := List.mem_map.1 ha
            refine ⟨a, ?_, le_refl a⟩
            rw [← hav]
            refine List.mem_map_of_mem _ ?_
            rw [mem_doneCusts] at hcm ⊢
            exact ⟨hcm.1, List.mem_append_left _ hcm.2⟩
          · by_cases hk0 : List.count x (g.providersOf current) = 0
            · rw [if_pos hk0] at ha
              simp at ha
            · rw [if_neg hk0] at ha
              rw [List.mem_singleton] at ha
              have hcin : current ∈ g.customersOf x := by
                rw [← List.count_pos_iff]
                rw [show (g.customersOf x).count current =
                  (g.providersOf current).count x from hcount.symm]
                omega
              refine ⟨cr, ?_, le_of_eq ha⟩
              rw [← hrnkcur]
              refine List.mem_map_of_mem _ ?_
              rw [mem_doneCusts]
              exact ⟨hcin,
                List.mem_append_right _ (List.mem_singleton_self current)⟩
        · intro a ha
          obtain ⟨c, hcm, hav⟩ := List.mem_map.1 ha
          rw [mem_doneCusts] at hcm
          rcases List.mem_append.1 hcm.2 with hd | hd
          · refine ⟨a, List.mem_append_left _ ?_, le_refl a⟩
            rw [← hav]
            refine List.mem_map_of_mem _ ?_
            rw [mem_doneCusts]
            exact ⟨hcm.1, hd⟩
          · rw [List.mem_singleton] at hd
            rw [hd] at hcm hav
            have hk0 : ¬(List.count x (g.providersOf current) = 0) := by
              rw [show List.count x (g.providersOf current) =
                (g.customersOf x).count current from hcount]
              have hpos : 0 < List.count current (g.customersOf x) :=
                List.count_pos_iff.2 hcm.1
              omega
            refine ⟨cr, ?_, ?_⟩
            · rw [if_neg hk0]
              exact List.mem_append_right _ (List.mem_singleton_self cr)
            · rw [← hav, hrnkcur]

theorem kahnLoop_nil (g : ASGraph) (st : KahnSt) (h : st.queue = []) :
    kahnLoop g st = st := by
  rw [kahnLoop.eq_def, h]

theorem kahnLoop_cons_none (g : ASGraph) (st : KahnSt) (current : ASN)
    (rest : List ASN) (h : st.queue = current :: rest)
    (hn : alistFind g.nodes current = none) :
    kahnLoop g st = kahnLoop g
      { ranks := st.ranks, cc := st.cc, queue := rest,
        max_rank := st.max_rank } := by
  rw [kahnLoop.eq_def, h]
  simp only [hn]

theorem kahnLoop_cons_some (g : ASGraph) (st : KahnSt) (current : ASN)
    (rest : List ASN) (node : ASNode) (h : st.queue = current :: rest)
    (hn : alistFind g.nodes current = some node) :
    kahnLoop g st = kahnLoop g (kahnProviders ((st.ranks current).getD 0)
      node.providers
      { ranks := st.ranks, cc := st.cc, queue := rest,
        max_rank := st.max_rank }) := by
  rw [kahnLoop.eq_def, h]
  simp only [hn]

theorem kahnLoop_invO (g : ASGraph) (hWF : g.WF) :
    ∀ (n : Nat) (st : KahnSt) (D : List ASN), st.size ≤ n →
      KahnInvO g D st →
      ∃ D', KahnInvO g D' (kahnLoop g st) ∧ (kahnLoop g st).queue = [] := by
  intro n
  induction n with
  | zero =>
    intro st D hsz hO
    have hq : st.queue = [] := by
      rw [← List.length_eq_zero]
      have h2 : st.queue.length + st.cc.length ≤ 0 := hsz
      omega
    rw [kahnLoop_nil g st hq]
    exact ⟨D, hO, hq⟩
  | succ n ih =>
    intro st D hsz hO
    cases hq : st.queue with
    | nil =>
      rw [kahnLoop_nil g st hq]
      exact ⟨D, hO, hq⟩
    | cons current rest =>
      have hcurg : current ∈ alistKeys g.nodes := by
        refine hO.hperm.subset ?_
        simp [hq]
      obtain ⟨node, hnode, -, -, hprovs⟩ := node_of_mem_keys g hWF.1 hcurg
      rw [kahnLoop_cons_some g st current rest node hq hnode]
      have hI := kahnStep_entry g hWF D st current rest hq hO
      have hI2 := kahnProviders_inv g hWF D current
        ((st.ranks current).getD 0) (g.providersOf current) []
        { ranks := st.ranks, cc := st.cc, queue := rest,
          max_rank := st.max_rank } hI
      rw [List.nil_append] at hI2
      have hO2 := kahnStep_exit g hWF D current
        ((st.ranks current).getD 0) _ hI2
      rw [hprovs] at hO2
      have hsz2 : (kahnProviders ((st.ranks current).getD 0)
          node.providers
          { ranks := st.ranks, cc := st.cc, queue := rest,
            max_rank := st.max_rank }).size ≤ n := by
        rw [kahnProviders_size]
        have h2 : st.size ≤ n + 1 := hsz
        simp only [KahnSt.size] at h2 ⊢
        rw [hq] at h2
        simp only [List.length_cons] at h2
        omega
      exact ih _ (D ++ [current]) hsz2 hO2

theorem doneCusts_nil_ghost (g : ASGraph) (x : ASN) :
    doneCusts g [] x = [] := by
  unfold doneCusts
  rw [List.filter_eq_nil_iff]
  intro c hc
  simp

theorem kahnInit_fold :
    ∀ (rest done : List (ASN × ASNode)) (st : KahnSt), InitP done st →
      InitP (done ++ rest) (rest.foldl (fun st pr =>
        if pr.2.customers = [] then
          { st with
            ranks := fun a => if a = pr.1 then some 0 else st.ranks a,
            queue := st.queue ++ [pr.1] }
        else
          { st with cc := st.cc ++ [(pr.1, (pr.2.customers.length : Int))] })
        st) := by
  intro rest
  induction rest with
  | nil =>
    intro done st h
    simpa using h
  | cons pr rest ih =>
    intro done st h
    obtain ⟨h1, h2, h3, h4⟩ := h
    simp only [List.foldl_cons]
    have hstep : InitP (done ++ [pr]) (if pr.2.customers = [] then
        { st with
          ranks := fun a => if a = pr.1 then some 0 else st.ranks a,
          queue := st.queue ++ [pr.1] }
      else
        { st with cc := st.cc ++ [(pr.1, (pr.2.customers.length : Int))] })
        := by
      by_cases hc : pr.2.customers = []
      · rw [if_pos hc]
        refine ⟨h1, ?_, ?_, ?_⟩
        · show st.queue ++ [pr.1] = _
          rw [h2, List.filter_append]
          have hone : List.filter (fun pr =>
              decide (pr.2.customers = [])) [pr] = [pr] := by
            simp [hc]
          rw [hone, List.map_append]
          simp
        · show st.cc = _
          rw [h3, List.filter_append]
          have hone : List.filter (fun pr =>
              !decide (pr.2.customers = [])) [pr] = [] := by
            simp [hc]
          rw [hone, List.append_nil]
        · intro x
          show (if x = pr.1 then some 0 else st.ranks x) = _
          rw [List.filter_append]
          have hone : List.filter (fun pr =>
              decide (pr.2.customers = [])) [pr] = [pr] := by
            simp [hc]
          rw [hone, List.map_append]
          by_cases hx : x = pr.1
          · rw [if_pos hx]
            rw [if_pos (List.mem_append_right _ (by simp [hx]))]
          · rw [if_neg hx, h4 x]
            by_cases hmem : x ∈ (done.filter (fun pr =>
                decide (pr.2.customers = []))).map (fun pr => pr.1)
            · rw [if_pos hmem, if_pos (List.mem_append_left _ hmem)]
            · rw [if_neg hmem, if_neg ?_]
              intro hmem2
              rcases List.mem_append.1 hmem2 with hm | hm
              · exact hmem hm
              · simp at hm
                exact hx hm
      · rw [if_neg hc]
        refine ⟨h1, ?_, ?_, ?_⟩
        · show st.queue = _
          rw [h2, List.filter_append]
          have hone : List.filter (fun pr =>
              decide (pr.2.customers = [])) [pr] = [] := by
            simp [hc]
          rw [hone, List.append_nil]
        · show st.cc ++ [(pr.1, (pr.2.customers.length : Int))] = _
          rw [h3, List.filter_append]
          have hone : List.filter (fun pr =>
              !decide (pr.2.customers = [])) [pr] = [pr] := by
            simp [hc]
          rw [hone, List.map_append]
          simp
        · intro x
          show st.ranks x = _
          rw [h4 x, List.filter_append]
          have hone : List.filter (fun pr =>
              decide (pr.2.customers = [])) [pr] = [] := by
            simp [hc]
          rw [hone, List.append_nil]
    have hres := ih (done ++ [pr]) _ hstep
    rwa [List.append_assoc, List.singleton_append] at hres

theorem kahnInit_invO (g : ASGraph) (hWF : g.WF) :
    KahnInvO g [] (kahnInit g) := by
  have h0 : InitP ([] : List (ASN × ASNode))
      { ranks := fun _ => none, cc := [], queue := [], max_rank := 0 } := by
    refine ⟨rfl, rfl, rfl, ?_⟩
    intro x
    simp
  have hP : InitP g.nodes (kahnInit g) := by
    have h2 := kahnInit_fold g.nodes [] _ h0
    rw [List.nil_append] at h2
    exact h2
  obtain ⟨h1, h2, h3, h4⟩ := hP
  have hkeyscc : alistKeys (kahnInit g).cc
      = (g.nodes.filter (fun pr => !decide (pr.2.customers = []))).map
        (fun pr => pr.1) := by
    rw [h3]
    simp [alistKeys, List.map_map, Function.comp]
  have hperm0 : ((kahnInit g).queue ++ alistKeys (kahnInit g).cc).Perm
      (alistKeys g.nodes) := by
    rw [h2, hkeyscc, ← List.map_append]
    simp only [alistKeys]
    exact (List.filter_append_perm _ g.nodes).map (fun pr => pr.1)
  have hqiff : ∀ x, x ∈ (g.nodes.filter (fun pr =>
      decide (pr.2.customers = []))).map (fun pr => pr.1) ↔
      (x ∈ alistKeys g.nodes ∧ g.customersOf x = []) := by
    intro x
    constructor
    · intro hm
      obtain ⟨pr, hpr, hfst⟩ := List.mem_map.1 hm
      have hf := List.mem_filter.1 hpr
      have hmem : (x, pr.2) ∈ g.nodes := by
        rw [← hfst]
        exact hf.1
      have hfind := alistFind_eq_of_mem_nodup hWF.1 hmem
      constructor
      · exact mem_keys_of_find hfind
      · have hcust : g.customersOf x = pr.2.customers := by
          unfold ASGraph.customersOf ASGraph.getNode
          rw [hfind]
          rfl
        rw [hcust]
        simpa using hf.2
    · rintro ⟨hxg, hcx⟩
      obtain ⟨node, -, hmem, hcust, -⟩ := node_of_mem_keys g hWF.1 hxg
      refine List.mem_map.2 ⟨(x, node), ?_, rfl⟩
      refine List.mem_filter.2 ⟨hmem, ?_⟩
      simp only [decide_eq_true_eq]
      rw [← hcust]
      exact hcx
  refine ⟨?_, ?_, ?_, ?_, ?_, ?_, ?_⟩
  · rw [List.nil_append]
    exact hperm0
  · rw [List.nil_append]
    exact (hperm0.nodup_iff).2 hWF.1
  · intro x cnt hx
    have hmemcc := alistFind_some_mem hx
    rw [h3] at hmemcc
    obtain ⟨pr, hpr, heq⟩ := List.mem_map.1 hmemcc
    have hf := List.mem_filter.1 hpr
    have hfst : pr.1 = x := congrArg Prod.fst heq
    have hcnt : ((pr.2.customers.length : Int)) = cnt :=
      congrArg Prod.snd heq
    have hmem : (x, pr.2) ∈ g.nodes := by
      rw [← hfst]
      exact hf.1
    have hfind := alistFind_eq_of_mem_nodup hWF.1 hmem
    have hcust : g.customersOf x = pr.2.customers := by
      unfold ASGraph.customersOf ASGraph.getNode
      rw [hfind]
      rfl
    have hcne : pr.2.customers ≠ [] := by
      have hb := hf.2
      simp only [Bool.not_eq_true'] at hb
      exact fun he => by simp [he] at hb
    constructor
    · rw [pendCusts_nil_ghost, hcust, ← hcnt]
    · rw [pendCusts_nil_ghost, hcust]
      exact hcne
  · intro x hxk
    rw [hkeyscc] at hxk
    obtain ⟨pr, hpr, hfst⟩ := List.mem_map.1 hxk
    have hf := List.mem_filter.1 hpr
    have hmem : (x, pr.2) ∈ g.nodes := by
      rw [← hfst]
      exact hf.1
    have hfind := alistFind_eq_of_mem_nodup hWF.1 hmem
    have hcust : g.customersOf x = pr.2.customers := by
      unfold ASGraph.customersOf ASGraph.getNode
      rw [hfind]
      rfl
    rw [hcust]
    have hb := hf.2
    simp only [Bool.not_eq_true'] at hb
    exact fun he => by simp [he] at hb
  · intro x hxg
    rw [h4 x]
    unfold rankForm
    have hdn : doneCusts g [] x = [] := doneCusts_nil_ghost g x
    by_cases hc0 : g.customersOf x = []
    · rw [if_pos hc0, if_pos ((hqiff x).2 ⟨hxg, hc0⟩)]
    · rw [if_neg hc0]
      rw [if_pos (show doneCusts g [] x = [] ∧
        List.count x ([] : List ASN) = 0 from ⟨hdn, by simp⟩)]
      rw [if_neg (fun hm => hc0 ((hqiff x).1 hm).2)]
  · intro x hx
    rcases hx with hx | hx
    · simp at hx
    · rw [h2] at hx
      rw [pendCusts_eq_nil_iff]
      intro c hc
      have hcx := ((hqiff x).1 hx).2
      rw [hcx] at hc
      simp at hc
  · intro x hx
    rw [h1]
    unfold rnkOf
    rw [h4 x]
    by_cases hm : x ∈ (g.nodes.filter (fun pr =>
        decide (pr.2.customers = []))).map (fun pr => pr.1)
    · rw [if_pos hm]
      simp
    · rw [if_neg hm]
      simp

theorem kahn_final_cc_nil (g : ASGraph) (hWF : g.WF) (m : ASN → Nat)
    (htopo : ∀ e ∈ g.edgeList, m e.1 < m e.2) (D : List ASN) (st : KahnSt)
    (hO : KahnInvO g D st) (hq : st.queue = []) : st.cc = [] := by
  have hstep : ∀ x ∈ alistKeys st.cc, ∃ c ∈ alistKeys st.cc, m c < m x := by
    intro x hx
    obtain ⟨cnt, hfind⟩ := alistFind_isSome_of_mem_keys hx
    have hcx := hO.hcc x cnt hfind
    obtain ⟨c, hc⟩ := List.exists_mem_of_ne_nil _ hcx.2
    have hcmem : c ∈ g.customersOf x ∧ c ∉ D := by
      unfold pendCusts at hc
      have h2 := List.mem_filter.1 hc
      refine ⟨h2.1, ?_⟩
      simpa using h2.2
    have hxg : x ∈ alistKeys g.nodes := by
      refine hO.hperm.subset ?_
      simp [hx]
    have hcg := customersOf_closure g hWF hxg hcmem.1
    have hcbig : c ∈ D ++ st.queue ++ alistKeys st.cc :=
      hO.hperm.symm.subset hcg
    have hccc : c ∈ alistKeys st.cc := by
      rcases List.mem_append.1 hcbig with h1 | h1
      · rcases List.mem_append.1 h1 with h2 | h2
        · exact absurd h2 hcmem.2
        · rw [hq] at h2
          simp at h2
      · exact h1
    have hxprov : x ∈ g.providersOf c := by
      rw [← List.count_pos_iff]
      rw [count_symm g hWF hcg hxg]
      rw [List.count_pos_iff]
      exact hcmem.1
    have hedge : (c, x) ∈ g.edgeList := by
      unfold ASGraph.edgeList
      rw [List.mem_flatMap]
      obtain ⟨cnode, -, hcpair, -, hcprovs⟩ := node_of_mem_keys g hWF.1 hcg
      refine ⟨(c, cnode), hcpair, ?_⟩
      rw [List.mem_map]
      refine ⟨x, ?_, rfl⟩
      rw [← hcprovs]
      exact hxprov
    exact ⟨c, hccc, htopo (c, x) hedge⟩
  have hkey : ∀ (n : Nat) (x : ASN), x ∈ alistKeys st.cc → m x ≤ n →
      False := by
    intro n
    induction n with
    | zero =>
      intro x hx hm
      obtain ⟨c, -, hlt⟩ := hstep x hx
      omega
    | succ n ih =>
      intro x hx hm
      obtain ⟨c, hc, hlt⟩ := hstep x hx
      exact ih c hc (by omega)
  cases hcc : st.cc with
  | nil => rfl
  | cons pr rest =>
    exfalso
    refine hkey (m pr.1) pr.1 ?_ le_rfl
    rw [hcc]
    simp [alistKeys]

/-- The final ranks computed by `flattenGraph`'s loop, on an acyclic
well-formed graph: customer-less ASes get rank 0, the others one more
than the largest customer rank; every AS's rank is bounded by the final
`max_rank`. -/
theorem kahn_final (g : ASGraph) (hWF : g.WF) (m : ASN → Nat)
    (htopo : ∀ e ∈ g.edgeList, m e.1 < m e.2) :
    ∀ x ∈ alistKeys g.nodes,
      ((g.customersOf x = [] →
        (kahnLoop g (kahnInit g)).ranks x = some 0) ∧
       (g.customersOf x ≠ [] →
        (kahnLoop g (kahnInit g)).ranks x = some (1 + maxNat
          ((g.customersOf x).map (rnkOf (kahnLoop g (kahnInit g))))))) ∧
      rnkOf (kahnLoop g (kahnInit g)) x
        ≤ (kahnLoop g (kahnInit g)).max_rank := by
  obtain ⟨D, hO, hq⟩ := kahnLoop_invO g hWF (kahnInit g).size
    (kahnInit g) [] le_rfl (kahnInit_invO g hWF)
  have hccnil : (kahnLoop g (kahnInit g)).cc = [] :=
    kahn_final_cc_nil g hWF m htopo D _ hO hq
  have hDall : ∀ x ∈ alistKeys g.nodes, x ∈ D := by
    intro x hxg
    have hbig := hO.hperm.symm.subset hxg
    rcases List.mem_append.1 hbig with h1 | h1
    · rcases List.mem_append.1 h1 with h2 | h2
      · exact h2
      · rw [hq] at h2
        simp at h2
    · rw [hccnil] at h1
      simp [alistKeys] at h1
  intro x hxg
  have hdone : doneCusts g D x = g.customersOf x := by
    unfold doneCusts
    refine List.filter_eq_self.2 fun c hc => ?_
    simp only [decide_eq_true_eq]
    exact hDall c (customersOf_closure g hWF hxg hc)
  have hrankx := hO.hrank x hxg
  constructor
  · constructor
    · intro hc0
      rw [hrankx]
      unfold rankForm
      rw [if_pos hc0]
    · intro hc0
      rw [hrankx]
      unfold rankForm
      rw [if_neg hc0]
      have hne : ¬(doneCusts g D x = [] ∧
          List.count x ([] : List ASN) = 0) := by
        rintro ⟨hdc, -⟩
        rw [hdone] at hdc
        exact hc0 hdc
      rw [if_neg hne]
      rw [hdone]
      simp
  · exact hO.hmax x (Or.inl (hDall x hxg))

theorem alistFind_map_keyed {κ α β : Type} [DecidableEq κ]
    (f : κ → α → β) :
    ∀ (l : List (κ × α)) (k : κ),
      alistFind (l.map (fun pr => (pr.1, f pr.1 pr.2))) k
        = (alistFind l k).map (f k) := by
  intro l
  induction l with
  | nil => intro k; rfl
  | cons hd tl ih =>
    intro k
    obtain ⟨k1, v1⟩ := hd
    by_cases hk : k1 = k
    · subst hk
      simp [alistFind]
    · simp [alistFind, hk, ih]

theorem getNode_flattenGraph (g : ASGraph) (x : ASN) :
    g.flattenGraph.getNode x = (g.getNode x).map (fun n =>
      { n with propagation_rank :=
        ((((kahnLoop g (kahnInit g)).ranks x).getD 0 : Nat) : Int) }) := by
  unfold ASGraph.flattenGraph ASGraph.getNode
  dsimp only
  exact alistFind_map_keyed (fun k n =>
    { n with propagation_rank :=
      ((((kahnLoop g (kahnInit g)).ranks k).getD 0 : Nat) : Int) })
    g.nodes x

theorem prankNat_flattenGraph (g : ASGraph) (x : ASN)
    (hx : x ∈ alistKeys g.nodes) :
    g.flattenGraph.prankNat x = rnkOf (kahnLoop g (kahnInit g)) x := by
  unfold ASGraph.prankNat
  rw [getNode_flattenGraph]
  obtain ⟨v, hv⟩ := alistFind_isSome_of_mem_keys hx
  have hv2 : g.getNode x = some v := hv
  rw [hv2]
  simp [rnkOf]

theorem length_pushAt (rk : List (List ASN)) (i : Nat) (a : ASN) :
    (pushAt rk i a).length = rk.length := by
  unfold pushAt
  exact List.length_set rk i _

theorem getD_pushAt_self : ∀ (rk : List (List ASN)) (i : Nat) (a : ASN),
    i < rk.length → (pushAt rk i a).getD i [] = rk.getD i [] ++ [a] := by
  intro rk
  induction rk with
  | nil =>
    intro i a h
    simp at h
  | cons hd tl ih =>
    intro i a h
    cases i with
    | zero => rfl
    | succ i =>
      show (pushAt tl i a).getD i [] = tl.getD i [] ++ [a]
      exact ih i a (by simpa using h)

theorem getD_pushAt_ne : ∀ (rk : List (List ASN)) (i j : Nat) (a : ASN),
    j ≠ i → (pushAt rk i a).getD j [] = rk.getD j [] := by
  intro rk
  induction rk with
  | nil => intro i j a h; rfl
  | cons hd tl ih =>
    intro i j a h
    cases i with
    | zero =>
      cases j with
      | zero => exact absurd rfl h
      | succ j => rfl
    | succ i =>
      cases j with
      | zero => rfl
      | succ j => exact ih i j a (fun he => h (by rw [he]))

theorem getD_replicate_nilList : ∀ (n r : Nat),
    (List.replicate n ([] : List ASN)).getD r [] = [] := by
  intro n
  induction n with
  | zero => intro r; rfl
  | succ n ih =>
    intro r
    cases r with
    | zero => rfl
    | succ r => exact ih r

theorem ranked_fold_getD (rnkf : ASN → Nat) :
    ∀ (l : List (ASN × ASNode)) (rk : List (List ASN)) (r : Nat),
      (∀ pr ∈ l, rnkf pr.1 < rk.length) →
      (l.foldl (fun rk pr => pushAt rk (rnkf pr.1) pr.1) rk).getD r []
        = rk.getD r [] ++
          (l.filter (fun pr => decide (rnkf pr.1 = r))).map
            (fun pr => pr.1) := by
  intro l
  induction l with
  | nil =>
    intro rk r h
    simp
  | cons pr rest ih =>
    intro rk r h
    simp only [List.foldl_cons]
    have hlen : ∀ q ∈ rest,
        rnkf q.1 < (pushAt rk (rnkf pr.1) pr.1).length := by
      intro q hq
      rw [length_pushAt]
      exact h q (List.mem_cons_of_mem pr hq)
    rw [ih (pushAt rk (rnkf pr.1) pr.1) r hlen]
    by_cases hr : rnkf pr.1 = r
    · subst hr
      rw [getD_pushAt_self rk _ pr.1 (h pr (List.mem_cons_self pr rest))]
      have hfilter : List.filter (fun q => decide (rnkf q.1 = rnkf pr.1))
          (pr :: rest)
          = pr :: List.filter (fun q => decide (rnkf q.1 = rnkf pr.1))
            rest := by
        simp
      rw [hfilter]
      simp [List.append_assoc]
    · rw [getD_pushAt_ne rk _ r pr.1 (fun he => hr he.symm)]
      have hfilter : List.filter (fun q => decide (rnkf q.1 = r))
          (pr :: rest)
          = List.filter (fun q => decide (rnkf q.1 = r)) rest := by
        simp [hr]
      rw [hfilter]

theorem ranked_flattenGraph (g : ASGraph) (r : Nat)
    (hbound : ∀ pr ∈ g.nodes,
      ((kahnLoop g (kahnInit g)).ranks pr.1).getD 0
        < (kahnLoop g (kahnInit g)).max_rank + 1) :
    g.flattenGraph.ranked_ases.getD r []
      = (g.nodes.filter (fun pr =>
          decide (((kahnLoop g (kahnInit g)).ranks pr.1).getD 0 = r))).map
        (fun pr => pr.1) := by
  have hbound2 : ∀ pr ∈ g.nodes,
      (fun asn => ((kahnLoop g (kahnInit g)).ranks asn).getD 0) pr.1
        < (List.replicate ((kahnLoop g (kahnInit g)).max_rank + 1)
          ([] : List ASN)).length := by
    intro pr hpr
    simpa using hbound pr hpr
  have h2 := ranked_fold_getD
    (fun asn => ((kahnLoop g (kahnInit g)).ranks asn).getD 0) g.nodes
    (List.replicate ((kahnLoop g (kahnInit g)).max_rank + 1) []) r hbound2
  rw [getD_replicate_nilList, List.nil_append] at h2
  exact h2

/-- C5: `flattenGraph` on an acyclic topology (witnessed by a topological
numbering `m` of the customer→provider edges) assigns: rank 0 to every
AS without customers, 1 + the maximum customer rank to every AS with
customers (hence every customer has a strictly smaller rank than its
provider), writes that rank into `propagation_rank` (as a non-negative
integer), and fills `ranked_ases` so that slot `r` holds exactly the
ASes of rank `r`. -/
theorem c5_flatten_ranks (g : ASGraph) (m : ASN → Nat) (hWF : g.WF)
    (htopo : ∀ e ∈ g.edgeList, m e.1 < m e.2) :
    (∀ x ∈ alistKeys g.nodes,
      (g.flattenGraph.getNode x).map ASNode.propagation_rank
        = some ((g.flattenGraph.prankNat x : Int))) ∧
    (∀ x ∈ alistKeys g.nodes, g.customersOf x = [] →
      g.flattenGraph.prankNat x = 0) ∧
    (∀ x ∈ alistKeys g.nodes, g.customersOf x ≠ [] →
      g.flattenGraph.prankNat x
        = 1 + maxNat ((g.customersOf x).map g.flattenGraph.prankNat)) ∧
    (∀ x ∈ alistKeys g.nodes, ∀ c ∈ g.customersOf x,
      g.flattenGraph.prankNat c < g.flattenGraph.prankNat x) ∧
    (∀ (r : Nat) (x : ASN), x ∈ g.flattenGraph.ranked_ases.getD r [] ↔
      (x ∈ alistKeys g.nodes ∧ g.flattenGraph.prankNat x = r)) := by
  have hkf := kahn_final g hWF m htopo
  have hrank3 : ∀ x ∈ alistKeys g.nodes, g.customersOf x ≠ [] →
      g.flattenGraph.prankNat x
        = 1 + maxNat ((g.customersOf x).map g.flattenGraph.prankNat) := by
    intro x hx hc0
    rw [prankNat_flattenGraph g x hx]
    have h2 := ((hkf x hx).1.2) hc0
    unfold rnkOf
    rw [h2]
    show 1 + maxNat _ = _
    congr 1
    congr 1
    refine List.map_congr_left fun c hc => ?_
    rw [prankNat_flattenGraph g c
      (customersOf_closure g hWF hx hc)]
  refine ⟨?_, ?_, hrank3, ?_, ?_⟩
  · intro x hx
    rw [getNode_flattenGraph, prankNat_flattenGraph g x hx]
    obtain ⟨v, hv⟩ := alistFind_isSome_of_mem_keys hx
    have hv2 : g.getNode x = some v := hv
    rw [hv2]
    rfl
  · intro x hx hc0
    rw [prankNat_flattenGraph g x hx]
    have h2 := ((hkf x hx).1.1) hc0
    unfold rnkOf
    rw [h2]
    rfl
  · intro x hx c hc
    have hc0 : g.customersOf x ≠ [] := List.ne_nil_of_mem hc
    rw [hrank3 x hx hc0]
    have hle : g.flattenGraph.prankNat c
        ≤ maxNat ((g.customersOf x).map g.flattenGraph.prankNat) :=
      le_maxNat (List.mem_map_of_mem _ hc)
    omega
  · have hbound : ∀ pr ∈ g.nodes,
        ((kahnLoop g (kahnInit g)).ranks pr.1).getD 0
          < (kahnLoop g (kahnInit g)).max_rank + 1 := by
      intro pr hpr
      have hk : pr.1 ∈ alistKeys g.nodes :=
        List.mem_map_of_mem (fun q : ASN × ASNode => q.1) hpr
      have h2 := (hkf pr.1 hk).2
      unfold rnkOf at h2
      omega
    intro r x
    rw [ranked_flattenGraph g r hbound]
    constructor
    · intro hm
      obtain ⟨pr, hpr, hfst⟩ := List.mem_map.1 hm
      have hf := List.mem_filter.1 hpr
      have hk : pr.1 ∈ alistKeys g.nodes :=
        List.mem_map_of_mem (fun q : ASN × ASNode => q.1) hf.1
      rw [← hfst]
      refine ⟨hk, ?_⟩
      rw [prankNat_flattenGraph g pr.1 hk]
      unfold rnkOf
      simpa using hf.2
    · rintro ⟨hxk, hpr⟩
      obtain ⟨node, -, hmem, -, -⟩ := node_of_mem_keys g hWF.1 hxk
      refine List.mem_map.2 ⟨(x, node), ?_, rfl⟩
      refine List.mem_filter.2 ⟨hmem, ?_⟩
      simp only [decide_eq_true_eq]
      rw [← hpr, prankNat_flattenGraph g x hxk]
      rfl

/-- C5 witness: on the spec's T1 topology (built from its relationship
records), AS3 and AS4 get rank 0, AS2 rank 1, AS1 rank 2 = 1 + the
maximum over its customers, and `ranked_ases` slot 1 holds exactly
AS2. -/
theorem c5_witness :
    gT1.WF ∧ (∀ e ∈ gT1.edgeList, mT1 e.1 < mT1 e.2) ∧
    gT1.flattenGraph.prankNat 3 = 0 ∧
    gT1.flattenGraph.prankNat 1 =
      1 + maxNat ((gT1.customersOf 1).map gT1.flattenGraph.prankNat) ∧
    (2 ∈ gT1.flattenGraph.ranked_ases.getD 1 [] ↔
      (2 ∈ alistKeys gT1.nodes ∧ gT1.flattenGraph.prankNat 2 = 1)) :=
  ⟨by unfold ASGraph.WF; decide, by decide,
   (c5_flatten_ranks gT1 mT1 (by unfold ASGraph.WF; decide) (by decide)).2.1
     3 (by decide) (by decide),
   (c5_flatten_ranks gT1 mT1 (by unfold ASGraph.WF; decide) (by decide)).2.2.1
     1 (by decide) (by decide),
   (c5_flatten_ranks gT1 mT1 (by unfold ASGraph.WF; decide)
     (by decide)).2.2.2.2 1 2⟩

end BGPSim
